import Mathlib

/-!
# ACM certificate data source (`aws/data_source_aws_acm_certificate.go`)

A shallow embedding of `dataSourceAwsAcmCertificateRead`, of the comparator
`byCreationDateDescending` and of the `sort.Sort` routine it is handed to,
followed by the properties proved about them.

Conventions of the embedding:

* a Go `panic` (nil dereference, index out of range) is the `none` of `Option`;
* every `for` statement is a recursive function over a fuel argument that
  is the loop's variant, so that fuel `0` coincides with the loop's exit test;
* Go `int` values are natural numbers: every index handled here is bounded by
  a slice length, far below `2^63`, so no operation wraps.
-/

namespace AcmCertificate

/-! ## Data model -/

/-- A `time.Time` value: the instant it denotes (nanoseconds since the epoch)
and the location it is presented in. `Before` looks at the instant only. -/
structure Time where
  nanos : Int
  zone : Int
deriving DecidableEq, Repr

/-- The method `t.Before(u)`: the instant of `t` is strictly before that of `u`. -/
def Time.Before (t u : Time) : Bool := decide (t.nanos < u.nanos)

/-- Modelled from the spec: the record `acm.CertificateSummary` of the AWS SDK,
whose declaration is outside the source tree. Section 3 of the specification
gives it a domain name and an identifier, both plain strings. -/
structure CertificateSummary where
  DomainName : String
  CertificateArn : String
deriving DecidableEq, Repr

/-- Modelled from the spec: the record `acm.CertificateDetail` of the AWS SDK,
whose declaration is outside the source tree. Section 3 of the specification
gives it an identifier, a type, and two optional timestamps. -/
structure CertificateDetail where
  CertificateArn : String
  Type_ : String
  CreatedAt : Option Time
  ImportedAt : Option Time
deriving DecidableEq, Repr

/-- One page of a listing, `acm.ListCertificatesOutput`. -/
structure ListCertificatesOutput where
  CertificateSummaryList : List CertificateSummary
deriving DecidableEq, Repr

/-- A transport or service error returned by one of the two ACM calls. -/
structure ApiError where
  message : String
deriving DecidableEq, Repr

/-- The errors `dataSourceAwsAcmCertificateRead` returns: `errwrap.Wrapf format err`
and `fmt.Errorf format target`. -/
inductive Error where
  | Wrapf (format : String) (err : ApiError)
  | Errorf (format : String) (target : String)
deriving DecidableEq, Repr

/-- The way a call of the read function ends: it returns `nil`, returns an
error, or panics. -/
inductive Return where
  | nil
  | error (e : Error)
  | panicked
deriving DecidableEq, Repr

/-- The requests sent to the ACM service, in the order they are issued. -/
inductive Call where
  | ListCertificatesPages (CertificateStatuses : List String)
  | DescribeCertificate (CertificateArn : String)
deriving DecidableEq, Repr

/-- What the listing answers for a status filter: the pages it streams to the
callback, then the error that ends the stream, if any. -/
structure Listing where
  pages : List ListCertificatesOutput
  err : Option ApiError
deriving DecidableEq, Repr

/-- The two collaborators behind `meta.(*AWSClient).acmconn`. The describer is
given the number of describe calls already made in this invocation, so that its
answer for an identifier may differ from one call to the next. -/
structure ACM where
  listCertificates : List String → Listing
  describeCertificate : Nat → String → Except ApiError CertificateDetail

/-- The `schema.ResourceData` of the data source: the four configured fields
(`statuses` and `types` are optional lists), the resource id and the computed
`arn`. -/
structure ResourceData where
  domain : String
  statuses : Option (List String)
  types : Option (List String)
  most_recent : Bool
  id : String
  arn : Option String
deriving DecidableEq, Repr

/-- The method `d.GetOk(key)` on an optional list field: the value, and whether
it was set to something other than the zero value (the empty list). -/
def ResourceData.GetOk (v : Option (List String)) : List String × Bool :=
  match v with
  | none => ([], false)
  | some l => (l, !l.isEmpty)

/-- The method `d.SetId`. -/
def ResourceData.SetId (d : ResourceData) (v : String) : ResourceData :=
  { d with id := v }

/-- The call `d.Set("arn", v)`. -/
def ResourceData.SetArn (d : ResourceData) (v : String) : ResourceData :=
  { d with arn := some v }

/-- Modelled from the spec: the helper `expandStringList` of this provider,
which is outside the source tree. It turns the configured list into the list of
strings handed to the SDK; the specification uses the configured values as they
are, in their order. -/
def expandStringList (configured : List String) : List String :=
  configured

/-! ## The comparator `byCreationDateDescending` -/

/-- The function `timestamp`: `CreatedAt`, or `ImportedAt` when `CreatedAt` is nil;
dereferencing nil panics. -/
def timestamp (cert : CertificateDetail) : Option Time :=
  let ret := cert.CreatedAt
  let ret := if ret = none then cert.ImportedAt else ret
  ret

/-- The slice type `byCreationDateDescending`. -/
abbrev byCreationDateDescending := List CertificateDetail

def byCreationDateDescending.Len (b : byCreationDateDescending) : Nat :=
  b.length

def byCreationDateDescending.Less (b : byCreationDateDescending) (i j : Nat) :
    Option Bool := do
  let bi ← b[i]?
  let bj ← b[j]?
  let iTs ← timestamp bi
  let jTs ← timestamp bj
  pure (jTs.Before iTs)

def byCreationDateDescending.Swap (b : byCreationDateDescending) (i j : Nat) :
    Option byCreationDateDescending := do
  let bi ← b[i]?
  let bj ← b[j]?
  pure ((b.set i bj).set j bi)

end AcmCertificate

/-! ## Package `sort`

The routine `sort.Sort` of the Go standard library as shipped with the
toolchains this provider was built with (the quicksort used up to Go 1.18:
median-of-three and ninther pivot, heapsort once the depth budget is spent, a
gap-6 pass and insertion sort on runs of at most twelve elements). Its
documentation states that the sort is not guaranteed to be stable. -/

namespace GoSort

/-- The type `sort.Interface` over a collection of type `σ`. -/
structure Interface (σ : Type) where
  Len : σ → Nat
  Less : σ → Nat → Nat → Option Bool
  Swap : σ → Nat → Nat → Option σ

variable {σ : Type}

/-- The inner loop of `insertionSort`:
`for j := i; j > a && data.Less(j, j-1); j-- { data.Swap(j, j-1) }`. -/
def insertionSort.inner (I : Interface σ) (a : Nat) : Nat → σ → Option σ
  | 0, data => some data
  | j + 1, data =>
    if j + 1 > a then do
      if (← I.Less data (j + 1) j) then
        let data ← I.Swap data (j + 1) j
        insertionSort.inner I a j data
      else pure data
    else pure data

/-- The outer loop of `insertionSort`, `for i := a + 1; i < b; i++`, with
fuel `b - i`. -/
def insertionSort.outer (I : Interface σ) (a b : Nat) : Nat → Nat → σ → Option σ
  | 0, _, data => some data
  | fuel + 1, i, data =>
    if i < b then do
      let data ← insertionSort.inner I a i data
      insertionSort.outer I a b fuel (i + 1) data
    else pure data

def insertionSort (I : Interface σ) (data : σ) (a b : Nat) : Option σ :=
  insertionSort.outer I a b (b - (a + 1)) (a + 1) data

/-- The loop of `siftDown`, with fuel `hi - root`: once the fuel is spent
`root ≥ hi`, hence `child ≥ hi` and the loop returns. -/
def siftDown.loop (I : Interface σ) (hi first : Nat) : Nat → Nat → σ → Option σ
  | 0, _, data => some data
  | fuel + 1, root, data =>
    let child := 2 * root + 1
    if child ≥ hi then pure data
    else do
      let lt ← if child + 1 < hi then I.Less data (first + child) (first + child + 1)
               else pure false
      let child := if lt then child + 1 else child
      if !(← I.Less data (first + root) (first + child)) then pure data
      else
        let data ← I.Swap data (first + root) (first + child)
        siftDown.loop I hi first fuel child data

def siftDown (I : Interface σ) (data : σ) (lo hi first : Nat) : Option σ :=
  siftDown.loop I hi first (hi - lo) lo data

/-- The first loop of `heapSort`, `for i := (hi - 1) / 2; i >= 0; i--`: the
argument counts the values of `i` still to run, `i = n - 1, ..., 0`. -/
def heapSort.build (I : Interface σ) (hi first : Nat) : Nat → σ → Option σ
  | 0, data => some data
  | i + 1, data => do
    let data ← siftDown I data i hi first
    heapSort.build I hi first i data

/-- The second loop of `heapSort`, `for i := hi - 1; i >= 0; i--`: the argument
counts the values of `i` still to run. -/
def heapSort.pop (I : Interface σ) (lo first : Nat) : Nat → σ → Option σ
  | 0, data => some data
  | i + 1, data => do
    let data ← I.Swap data first (first + i)
    let data ← siftDown I data lo i first
    heapSort.pop I lo first i data

def heapSort (I : Interface σ) (data : σ) (a b : Nat) : Option σ := do
  let first := a
  let lo := 0
  let hi := b - a
  let data ← heapSort.build I hi first ((hi - 1) / 2 + 1) data
  heapSort.pop I lo first hi data

def medianOfThree (I : Interface σ) (data : σ) (m1 m0 m2 : Nat) : Option σ := do
  let data ← if (← I.Less data m1 m0) then I.Swap data m1 m0 else pure data
  if (← I.Less data m2 m1) then
    let data ← I.Swap data m2 m1
    if (← I.Less data m1 m0) then I.Swap data m1 m0 else pure data
  else pure data

/-- A loop `for ; i < hi && p(i); i++ {}` with fuel `hi - i`; the value of `i`
at exit. -/
def scanUp (p : Nat → Option Bool) (hi : Nat) : Nat → Nat → Option Nat
  | 0, i => some i
  | fuel + 1, i =>
    if i < hi then do
      if (← p i) then scanUp p hi fuel (i + 1) else pure i
    else pure i

/-- A loop `for ; lo < i && p(i-1); i-- {}` with fuel `i - lo`; the value of
`i` at exit. -/
def scanDown (p : Nat → Option Bool) (lo : Nat) : Nat → Nat → Option Nat
  | 0, i => some i
  | fuel + 1, i =>
    if lo < i then do
      if (← p (i - 1)) then scanDown p lo fuel (i - 1) else pure i
    else pure i

/-- The partitioning loop of `doPivot`, with fuel `c - b`:
`for { for ; b < c && !Less(pivot, b); b++ {}; for ; b < c && Less(pivot, c-1); c-- {};
if b >= c { break }; Swap(b, c-1); b++; c-- }`. -/
def doPivot.split (I : Interface σ) (pivot : Nat) : Nat → σ → Nat → Nat → Option (σ × Nat × Nat)
  | 0, data, b, c => some (data, b, c)
  | fuel + 1, data, b, c => do
    let b ← scanUp (fun k => (I.Less data pivot k).map (!·)) c (c - b) b
    let c ← scanDown (fun k => I.Less data pivot k) b (c - b) c
    if b ≥ c then pure (data, b, c)
    else
      let data ← I.Swap data b (c - 1)
      doPivot.split I pivot fuel data (b + 1) (c - 1)

/-- The loop of `doPivot` that gathers the elements equal to the pivot, with
fuel `b - a`:
`for { for ; a < b && !Less(b-1, pivot); b-- {}; for ; a < b && Less(a, pivot); a++ {};
if a >= b { break }; Swap(a, b-1); a++; b-- }`. -/
def doPivot.gather (I : Interface σ) (pivot : Nat) : Nat → σ → Nat → Nat → Option (σ × Nat × Nat)
  | 0, data, a, b => some (data, a, b)
  | fuel + 1, data, a, b => do
    let b ← scanDown (fun k => (I.Less data k pivot).map (!·)) a (b - a) b
    let a ← scanUp (fun k => I.Less data k pivot) b (b - a) a
    if a ≥ b then pure (data, a, b)
    else
      let data ← I.Swap data a (b - 1)
      doPivot.gather I pivot fuel data (a + 1) (b - 1)

/-- The block of `doPivot` guarded by `hi-lo > 40`: Tukey's ninther, three
medians of three around `lo`, `m` and `hi-1`. -/
def doPivot.ninther (I : Interface σ) (data : σ) (lo hi : Nat) : Option σ :=
  let m := (lo + hi) / 2
  if hi - lo > 40 then do
    let s := (hi - lo) / 8
    let data ← medianOfThree I data lo (lo + s) (lo + 2 * s)
    let data ← medianOfThree I data m (m - s) (m + s)
    medianOfThree I data (hi - 1) (hi - 1 - s) (hi - 1 - 2 * s)
  else pure data

/-- The block of `doPivot` guarded by `!protect && hi-c < (hi-lo)/4`: three
points are tested for equality to the pivot; the result carries the updated
`b` and `c` and the new value of `protect`, `dups > 1`. -/
def doPivot.dups (I : Interface σ) (data : σ) (pivot m hi b c : Nat) :
    Option (σ × Nat × Nat × Bool) := do
  let dups := 0
  let (data, c, dups) ←
    if !(← I.Less data pivot (hi - 1)) then do
      let data ← I.Swap data c (hi - 1)
      pure (data, c + 1, dups + 1)
    else pure (data, c, dups)
  let (b, dups) ←
    if !(← I.Less data (b - 1) pivot) then pure (b - 1, dups + 1)
    else pure (b, dups)
  let (data, b, dups) ←
    if !(← I.Less data m pivot) then do
      let data ← I.Swap data m (b - 1)
      pure (data, b - 1, dups + 1)
    else pure (data, b, dups)
  pure (data, b, c, decide (dups > 1))

def doPivot (I : Interface σ) (data : σ) (lo hi : Nat) : Option (σ × Nat × Nat) := do
  let m := (lo + hi) / 2
  let data ← doPivot.ninther I data lo hi
  let data ← medianOfThree I data lo m (hi - 1)
  let pivot := lo
  let a := lo + 1
  let c := hi - 1
  let a ← scanUp (fun k => I.Less data k pivot) c (c - a) a
  let b := a
  let (data, b, c) ← doPivot.split I pivot (c - b) data b c
  let protect := decide (hi - c < 5)
  let (data, b, c, protect) ←
    if !protect && decide (hi - c < (hi - lo) / 4) then doPivot.dups I data pivot m hi b c
    else pure (data, b, c, protect)
  let (data, b) ←
    if protect then do
      let (data, _, b) ← doPivot.gather I pivot (b - a) data a b
      pure (data, b)
    else pure (data, b)
  let data ← I.Swap data pivot (b - 1)
  pure (data, b - 1, c)

/-- The gap-6 pass of `quickSort`, with fuel `b - i`:
`for i := a + 6; i < b; i++ { if data.Less(i, i-6) { data.Swap(i, i-6) } }`. -/
def quickSort.shell (I : Interface σ) (b : Nat) : Nat → Nat → σ → Option σ
  | 0, _, data => some data
  | fuel + 1, i, data =>
    if i < b then do
      let data ← if (← I.Less data i (i - 6)) then I.Swap data i (i - 6) else pure data
      quickSort.shell I b fuel (i + 1) data
    else pure data

/-- The function `quickSort`. Each turn of its loop `for b-a > 12` lowers
`maxDepth` by one, which is the argument the recursion descends on; the update
of `a` or `b` that ends a turn is the second call. -/
def quickSort (I : Interface σ) : Nat → σ → Nat → Nat → Option σ
  | maxDepth, data, a, b =>
    if b - a > 12 then
      match maxDepth with
      | 0 => heapSort I data a b
      | maxDepth + 1 => do
        let (data, mlo, mhi) ← doPivot I data a b
        if mlo - a < b - mhi then
          let data ← quickSort I maxDepth data a mlo
          quickSort I maxDepth data mhi b
        else
          let data ← quickSort I maxDepth data mhi b
          quickSort I maxDepth data a mlo
    else if b - a > 1 then do
      let data ← quickSort.shell I b (b - (a + 6)) (a + 6) data
      insertionSort I data a b
    else pure data

/-- The loop of `maxDepth`, `for i := n; i > 0; i >>= 1 { depth++ }`, with
fuel `i`. -/
def maxDepth.loop : Nat → Nat → Nat → Nat
  | 0, _, depth => depth
  | fuel + 1, i, depth => if i > 0 then maxDepth.loop fuel (i >>> 1) (depth + 1) else depth

def maxDepth (n : Nat) : Nat :=
  maxDepth.loop n n 0 * 2

/-- The function `sort.Sort`. -/
def SortData (I : Interface σ) (data : σ) : Option σ :=
  let n := I.Len data
  quickSort I (maxDepth n) data 0 n

end GoSort

namespace AcmCertificate

open GoSort

/-- The slice type `byCreationDateDescending` seen as a `sort.Interface`. -/
def byCreationDateDescending.Interface : GoSort.Interface byCreationDateDescending where
  Len := byCreationDateDescending.Len
  Less := byCreationDateDescending.Less
  Swap := byCreationDateDescending.Swap

/-! ## The read function -/

/-- The method `conn.ListCertificatesPages(params, fn)` of the SDK: `fn` is
called on every page in turn with the state it closes over, until it returns
false or the pages end; the result is the final state and the error that
ended the stream, if any. -/
def ListCertificatesPages {s : Type} (listing : Listing)
    (fn : s → ListCertificatesOutput → Bool → s × Bool) : List ListCertificatesOutput →
    s → s × Option ApiError
  | [], st => (st, listing.err)
  | page :: rest, st =>
    let (st, more) := fn st page (rest.isEmpty && listing.err.isNone)
    if more then ListCertificatesPages listing fn rest st else (st, none)

/-- The page callback of the read function: it appends to `arns` the identifier
of every summary of the page whose domain name is the target, and returns true. -/
def pageCallback (target : String) (arns : List String) (page : ListCertificatesOutput)
    (_lastPage : Bool) : List String × Bool :=
  (page.CertificateSummaryList.foldl
    (fun arns cert => if cert.DomainName = target then arns ++ [cert.CertificateArn] else arns)
    arns, true)

/-- The loop `for _, certType := range typesStrings` of the read function: the
described certificate is appended at the first type that equals its own, and
the loop breaks. -/
def matchTypes (Certificate : CertificateDetail) :
    List String → List CertificateDetail → List CertificateDetail
  | [], certDetails => certDetails
  | certType :: rest, certDetails =>
    if Certificate.Type_ = certType then certDetails ++ [Certificate]
    else matchTypes Certificate rest certDetails

/-- The loop `for _, arn := range arns` of the read function, at range index
`i`: each turn issues one describe call, so `i` is also the number of describe
calls already made. The state is the list `certDetails` and the calls issued so
far; the result is the error of the first failing describe call, or the final
`certDetails`. -/
def describeLoop (conn : ACM) (typesStrings : List String) :
    Nat → List String → List CertificateDetail → List Call →
    Except ApiError (List CertificateDetail) × List Call
  | _, [], certDetails, calls => (.ok certDetails, calls)
  | i, arn :: rest, certDetails, calls =>
    let calls := calls ++ [Call.DescribeCertificate arn]
    match conn.describeCertificate i arn with
    | .error err => (.error err, calls)
    | .ok Certificate =>
      describeLoop conn typesStrings (i + 1) rest
        (matchTypes Certificate typesStrings certDetails) calls

/-- The outcome of a call of the read function: the resource data it leaves,
the requests it issued, and how it returned. -/
structure Outcome where
  d : ResourceData
  calls : List Call
  ret : Return
deriving DecidableEq, Repr

/-- The function `dataSourceAwsAcmCertificateRead`. The argument `now` is the
string `time.Now().UTC().String()` read from the clock. -/
def dataSourceAwsAcmCertificateRead (d : ResourceData) (conn : ACM) (now : String) :
    Outcome :=
  let target := d.domain
  let (statuses, ok) := ResourceData.GetOk d.statuses
  let CertificateStatuses := if ok then expandStringList statuses else ["ISSUED"]
  let calls := [Call.ListCertificatesPages CertificateStatuses]
  let listing := conn.listCertificates CertificateStatuses
  let (arns, err) := ListCertificatesPages listing (pageCallback target) listing.pages []
  match err with
  | some err => ⟨d, calls, .error (.Wrapf "Error describing certificates: \x7b\x7berr\x7d\x7d" err)⟩
  | none =>
    let (types, ok) := ResourceData.GetOk d.types
    let (described, calls) :=
      if ok then describeLoop conn (expandStringList types) 0 arns [] calls
      else (.ok [], calls)
    match described with
    | .error err =>
      ⟨d, calls, .error (.Wrapf "Error describing certificates: \x7b\x7berr\x7d\x7d" err)⟩
    | .ok certDetails =>
      if certDetails.length = 0 then
        ⟨d, calls, .error (.Errorf "No certificate for domain %q found in this region." target)⟩
      else
        let mostRecent := d.most_recent
        if certDetails.length > 1 && !mostRecent then
          ⟨d, calls,
            .error (.Errorf "Multiple certificates for domain %q found in this region." target)⟩
        else
          let d := d.SetId now
          match GoSort.SortData byCreationDateDescending.Interface certDetails with
          | none => ⟨d, calls, .panicked⟩
          | some certDetails =>
            match certDetails[0]? with
            | none => ⟨d, calls, .panicked⟩
            | some first => ⟨d.SetArn first.CertificateArn, calls, .nil⟩

/-! ## Vocabulary of the specification -/

/-- The two formats of the error messages. -/
def wrapFormat : String := "Error describing certificates: \x7b\x7berr\x7d\x7d"

def notFoundFormat : String := "No certificate for domain %q found in this region."

def ambiguousFormat : String := "Multiple certificates for domain %q found in this region."

/-- The error `NotFound` of the specification. -/
def NotFound (domain : String) : Return := .error (.Errorf notFoundFormat domain)

/-- The error `AmbiguousMatch` of the specification. -/
def AmbiguousMatch (domain : String) : Return := .error (.Errorf ambiguousFormat domain)

/-- A collaborator error wrapped with context. -/
def Wrapped (err : ApiError) : Return := .error (.Wrapf wrapFormat err)

/-- Step 1 of the specification: the status filter of a query, `statuses` when it
is provided and non-empty, otherwise the single status `ISSUED`. -/
def Spec.statusFilter (d : ResourceData) : List String :=
  match d.statuses with
  | some (s :: rest) => s :: rest
  | _ => ["ISSUED"]

/-- The answer of the lister to the query. -/
def Spec.listing (d : ResourceData) (conn : ACM) : Listing :=
  conn.listCertificates (Spec.statusFilter d)

/-- All summaries of a sequence of pages, in lister order. -/
def Spec.summaries (pages : List ListCertificatesOutput) : List CertificateSummary :=
  pages.flatMap (fun page => page.CertificateSummaryList)

/-- Step 3 of the specification: the identifiers of the summaries whose domain
name is the queried domain, in lister order. -/
def Spec.candidates (domain : String) (pages : List ListCertificatesOutput) : List String :=
  ((Spec.summaries pages).filter (fun s => s.DomainName = domain)).map (fun s => s.CertificateArn)

/-- The details the describer returns for a list of identifiers queried in
turn from call number `i` on, or the first error. -/
def Spec.describeAll (conn : ACM) : Nat → List String → Except ApiError (List CertificateDetail)
  | _, [] => .ok []
  | i, arn :: rest =>
    match conn.describeCertificate i arn with
    | .error err => .error err
    | .ok detail =>
      match Spec.describeAll conn (i + 1) rest with
      | .error err => .error err
      | .ok details => .ok (detail :: details)

/-- The types of a query, when the type filter applies (provided and non-empty). -/
def Spec.typesOf (d : ResourceData) : Option (List String) :=
  match d.types with
  | some (t :: rest) => some (t :: rest)
  | _ => none

/-- Step 4 of the specification: the retained details, those described
candidates whose type is one of the queried types; none at all when the query
gives no types. -/
def Spec.retained (d : ResourceData) (conn : ACM) : Except ApiError (List CertificateDetail) :=
  match Spec.typesOf d with
  | none => .ok []
  | some types =>
    match Spec.describeAll conn 0 (Spec.candidates d.domain (Spec.listing d conn).pages) with
    | .error err => .error err
    | .ok details => .ok (details.filter (fun c => decide (c.Type_ ∈ types)))

/-- The recency timestamp of a detail as an instant, `0` when it has none. -/
def Spec.ts (c : CertificateDetail) : Int :=
  match timestamp c with
  | some t => t.nanos
  | none => 0

/-- The invariant of the data model: one of the two timestamps is present. -/
def Spec.hasTimestamp (c : CertificateDetail) : Prop :=
  c.CreatedAt ≠ none ∨ c.ImportedAt ≠ none

instance (c : CertificateDetail) : Decidable (Spec.hasTimestamp c) := by
  unfold Spec.hasTimestamp; infer_instance

/-- Steps 5 to 8 of the read function, from the retained details on. -/
def Spec.finish (d : ResourceData) (now : String) (calls : List Call)
    (certDetails : List CertificateDetail) : Outcome :=
  if certDetails.length = 0 then ⟨d, calls, NotFound d.domain⟩
  else if certDetails.length > 1 ∧ d.most_recent = false then ⟨d, calls, AmbiguousMatch d.domain⟩
  else
    match GoSort.SortData byCreationDateDescending.Interface certDetails with
    | none => ⟨d.SetId now, calls, .panicked⟩
    | some sorted =>
      match sorted[0]? with
      | none => ⟨d.SetId now, calls, .panicked⟩
      | some first => ⟨(d.SetId now).SetArn first.CertificateArn, calls, .nil⟩

/-- The requests the read function issues when nothing fails. -/
def Spec.calls (d : ResourceData) (conn : ACM) : List Call :=
  Call.ListCertificatesPages (Spec.statusFilter d) ::
    match Spec.typesOf d with
    | none => []
    | some _ => (Spec.candidates d.domain (Spec.listing d conn).pages).map Call.DescribeCertificate

/-- The two certificates of the scenarios of the specification. -/
def Example.issued : CertificateDetail :=
  ⟨"arn:issued", "AMAZON_ISSUED", some ⟨1672531200000000000, 0⟩, none⟩

def Example.imported : CertificateDetail :=
  ⟨"arn:imported", "IMPORTED", some ⟨1685577600000000000, 0⟩, none⟩

/-- A service with two certificates for `example.com` and one for another
domain, listed on two pages. -/
def Example.conn : ACM where
  listCertificates := fun _ =>
    ⟨[⟨[⟨"example.com", "arn:issued"⟩, ⟨"other.org", "arn:other"⟩]⟩,
      ⟨[⟨"example.com", "arn:imported"⟩]⟩], none⟩
  describeCertificate := fun _ arn =>
    if arn = "arn:issued" then .ok Example.issued
    else if arn = "arn:imported" then .ok Example.imported
    else .error ⟨"ResourceNotFoundException"⟩

/-- A service whose listing fails after the first page. -/
def Example.failingLister : ACM where
  listCertificates := fun _ => ⟨[⟨[⟨"example.com", "arn:issued"⟩]⟩], some ⟨"ThrottlingException"⟩⟩
  describeCertificate := Example.conn.describeCertificate

/-- A service whose second describe call fails. -/
def Example.failingDescriber : ACM where
  listCertificates := Example.conn.listCertificates
  describeCertificate := fun k arn =>
    if k = 1 then .error ⟨"ThrottlingException"⟩ else Example.conn.describeCertificate k arn

def Example.query (types : Option (List String)) (mostRecent : Bool) : ResourceData :=
  ⟨"example.com", none, types, mostRecent, "", none⟩

/-- The sort key of a detail: the comparator orders by descending instant. -/
def Spec.key (c : CertificateDetail) : Int := - Spec.ts c

/-- The key of the entry at index `i` of a slice, `0` outside the slice. -/
def keyAt (l : List CertificateDetail) (i : Nat) : Int :=
  match l[i]? with
  | some c => Spec.key c
  | none => 0

/-- The slice with the entries at `i` and `j` exchanged. -/
def swapAt (l : List CertificateDetail) (i j : Nat) : List CertificateDetail :=
  match l[i]?, l[j]? with
  | some x, some y => (l.set i y).set j x
  | _, _ => l

/-- Every detail of the slice has a recency timestamp. -/
def AllTs (l : List CertificateDetail) : Prop := ∀ c ∈ l, Spec.hasTimestamp c

/-- The entries of `l'` are those of `l` rearranged inside the index range
`[a, b)`: the keys outside the range are in place and every key inside the
range comes from inside the range. -/
def Shuffle (a b : Nat) (l l' : List CertificateDetail) : Prop :=
  l'.Perm l ∧ (∀ n, n < a ∨ b ≤ n → keyAt l' n = keyAt l n) ∧
    (∀ n, a ≤ n → n < b → ∃ m, a ≤ m ∧ m < b ∧ keyAt l' n = keyAt l m)

/-- The keys are in non-decreasing order on the index range `[a, b)`. -/
def SortedRange (K : Nat → Int) (a b : Nat) : Prop :=
  ∀ p q, a ≤ p → p < q → q < b → K p ≤ K q

/-- The state of the inner loop of the insertion sort: the range `[a, i]` is
ordered except for the pairs whose later entry is the one at `j`. -/
def InsertInv (K : Nat → Int) (a i j : Nat) : Prop :=
  ∀ p q, a ≤ p → p < q → q ≤ i → q ≠ j → K p ≤ K q

/-- The state of `doPivot` after its partitioning loop: `l` is the slice, whose
entries in `(lo, b)` are not above the pivot key `v` kept at `lo`, those in
`[b, c)` equal it and those in `[c, hi)` are not below it. -/
def PivInv (lo hi : Nat) (v : Int) (l₀ l : List CertificateDetail) (b c : Nat) : Prop :=
  Shuffle (lo + 1) hi l₀ l ∧ keyAt l lo = v ∧ lo < b ∧ b ≤ c ∧ c ≤ hi ∧
    (∀ n, lo < n → n < b → keyAt l n ≤ v) ∧ (∀ n, b ≤ n → n < c → keyAt l n = v) ∧
    (∀ n, c ≤ n → n < hi → v ≤ keyAt l n)

/-- The result of `doPivot` on `[lo, hi)`: the entries before `mlo` are not
above the pivot, those in `[mlo, mhi)` equal it, those from `mhi` on are not
below it. -/
def Partitioned (K : Nat → Int) (lo mlo mhi hi : Nat) : Prop :=
  lo ≤ mlo ∧ mlo < mhi ∧ mhi ≤ hi ∧ (∀ n, lo ≤ n → n < mlo → K n ≤ K mlo) ∧
    (∀ n, mlo ≤ n → n < mhi → K n = K mlo) ∧ (∀ n, mhi ≤ n → n < hi → K mlo ≤ K n)

/-- The heap order of `siftDown` on the nodes from `lo` on: within the `hi`
entries that start at index `first`, no child is above its parent. -/
def HeapFrom (K : Nat → Int) (first lo hi : Nat) : Prop :=
  ∀ n c, lo ≤ n → c < hi → (c = 2 * n + 1 ∨ c = 2 * n + 2) → K (first + c) ≤ K (first + n)

/-- The heap order with a hole at `root`: every node other than `root` is not
below its children, and the children of `root` are not above its parent. -/
def AlmostHeap (K : Nat → Int) (first lo hi root : Nat) : Prop :=
  (∀ n c, lo ≤ n → n ≠ root → c < hi → (c = 2 * n + 1 ∨ c = 2 * n + 2) →
    K (first + c) ≤ K (first + n)) ∧
  (∀ p c, lo ≤ p → (root = 2 * p + 1 ∨ root = 2 * p + 2) → c < hi →
    (c = 2 * root + 1 ∨ c = 2 * root + 2) → K (first + c) ≤ K (first + p))

/-- Stability of a rearrangement: for every instant, the details with that
recency timestamp appear in `sorted` in the order they have in `l`. -/
def Spec.Stable (l sorted : List CertificateDetail) : Prop :=
  ∀ t : Int, sorted.filter (fun c => decide (Spec.ts c = t)) =
    l.filter (fun c => decide (Spec.ts c = t))

/-- Thirteen certificates of one domain, in lister order, created at three
instants: 2023-01-01, 2023-04-01 and 2023-06-01. -/
def Example.thirteen : List CertificateDetail :=
  [⟨"arn:0", "AMAZON_ISSUED", some ⟨1680307200000000000, 0⟩, none⟩,
    ⟨"arn:1", "AMAZON_ISSUED", some ⟨1672531200000000000, 0⟩, none⟩,
    ⟨"arn:2", "AMAZON_ISSUED", some ⟨1680307200000000000, 0⟩, none⟩,
    ⟨"arn:3", "AMAZON_ISSUED", some ⟨1685577600000000000, 0⟩, none⟩,
    ⟨"arn:4", "AMAZON_ISSUED", some ⟨1672531200000000000, 0⟩, none⟩,
    ⟨"arn:5", "AMAZON_ISSUED", some ⟨1672531200000000000, 0⟩, none⟩,
    ⟨"arn:6", "AMAZON_ISSUED", some ⟨1685577600000000000, 0⟩, none⟩,
    ⟨"arn:7", "AMAZON_ISSUED", some ⟨1672531200000000000, 0⟩, none⟩,
    ⟨"arn:8", "AMAZON_ISSUED", some ⟨1680307200000000000, 0⟩, none⟩,
    ⟨"arn:9", "AMAZON_ISSUED", some ⟨1685577600000000000, 0⟩, none⟩,
    ⟨"arn:10", "AMAZON_ISSUED", some ⟨1672531200000000000, 0⟩, none⟩,
    ⟨"arn:11", "AMAZON_ISSUED", some ⟨1685577600000000000, 0⟩, none⟩,
    ⟨"arn:12", "AMAZON_ISSUED", some ⟨1672531200000000000, 0⟩, none⟩]

/-- A service that lists the thirteen certificates on one page and describes
them in turn. -/
def Example.thirteenConn : ACM where
  listCertificates := fun _ =>
    ⟨[⟨Example.thirteen.map (fun c => ⟨"example.com", c.CertificateArn⟩)⟩], none⟩
  describeCertificate := fun k _ =>
    match Example.thirteen[k]? with
    | some c => .ok c
    | none => .error ⟨"ResourceNotFoundException"⟩

/-- Seven certificates of one domain, the second and the last created at the
latest instant. -/
def Example.seven : List CertificateDetail :=
  [⟨"arn:0", "AMAZON_ISSUED", some ⟨1680307200000000000, 0⟩, none⟩,
    ⟨"arn:1", "AMAZON_ISSUED", some ⟨1685577600000000000, 0⟩, none⟩,
    ⟨"arn:2", "AMAZON_ISSUED", some ⟨1672531200000000000, 0⟩, none⟩,
    ⟨"arn:3", "AMAZON_ISSUED", some ⟨1672531200000000000, 0⟩, none⟩,
    ⟨"arn:4", "AMAZON_ISSUED", some ⟨1672531200000000000, 0⟩, none⟩,
    ⟨"arn:5", "AMAZON_ISSUED", some ⟨1672531200000000000, 0⟩, none⟩,
    ⟨"arn:6", "AMAZON_ISSUED", some ⟨1685577600000000000, 0⟩, none⟩]

/-- The recency timestamp in the words of the specification: `createdAt` if
present, else `importedAt`. -/
def Spec.recency (x : CertificateDetail) : Option Time :=
  match x.CreatedAt with
  | some t => some t
  | none => x.ImportedAt

/-- A detail created on 2023-01-01 whose import date, 2023-06-01, is later. -/
def Example.reimported : CertificateDetail :=
  ⟨"arn:reimported", "IMPORTED", some ⟨1672531200000000000, 0⟩,
    some ⟨1685577600000000000, 0⟩⟩

/-- The identifiers passed to the describer, in the order of the calls. -/
def Spec.describedArns (calls : List Call) : List String :=
  calls.filterMap (fun call =>
    match call with
    | .DescribeCertificate arn => some arn
    | .ListCertificatesPages _ => none)

/-- A detail with neither timestamp, which the data model rules out. -/
def Example.untimed : CertificateDetail :=
  ⟨"arn:untimed", "AMAZON_ISSUED", none, none⟩

/-- A service with one certificate for `example.com`, which has no timestamp. -/
def Example.untimedConn : ACM where
  listCertificates := fun _ => ⟨[⟨[⟨"example.com", "arn:untimed"⟩]⟩], none⟩
  describeCertificate := fun _ _ => .ok Example.untimed

/-- A service with two certificates for `example.com`, the second of which has
no timestamp. -/
def Example.halfTimedConn : ACM where
  listCertificates := fun _ =>
    ⟨[⟨[⟨"example.com", "arn:issued"⟩, ⟨"example.com", "arn:untimed"⟩]⟩], none⟩
  describeCertificate := fun k _ => if k = 0 then .ok Example.issued else .ok Example.untimed

/-- Every result of the computation `x`, viewed through `p`, is a rearrangement
of the slice `l`. -/
@[irreducible]
def PermVia {β : Type} (p : β → List CertificateDetail) (x : Option β)
    (l : List CertificateDetail) : Prop :=
  ∀ r, x = some r → (p r).Perm l

/-- Three details in increasing order of recency: one created in January and
imported in June, one only imported, in April, and one created in June. -/
def Example.mixed : List CertificateDetail :=
  [Example.reimported,
    ⟨"arn:april", "IMPORTED", none, some ⟨1680307200000000000, 0⟩⟩,
    Example.imported]

/-! ## Lemmas on the read function -/

theorem GetOk_statuses (d : ResourceData) :
    (if (ResourceData.GetOk d.statuses).2 then expandStringList (ResourceData.GetOk d.statuses).1
      else ["ISSUED"]) = Spec.statusFilter d := by
  unfold Spec.statusFilter ResourceData.GetOk expandStringList
  rcases d.statuses with _ | ⟨_ | ⟨s, rest⟩⟩ <;> simp

theorem GetOk_types (d : ResourceData) :
    ResourceData.GetOk d.types =
      match Spec.typesOf d with
      | some types => (types, true)
      | none => ((ResourceData.GetOk d.types).1, false) := by
  unfold Spec.typesOf ResourceData.GetOk
  rcases d.types with _ | ⟨_ | ⟨s, rest⟩⟩ <;> simp

theorem pageCallback_fold (target : String) (l : List CertificateSummary) (arns : List String) :
    l.foldl (fun arns cert =>
        if cert.DomainName = target then arns ++ [cert.CertificateArn] else arns) arns
      = arns ++ (l.filter (fun s => s.DomainName = target)).map (fun s => s.CertificateArn) := by
  induction l generalizing arns with
  | nil => simp
  | cons c l ih =>
    simp only [List.foldl_cons, ih]
    by_cases h : c.DomainName = target <;> simp [h, List.filter_cons]

theorem ListCertificatesPages_pageCallback (listing : Listing) (target : String)
    (pages : List ListCertificatesOutput) (arns : List String) :
    ListCertificatesPages listing (pageCallback target) pages arns
      = (arns ++ Spec.candidates target pages, listing.err) := by
  induction pages generalizing arns with
  | nil => simp [ListCertificatesPages, Spec.candidates, Spec.summaries]
  | cons page rest ih =>
    simp only [ListCertificatesPages, pageCallback, if_true, ih, pageCallback_fold]
    simp [Spec.candidates, Spec.summaries, List.flatMap_cons, List.filter_append]

theorem matchTypes_eq (c : CertificateDetail) (types : List String) (acc : List CertificateDetail) :
    matchTypes c types acc = if c.Type_ ∈ types then acc ++ [c] else acc := by
  induction types with
  | nil => simp [matchTypes]
  | cons t rest ih =>
    by_cases h : c.Type_ = t
    · simp [matchTypes, h]
    · simp [matchTypes, h, ih]

theorem describeLoop_ok (conn : ACM) (types : List String) :
    ∀ (arns : List String) (i : Nat) (acc : List CertificateDetail) (calls : List Call)
      (details : List CertificateDetail), Spec.describeAll conn i arns = .ok details →
      describeLoop conn types i arns acc calls =
        (.ok (acc ++ details.filter (fun c => decide (c.Type_ ∈ types))),
          calls ++ arns.map Call.DescribeCertificate)
  | [], i, acc, calls, details, h => by
    simp only [Spec.describeAll, Except.ok.injEq] at h
    simp [describeLoop, ← h]
  | arn :: rest, i, acc, calls, details, h => by
    simp only [Spec.describeAll] at h
    cases hd : conn.describeCertificate i arn with
    | error e => simp [hd] at h
    | ok c =>
      simp only [hd] at h
      cases hr : Spec.describeAll conn (i + 1) rest with
      | error e => simp [hr] at h
      | ok ds =>
        simp only [hr, Except.ok.injEq] at h
        subst h
        simp only [describeLoop, hd]
        rw [describeLoop_ok conn types rest (i + 1) _ _ ds hr, matchTypes_eq]
        by_cases hm : c.Type_ ∈ types <;> simp [hm, List.filter_cons]

theorem read_unfold (d : ResourceData) (conn : ACM) (now : String) :
    dataSourceAwsAcmCertificateRead d conn now =
      match (Spec.listing d conn).err with
      | some err => ⟨d, [Call.ListCertificatesPages (Spec.statusFilter d)], Wrapped err⟩
      | none =>
        match Spec.typesOf d with
        | none => Spec.finish d now [Call.ListCertificatesPages (Spec.statusFilter d)] []
        | some types =>
          match describeLoop conn types 0 (Spec.candidates d.domain (Spec.listing d conn).pages) []
              [Call.ListCertificatesPages (Spec.statusFilter d)] with
          | (.error err, calls) => ⟨d, calls, Wrapped err⟩
          | (.ok certDetails, calls) => Spec.finish d now calls certDetails := by
  unfold dataSourceAwsAcmCertificateRead
  simp only [GetOk_statuses, ListCertificatesPages_pageCallback, List.nil_append]
  rw [GetOk_types]
  unfold Spec.listing
  cases he : (conn.listCertificates (Spec.statusFilter d)).err with
  | some e => simp [Wrapped, wrapFormat]
  | none =>
    simp only []
    cases ht : Spec.typesOf d with
    | none =>
      simp [Spec.finish, NotFound, notFoundFormat]
    | some types =>
      simp only [if_true, expandStringList]
      rcases hl : describeLoop conn types 0
        (Spec.candidates d.domain (conn.listCertificates (Spec.statusFilter d)).pages) []
        [Call.ListCertificatesPages (Spec.statusFilter d)] with ⟨r, calls⟩
      cases r with
      | error e => simp [Wrapped, wrapFormat]
      | ok ds =>
        simp only [Spec.finish, NotFound, AmbiguousMatch, notFoundFormat, ambiguousFormat]
        by_cases h0 : ds.length = 0
        · simp [h0]
        · by_cases h1 : ds.length > 1 ∧ d.most_recent = false
          · have h1a := h1.1
            have h1b := h1.2
            simp [h0, h1a, h1b]
          · simp only [h0, if_false, h1]
            have : (decide (ds.length > 1) && !d.most_recent) = false := by
              rcases hm : d.most_recent <;> simp_all
            simp only [this]
            cases GoSort.SortData byCreationDateDescending.Interface ds with
            | none => simp
            | some sorted => rfl

theorem describeLoop_fst (conn : ACM) (types : List String) :
    ∀ (arns : List String) (i : Nat) (acc : List CertificateDetail) (calls : List Call),
      (describeLoop conn types i arns acc calls).1 =
        match Spec.describeAll conn i arns with
        | .error err => .error err
        | .ok details => .ok (acc ++ details.filter (fun c => decide (c.Type_ ∈ types)))
  | [], i, acc, calls => by simp [describeLoop, Spec.describeAll]
  | arn :: rest, i, acc, calls => by
    simp only [describeLoop, Spec.describeAll]
    cases hd : conn.describeCertificate i arn with
    | error e => simp
    | ok c =>
      simp only []
      rw [describeLoop_fst conn types rest (i + 1), matchTypes_eq]
      cases hr : Spec.describeAll conn (i + 1) rest with
      | error e => simp
      | ok ds => by_cases hm : c.Type_ ∈ types <;> simp [hm, List.filter_cons]

theorem describeLoop_error (conn : ACM) (types : List String) :
    ∀ (arns : List String) (i : Nat) (acc : List CertificateDetail) (calls : List Call)
      (k : Nat) (err : ApiError), k < arns.length →
      (∀ j, j < k → ∀ arn, arns[j]? = some arn → ∃ c, conn.describeCertificate (i + j) arn = .ok c) →
      (∀ arn, arns[k]? = some arn → conn.describeCertificate (i + k) arn = .error err) →
      describeLoop conn types i arns acc calls =
        (.error err, calls ++ (arns.take (k + 1)).map Call.DescribeCertificate)
  | [], i, acc, calls, k, err, hk, _, _ => by simp at hk
  | arn :: rest, i, acc, calls, 0, err, _, _, hfail => by
    have := hfail arn (by simp)
    simp only [Nat.add_zero] at this
    simp [describeLoop, this]
  | arn :: rest, i, acc, calls, k + 1, err, hk, hok, hfail => by
    obtain ⟨c, hc⟩ := hok 0 (by omega) arn (by simp)
    simp only [Nat.add_zero] at hc
    simp only [describeLoop, hc]
    rw [describeLoop_error conn types rest (i + 1) _ _ k err (by simpa using hk)
      (fun j hj a ha => by
        have := hok (j + 1) (by omega) a (by simpa using ha)
        simpa [Nat.add_assoc, Nat.add_comm 1 j] using this)
      (fun a ha => by
        have := hfail a (by simpa using ha)
        simpa [Nat.add_assoc, Nat.add_comm 1 k] using this)]
    simp

theorem read_listing_error (d : ResourceData) (conn : ACM) (now : String) (err : ApiError)
    (h : (Spec.listing d conn).err = some err) :
    dataSourceAwsAcmCertificateRead d conn now =
      ⟨d, [Call.ListCertificatesPages (Spec.statusFilter d)], Wrapped err⟩ := by
  rw [read_unfold, h]

theorem read_retained_ok (d : ResourceData) (conn : ACM) (now : String)
    (ds : List CertificateDetail)
    (h : (Spec.listing d conn).err = none) (hr : Spec.retained d conn = .ok ds) :
    dataSourceAwsAcmCertificateRead d conn now = Spec.finish d now (Spec.calls d conn) ds := by
  rw [read_unfold, h]
  unfold Spec.retained at hr
  unfold Spec.calls
  cases ht : Spec.typesOf d with
  | none =>
    simp only [ht, Except.ok.injEq] at hr
    simp [← hr]
  | some types =>
    simp only [ht] at hr ⊢
    cases ha : Spec.describeAll conn 0 (Spec.candidates d.domain (Spec.listing d conn).pages) with
    | error e => simp [ha] at hr
    | ok details =>
      simp only [ha, Except.ok.injEq] at hr
      rw [describeLoop_ok conn types _ 0 [] _ details ha]
      simp [hr]

theorem read_retained_error (d : ResourceData) (conn : ACM) (now : String)
    (err : ApiError)
    (h : (Spec.listing d conn).err = none) (hr : Spec.retained d conn = .error err) :
    (dataSourceAwsAcmCertificateRead d conn now).d = d ∧
      (dataSourceAwsAcmCertificateRead d conn now).ret = Wrapped err := by
  rw [read_unfold, h]
  unfold Spec.retained at hr
  cases ht : Spec.typesOf d with
  | none => simp [ht] at hr
  | some types =>
    simp only [ht] at hr ⊢
    have h1 := describeLoop_fst conn types (Spec.candidates d.domain (Spec.listing d conn).pages)
      0 [] [Call.ListCertificatesPages (Spec.statusFilter d)]
    cases ha : Spec.describeAll conn 0 (Spec.candidates d.domain (Spec.listing d conn).pages) with
    | ok details => simp [ha] at hr
    | error e =>
      simp only [ha, Except.error.injEq] at hr
      subst hr
      simp only [ha] at h1
      rcases hl : describeLoop conn types 0
        (Spec.candidates d.domain (Spec.listing d conn).pages) []
        [Call.ListCertificatesPages (Spec.statusFilter d)] with ⟨r, calls⟩
      rw [hl] at h1
      simp only at h1
      subst h1
      simp

theorem SortData_singleton (c : CertificateDetail) :
    GoSort.SortData byCreationDateDescending.Interface [c] = some [c] := by
  rfl

theorem SortData_nil :
    GoSort.SortData byCreationDateDescending.Interface [] = some [] := by
  rfl

theorem finish_calls (d : ResourceData) (now : String) (calls : List Call)
    (ds : List CertificateDetail) : (Spec.finish d now calls ds).calls = calls := by
  unfold Spec.finish
  split
  · rfl
  · split
    · rfl
    · split
      · rfl
      · split <;> rfl

theorem finish_ret_error (d : ResourceData) (now : String) (calls : List Call)
    (ds : List CertificateDetail) (e : Error) (h : (Spec.finish d now calls ds).ret = .error e) :
    (Spec.finish d now calls ds).d = d := by
  unfold Spec.finish at h ⊢
  split
  · rfl
  · split
    · rfl
    · rename_i h0 h1
      simp only [h0, h1, if_false] at h
      split at h
      · simp at h
      · split at h <;> simp at h

theorem describeLoop_snd (conn : ACM) (types : List String) :
    ∀ (arns : List String) (i : Nat) (acc : List CertificateDetail) (calls : List Call),
      ∃ n, (describeLoop conn types i arns acc calls).2 =
        calls ++ (arns.take n).map Call.DescribeCertificate
  | [], i, acc, calls => ⟨0, by simp [describeLoop]⟩
  | arn :: rest, i, acc, calls => by
    simp only [describeLoop]
    cases hd : conn.describeCertificate i arn with
    | error e => exact ⟨1, by simp⟩
    | ok c =>
      obtain ⟨n, hn⟩ := describeLoop_snd conn types rest (i + 1)
        (matchTypes c types acc) (calls ++ [Call.DescribeCertificate arn])
      exact ⟨n + 1, by simp [hn]⟩

theorem read_calls (d : ResourceData) (conn : ACM) (now : String) :
    ∃ n, (dataSourceAwsAcmCertificateRead d conn now).calls =
      Call.ListCertificatesPages (Spec.statusFilter d) ::
        ((Spec.candidates d.domain (Spec.listing d conn).pages).take n).map
          Call.DescribeCertificate := by
  rw [read_unfold]
  cases he : (Spec.listing d conn).err with
  | some e => exact ⟨0, by simp⟩
  | none =>
    simp only []
    cases ht : Spec.typesOf d with
    | none => exact ⟨0, by simp [finish_calls]⟩
    | some types =>
      simp only []
      obtain ⟨n, hn⟩ := describeLoop_snd conn types
        (Spec.candidates d.domain (Spec.listing d conn).pages) 0 []
        [Call.ListCertificatesPages (Spec.statusFilter d)]
      rcases hl : describeLoop conn types 0
        (Spec.candidates d.domain (Spec.listing d conn).pages) []
        [Call.ListCertificatesPages (Spec.statusFilter d)] with ⟨r, calls⟩
      rw [hl] at hn
      simp only at hn
      refine ⟨n, ?_⟩
      cases r with
      | error e => simp [hn]
      | ok ds => simp [finish_calls, hn]

theorem finish_ret_multiple (d : ResourceData) (now : String) (calls : List Call)
    (ds : List CertificateDetail) :
    (Spec.finish d now calls ds).ret = AmbiguousMatch d.domain ↔
      (1 < ds.length ∧ d.most_recent = false) := by
  unfold Spec.finish
  by_cases h0 : ds.length = 0
  · simp [h0, NotFound, AmbiguousMatch, notFoundFormat, ambiguousFormat]
  · by_cases h1 : ds.length > 1 ∧ d.most_recent = false
    · simp only [h0, h1, if_false]
      simp [h1.1]
    · simp only [h0, h1, if_false, iff_false]
      split
      · simp [AmbiguousMatch]
      · split <;> simp [AmbiguousMatch]

theorem finish_ret_notFound (d : ResourceData) (now : String) (calls : List Call)
    (ds : List CertificateDetail) :
    (Spec.finish d now calls ds).ret = NotFound d.domain ↔ ds = [] := by
  unfold Spec.finish
  by_cases h0 : ds.length = 0
  · simp [h0, List.length_eq_zero.mp h0]
  · have hne : ds ≠ [] := fun h => h0 (by simp [h])
    simp only [h0, if_false, hne, iff_false]
    split
    · simp [NotFound, AmbiguousMatch, notFoundFormat, ambiguousFormat]
    · split
      · simp [NotFound]
      · split <;> simp [NotFound]

theorem finish_ret_nil (d : ResourceData) (now : String) (calls : List Call)
    (ds : List CertificateDetail) (h : (Spec.finish d now calls ds).ret = .nil) :
    ∃ arn, (Spec.finish d now calls ds).d = (d.SetId now).SetArn arn := by
  unfold Spec.finish at h ⊢
  split
  · rename_i h0; simp [h0, NotFound] at h
  · split
    · rename_i h0 h1; simp [h0, h1, AmbiguousMatch] at h
    · rename_i h0 h1
      simp only [h0, h1, if_false] at h
      split
      · rename_i hs; simp [hs] at h
      · rename_i sorted hs
        simp only [hs] at h
        split
        · rename_i hf; simp [hf] at h
        · rename_i first hf; exact ⟨first.CertificateArn, rfl⟩

theorem finish_arn (d : ResourceData) (now : String) (calls : List Call)
    (ds : List CertificateDetail) (h : (Spec.finish d now calls ds).d.arn ≠ d.arn) :
    (Spec.finish d now calls ds).ret = .nil := by
  unfold Spec.finish at h ⊢
  split
  · rename_i h0; simp [h0] at h
  · split
    · rename_i h0 h1; simp [h0, h1] at h
    · rename_i h0 h1
      simp only [h0, h1, if_false] at h
      split
      · rename_i hs; simp [hs, ResourceData.SetId] at h
      · rename_i sorted hs
        simp only [hs] at h
        split
        · rename_i hf; simp [hf, ResourceData.SetId] at h
        · rfl

/-! ## Correctness of the sort routine -/

theorem timestamp_isSome {c : CertificateDetail} (h : Spec.hasTimestamp c) :
    ∃ t, timestamp c = some t := by
  unfold Spec.hasTimestamp at h
  unfold timestamp
  cases hc : c.CreatedAt with
  | some t => exact ⟨t, by simp⟩
  | none =>
    cases hi : c.ImportedAt with
    | some t => exact ⟨t, by simp⟩
    | none => simp [hc, hi] at h

theorem Less_eq {l : List CertificateDetail} (hT : AllTs l) {i j : Nat}
    (hi : i < l.length) (hj : j < l.length) :
    byCreationDateDescending.Interface.Less l i j = some (decide (keyAt l i < keyAt l j)) := by
  obtain ⟨ti, hti⟩ := timestamp_isSome (hT l[i] (List.getElem_mem hi))
  obtain ⟨tj, htj⟩ := timestamp_isSome (hT l[j] (List.getElem_mem hj))
  simp only [byCreationDateDescending.Interface, byCreationDateDescending.Less, keyAt,
    List.getElem?_eq_getElem hi, List.getElem?_eq_getElem hj, Spec.key, Spec.ts, hti, htj,
    Option.bind_eq_bind, Option.some_bind, Option.pure_def, Time.Before]
  congr 1
  simp only [decide_eq_decide]
  omega

theorem Swap_eq {l : List CertificateDetail} {i j : Nat}
    (hi : i < l.length) (hj : j < l.length) :
    byCreationDateDescending.Interface.Swap l i j = some (swapAt l i j) := by
  simp [byCreationDateDescending.Interface, byCreationDateDescending.Swap, swapAt,
    List.getElem?_eq_getElem hi, List.getElem?_eq_getElem hj]

theorem length_swapAt (l : List CertificateDetail) (i j : Nat) :
    (swapAt l i j).length = l.length := by
  unfold swapAt
  split <;> simp

theorem getElem?_swapAt {l : List CertificateDetail} {i j : Nat}
    (hi : i < l.length) (hj : j < l.length) (n : Nat) :
    (swapAt l i j)[n]? = if n = j then l[i]? else if n = i then l[j]? else l[n]? := by
  simp only [swapAt, List.getElem?_eq_getElem hi, List.getElem?_eq_getElem hj]
  by_cases h1 : n = j
  · subst h1
    simp [List.getElem?_set, hj]
  · by_cases h2 : n = i
    · subst h2
      simp [List.getElem?_set, h1, Ne.symm h1, hi]
    · simp [List.getElem?_set, h1, h2, Ne.symm h1, Ne.symm h2]

theorem keyAt_swapAt {l : List CertificateDetail} {i j : Nat}
    (hi : i < l.length) (hj : j < l.length) (n : Nat) :
    keyAt (swapAt l i j) n = if n = j then keyAt l i else if n = i then keyAt l j
      else keyAt l n := by
  unfold keyAt
  rw [getElem?_swapAt hi hj]
  split_ifs <;> rfl

theorem perm_swapAt {l : List CertificateDetail} {i j : Nat}
    (hi : i < l.length) (hj : j < l.length) : (swapAt l i j).Perm l := by
  rw [List.perm_iff_count]
  intro a
  simp only [swapAt, List.getElem?_eq_getElem hi, List.getElem?_eq_getElem hj]
  rw [List.count_set _ _ _ _ (by simpa using hj), List.count_set _ _ _ _ hi]
  have h1 : 0 < List.count l[i] l := List.count_pos_iff.mpr (List.getElem_mem hi)
  have h2 : 0 < List.count l[j] l := List.count_pos_iff.mpr (List.getElem_mem hj)
  simp only [List.getElem_set, beq_iff_eq]
  by_cases hij : i = j
  · subst hij
    simp only [if_true]
    split_ifs with h <;> simp_all
  · simp only [hij, if_false]
    by_cases ha : l[i] = a <;> by_cases hb : l[j] = a <;> simp_all

theorem AllTs.of_perm {l l' : List CertificateDetail} (hT : AllTs l) (h : l'.Perm l) :
    AllTs l' := fun c hc => hT c (h.mem_iff.mp hc)

theorem Shuffle.refl (a b : Nat) (l : List CertificateDetail) : Shuffle a b l l :=
  ⟨List.Perm.refl l, fun _ _ => rfl, fun n h1 h2 => ⟨n, h1, h2, rfl⟩⟩

theorem Shuffle.trans {a b : Nat} {l₁ l₂ l₃ : List CertificateDetail}
    (h₁ : Shuffle a b l₁ l₂) (h₂ : Shuffle a b l₂ l₃) : Shuffle a b l₁ l₃ := by
  refine ⟨h₂.1.trans h₁.1, fun n hn => (h₂.2.1 n hn).trans (h₁.2.1 n hn), fun n hn1 hn2 => ?_⟩
  obtain ⟨m, hm1, hm2, hm⟩ := h₂.2.2 n hn1 hn2
  obtain ⟨k, hk1, hk2, hk⟩ := h₁.2.2 m hm1 hm2
  exact ⟨k, hk1, hk2, hm.trans hk⟩

theorem Shuffle.mono {a b a' b' : Nat} {l l' : List CertificateDetail}
    (h : Shuffle a b l l') (ha : a' ≤ a) (hb : b ≤ b') : Shuffle a' b' l l' := by
  refine ⟨h.1, fun n hn => h.2.1 n (by omega), fun n hn1 hn2 => ?_⟩
  by_cases hin : a ≤ n ∧ n < b
  · obtain ⟨m, hm1, hm2, hm⟩ := h.2.2 n hin.1 hin.2
    exact ⟨m, by omega, by omega, hm⟩
  · exact ⟨n, hn1, hn2, h.2.1 n (by omega)⟩

theorem Shuffle.length_eq {a b : Nat} {l l' : List CertificateDetail}
    (h : Shuffle a b l l') : l'.length = l.length := h.1.length_eq

theorem Shuffle.swap {a b : Nat} {l : List CertificateDetail} {i j : Nat}
    (hai : a ≤ i) (hib : i < b) (haj : a ≤ j) (hjb : j < b) (hb : b ≤ l.length) :
    Shuffle a b l (swapAt l i j) := by
  have hi : i < l.length := by omega
  have hj : j < l.length := by omega
  refine ⟨perm_swapAt hi hj, fun n hn => ?_, fun n hn1 hn2 => ?_⟩
  · rw [keyAt_swapAt hi hj]
    have h1 : n ≠ j := by omega
    have h2 : n ≠ i := by omega
    simp [h1, h2]
  · rw [keyAt_swapAt hi hj]
    by_cases h1 : n = j
    · exact ⟨i, hai, hib, by simp [h1]⟩
    · by_cases h2 : n = i
      · exact ⟨j, haj, hjb, by subst h2; simp [h1]⟩
      · exact ⟨n, hn1, hn2, by simp [h1, h2]⟩

theorem insertionSort_inner_spec (a i : Nat) :
    ∀ (j : Nat) (l : List CertificateDetail), AllTs l → a ≤ j → j ≤ i → i < l.length →
      InsertInv (keyAt l) a i j →
      ∃ l', insertionSort.inner byCreationDateDescending.Interface a j l = some l' ∧
        Shuffle a (i + 1) l l' ∧ SortedRange (keyAt l') a (i + 1)
  | 0, l, _, _, _, _, hinv => by
    refine ⟨l, rfl, Shuffle.refl _ _ _, fun p q hp hpq hq => ?_⟩
    exact hinv p q hp hpq (by omega) (by omega)
  | j + 1, l, hT, haj, hji, hil, hinv => by
    unfold insertionSort.inner
    by_cases hgt : j + 1 > a
    · simp only [hgt, if_true]
      rw [Less_eq hT (by omega) (by omega)]
      simp only [Option.bind_eq_bind, Option.some_bind, Option.pure_def]
      by_cases hlt : keyAt l (j + 1) < keyAt l j
      · simp only [hlt, decide_True, if_true]
        have hj1 : j + 1 < l.length := by omega
        have hj0 : j < l.length := by omega
        rw [Swap_eq hj1 hj0]
        simp only [Option.some_bind]
        have hsh : Shuffle a (i + 1) l (swapAt l (j + 1) j) :=
          Shuffle.swap (by omega) (by omega) (by omega) (by omega) (by omega)
        have hinv' : InsertInv (keyAt (swapAt l (j + 1) j)) a i j := by
          intro p q hp hpq hq hqj
          rw [keyAt_swapAt hj1 hj0, keyAt_swapAt hj1 hj0]
          simp only [hqj, if_false]
          have hpj : p ≠ j + 1 ∨ p = j + 1 := by omega
          by_cases hq1 : q = j + 1
          · subst hq1
            simp only [if_true]
            by_cases hpj : p = j
            · simp only [hpj, if_true]; omega
            · have hp1 : p ≠ j + 1 := by omega
              simp only [hpj, hp1, if_false]
              exact hinv p j hp (by omega) (by omega) (by omega)
          · simp only [hq1, if_false]
            by_cases hpj : p = j
            · simp only [hpj, if_true]
              exact hinv (j + 1) q (by omega) (by omega) hq hq1
            · simp only [hpj, if_false]
              by_cases hp1 : p = j + 1
              · simp only [hp1, if_true]
                exact hinv j q (by omega) (by omega) hq hq1
              · simp only [hp1, if_false]
                exact hinv p q hp hpq hq hq1
        obtain ⟨l', h1, h2, h3⟩ := insertionSort_inner_spec a i j (swapAt l (j + 1) j)
          (hT.of_perm hsh.1) (by omega) (by omega) (by rw [length_swapAt]; exact hil) hinv'
        exact ⟨l', h1, hsh.trans h2, h3⟩
      · simp only [hlt, decide_False]
        refine ⟨l, rfl, Shuffle.refl _ _ _, fun p q hp hpq hq => ?_⟩
        by_cases hq1 : q = j + 1
        · subst hq1
          by_cases hpj : p = j
          · subst hpj; omega
          · have := hinv p j hp (by omega) (by omega) (by omega)
            omega
        · exact hinv p q hp hpq (by omega) hq1
    · have : j + 1 = a := by omega
      simp only [hgt, if_false]
      refine ⟨l, rfl, Shuffle.refl _ _ _, fun p q hp hpq hq => ?_⟩
      exact hinv p q hp hpq (by omega) (by omega)

theorem insertionSort_outer_spec (a b : Nat) :
    ∀ (fuel i : Nat) (l : List CertificateDetail), AllTs l → a < i → b ≤ i + fuel →
      b ≤ l.length → i ≤ b ∨ b ≤ a + 1 → SortedRange (keyAt l) a i →
      ∃ l', insertionSort.outer byCreationDateDescending.Interface a b fuel i l = some l' ∧
        Shuffle a b l l' ∧ SortedRange (keyAt l') a b
  | 0, i, l, _, _, hf, _, _, hs => by
    refine ⟨l, rfl, Shuffle.refl _ _ _, fun p q hp hpq hq => ?_⟩
    exact hs p q hp hpq (by omega)
  | fuel + 1, i, l, hT, hai, hf, hb, hib, hs => by
    unfold insertionSort.outer
    by_cases hlt : i < b
    · simp only [hlt, if_true]
      have hinv : InsertInv (keyAt l) a i i := by
        intro p q hp hpq hq hqi
        exact hs p q hp hpq (by omega)
      obtain ⟨l₁, h1, h2, h3⟩ := insertionSort_inner_spec a i i l hT (by omega) (le_refl _)
        (by omega) hinv
      simp only [h1, Option.bind_eq_bind, Option.some_bind]
      have h2' : Shuffle a b l l₁ := h2.mono (le_refl _) (by omega)
      obtain ⟨l₂, g1, g2, g3⟩ := insertionSort_outer_spec a b fuel (i + 1) l₁
        (hT.of_perm h2.1) (by omega) (by omega) (by rw [h2.length_eq]; exact hb)
        (by omega) h3
      exact ⟨l₂, g1, h2'.trans g2, g3⟩
    · simp only [hlt, if_false]
      refine ⟨l, rfl, Shuffle.refl _ _ _, fun p q hp hpq hq => ?_⟩
      exact hs p q hp hpq (by omega)

theorem insertionSort_spec {a b : Nat} {l : List CertificateDetail} (hT : AllTs l)
    (hb : b ≤ l.length) :
    ∃ l', insertionSort byCreationDateDescending.Interface l a b = some l' ∧
      Shuffle a b l l' ∧ SortedRange (keyAt l') a b := by
  unfold insertionSort
  exact insertionSort_outer_spec a b (b - (a + 1)) (a + 1) l hT (by omega) (by omega) hb
    (by omega) (fun p q hp hpq hq => by omega)

theorem shell_spec (a b : Nat) :
    ∀ (fuel i : Nat) (l : List CertificateDetail), AllTs l → a + 6 ≤ i → b ≤ l.length →
      ∃ l', quickSort.shell byCreationDateDescending.Interface b fuel i l = some l' ∧
        Shuffle a b l l'
  | 0, i, l, _, _, _ => ⟨l, rfl, Shuffle.refl _ _ _⟩
  | fuel + 1, i, l, hT, hi, hb => by
    unfold quickSort.shell
    by_cases hlt : i < b
    · simp only [hlt, if_true]
      rw [Less_eq hT (by omega) (by omega)]
      simp only [Option.bind_eq_bind, Option.some_bind, Option.pure_def]
      by_cases hk : keyAt l i < keyAt l (i - 6)
      · simp only [hk, decide_True, if_true]
        rw [Swap_eq (by omega) (by omega)]
        simp only [Option.some_bind]
        have hsh : Shuffle a b l (swapAt l i (i - 6)) :=
          Shuffle.swap (by omega) (by omega) (by omega) (by omega) hb
        obtain ⟨l', h1, h2⟩ := shell_spec a b fuel (i + 1) (swapAt l i (i - 6))
          (hT.of_perm hsh.1) (by omega) (by rw [length_swapAt]; exact hb)
        exact ⟨l', h1, hsh.trans h2⟩
      · simp only [hk, decide_False, Bool.false_eq_true, if_false, Option.some_bind]
        exact shell_spec a b fuel (i + 1) l hT (by omega) hb
    · simp only [hlt, if_false]
      exact ⟨l, rfl, Shuffle.refl _ _ _⟩

theorem scanUp_spec (p : Nat → Option Bool) (q : Nat → Bool) (hi : Nat) :
    ∀ (fuel i : Nat), i ≤ hi → hi ≤ i + fuel → (∀ k, i ≤ k → k < hi → p k = some (q k)) →
      ∃ r, scanUp p hi fuel i = some r ∧ i ≤ r ∧ r ≤ hi ∧
        (∀ k, i ≤ k → k < r → q k = true) ∧ (r < hi → q r = false)
  | 0, i, h1, h2, _ => ⟨i, rfl, le_refl _, h1, fun k hk1 hk2 => by omega, fun h => by omega⟩
  | fuel + 1, i, h1, h2, hp => by
    unfold scanUp
    by_cases hlt : i < hi
    · simp only [hlt, if_true, hp i (le_refl _) hlt, Option.bind_eq_bind, Option.some_bind,
        Option.pure_def]
      cases hq : q i with
      | true =>
        simp only [if_true]
        obtain ⟨r, g1, g2, g3, g4, g5⟩ := scanUp_spec p q hi fuel (i + 1) (by omega) (by omega)
          (fun k hk1 hk2 => hp k (by omega) hk2)
        refine ⟨r, g1, by omega, g3, fun k hk1 hk2 => ?_, g5⟩
        by_cases hki : k = i
        · subst hki; exact hq
        · exact g4 k (by omega) hk2
      | false =>
        simp only [Bool.false_eq_true, if_false]
        exact ⟨i, rfl, le_refl _, h1, fun k hk1 hk2 => by omega, fun _ => hq⟩
    · simp only [hlt, if_false]
      exact ⟨i, rfl, le_refl _, h1, fun k hk1 hk2 => by omega, fun h => by omega⟩

theorem scanDown_spec (p : Nat → Option Bool) (q : Nat → Bool) (lo : Nat) :
    ∀ (fuel i : Nat), lo ≤ i → i ≤ lo + fuel → (∀ k, lo ≤ k → k < i → p k = some (q k)) →
      ∃ r, scanDown p lo fuel i = some r ∧ lo ≤ r ∧ r ≤ i ∧
        (∀ k, r ≤ k → k < i → q k = true) ∧ (lo < r → q (r - 1) = false)
  | 0, i, h1, h2, _ => ⟨i, rfl, h1, le_refl _, fun k hk1 hk2 => by omega, fun h => by omega⟩
  | fuel + 1, i, h1, h2, hp => by
    unfold scanDown
    by_cases hlt : lo < i
    · simp only [hlt, if_true, hp (i - 1) (by omega) (by omega), Option.bind_eq_bind,
        Option.some_bind, Option.pure_def]
      cases hq : q (i - 1) with
      | true =>
        simp only [if_true]
        obtain ⟨r, g1, g2, g3, g4, g5⟩ := scanDown_spec p q lo fuel (i - 1) (by omega) (by omega)
          (fun k hk1 hk2 => hp k hk1 (by omega))
        refine ⟨r, g1, g2, by omega, fun k hk1 hk2 => ?_, g5⟩
        by_cases hki : k = i - 1
        · subst hki; exact hq
        · exact g4 k hk1 (by omega)
      | false =>
        simp only [Bool.false_eq_true, if_false]
        exact ⟨i, rfl, h1, le_refl _, fun k hk1 hk2 => by omega, fun _ => hq⟩
    · simp only [hlt, if_false]
      exact ⟨i, rfl, h1, le_refl _, fun k hk1 hk2 => by omega, fun h => by omega⟩

theorem medianOfThree_tail {a b : Nat} {l₁ : List CertificateDetail} {m1 m0 m2 : Nat}
    (hT₁ : AllTs l₁) (hb₁ : b ≤ l₁.length)
    (h1 : a ≤ m1 ∧ m1 < b) (h0 : a ≤ m0 ∧ m0 < b) (h2 : a ≤ m2 ∧ m2 < b)
    (hne : m1 ≠ m0 ∧ m1 ≠ m2 ∧ m0 ≠ m2) (hk₁ : keyAt l₁ m0 ≤ keyAt l₁ m1) :
    ∃ l', ((byCreationDateDescending.Interface.Less l₁ m2 m1).bind fun c =>
        if c = true then
          (byCreationDateDescending.Interface.Swap l₁ m2 m1).bind fun data =>
            (byCreationDateDescending.Interface.Less data m1 m0).bind fun c =>
              if c = true then byCreationDateDescending.Interface.Swap data m1 m0 else some data
        else some l₁) = some l' ∧
      Shuffle a b l₁ l' ∧ keyAt l' m1 ≤ keyAt l' m2 := by
  have f1 : m1 < l₁.length := by omega
  have f0 : m0 < l₁.length := by omega
  have f2 : m2 < l₁.length := by omega
  rw [Less_eq hT₁ f2 f1]
  simp only [Option.some_bind]
  by_cases hk2 : keyAt l₁ m2 < keyAt l₁ m1
  · simp only [hk2, decide_True, if_true]
    rw [Swap_eq f2 f1]
    simp only [Option.some_bind]
    have hs₂ : Shuffle a b l₁ (swapAt l₁ m2 m1) := Shuffle.swap h2.1 h2.2 h1.1 h1.2 hb₁
    have hT₂ := hT₁.of_perm hs₂.1
    have g1 : m1 < (swapAt l₁ m2 m1).length := by rw [length_swapAt]; exact f1
    have g0 : m0 < (swapAt l₁ m2 m1).length := by rw [length_swapAt]; exact f0
    rw [Less_eq hT₂ g1 g0]
    simp only [Option.some_bind]
    have k1 : keyAt (swapAt l₁ m2 m1) m1 = keyAt l₁ m2 := by
      rw [keyAt_swapAt f2 f1]; simp
    have k2 : keyAt (swapAt l₁ m2 m1) m2 = keyAt l₁ m1 := by
      rw [keyAt_swapAt f2 f1]; simp [Ne.symm hne.2.1]
    have k0 : keyAt (swapAt l₁ m2 m1) m0 = keyAt l₁ m0 := by
      rw [keyAt_swapAt f2 f1]; simp [Ne.symm hne.1, hne.2.2]
    by_cases hk3 : keyAt (swapAt l₁ m2 m1) m1 < keyAt (swapAt l₁ m2 m1) m0
    · simp only [hk3, decide_True, if_true]
      rw [Swap_eq g1 g0]
      refine ⟨_, rfl, hs₂.trans
        (Shuffle.swap h1.1 h1.2 h0.1 h0.2 (by rw [length_swapAt]; exact hb₁)), ?_⟩
      rw [keyAt_swapAt g1 g0, keyAt_swapAt g1 g0]
      simp [hne.1, Ne.symm hne.2.2, Ne.symm hne.2.1]
      omega
    · simp only [hk3, decide_False, Bool.false_eq_true, if_false]
      exact ⟨_, rfl, hs₂, by omega⟩
  · simp only [hk2, decide_False, Bool.false_eq_true, if_false]
    exact ⟨l₁, rfl, Shuffle.refl _ _ _, by omega⟩

/-- The call `medianOfThree(data, m1, m0, m2)` rearranges the three entries so
that the one at `m1` is not above the one at `m2`. -/
theorem medianOfThree_spec {a b : Nat} {l : List CertificateDetail} {m1 m0 m2 : Nat}
    (hT : AllTs l) (hb : b ≤ l.length)
    (h1 : a ≤ m1 ∧ m1 < b) (h0 : a ≤ m0 ∧ m0 < b) (h2 : a ≤ m2 ∧ m2 < b)
    (hne : m1 ≠ m0 ∧ m1 ≠ m2 ∧ m0 ≠ m2) :
    ∃ l', medianOfThree byCreationDateDescending.Interface l m1 m0 m2 = some l' ∧
      Shuffle a b l l' ∧ keyAt l' m1 ≤ keyAt l' m2 := by
  have e1 : m1 < l.length := by omega
  have e0 : m0 < l.length := by omega
  unfold medianOfThree
  rw [Less_eq hT e1 e0]
  simp only [Option.bind_eq_bind, Option.some_bind, Option.pure_def]
  by_cases hk : keyAt l m1 < keyAt l m0
  · simp only [hk, decide_True, if_true, Swap_eq e1 e0, Option.some_bind]
    have hs : Shuffle a b l (swapAt l m1 m0) := Shuffle.swap h1.1 h1.2 h0.1 h0.2 hb
    have hk₁ : keyAt (swapAt l m1 m0) m0 ≤ keyAt (swapAt l m1 m0) m1 := by
      rw [keyAt_swapAt e1 e0, keyAt_swapAt e1 e0]
      simp [hne.1]
      omega
    obtain ⟨l', g1, g2, g3⟩ := medianOfThree_tail (hT.of_perm hs.1)
      (by rw [length_swapAt]; exact hb) h1 h0 h2 hne hk₁
    exact ⟨l', g1, hs.trans g2, g3⟩
  · simp only [hk, decide_False, Bool.false_eq_true, if_false]
    exact medianOfThree_tail hT hb h1 h0 h2 hne (by omega)

theorem split_spec (lo hi : Nat) (v : Int) :
    ∀ (fuel : Nat) (l : List CertificateDetail) (b c : Nat), AllTs l → hi ≤ l.length →
      lo < b → b ≤ c → c < hi → c ≤ b + fuel → keyAt l lo = v →
      (∀ n, lo < n → n < b → keyAt l n ≤ v) → (∀ n, c ≤ n → n < hi → v ≤ keyAt l n) →
      ∃ l' b', doPivot.split byCreationDateDescending.Interface lo fuel l b c = some (l', b', b') ∧
        Shuffle (lo + 1) hi l l' ∧ b ≤ b' ∧ b' ≤ c ∧
        (∀ n, lo < n → n < b' → keyAt l' n ≤ v) ∧ (∀ n, b' ≤ n → n < hi → v ≤ keyAt l' n)
  | 0, l, b, c, _, _, _, hbc, _, hf, _, hL, hR => by
    have : b = c := by omega
    subst this
    exact ⟨l, b, rfl, Shuffle.refl _ _ _, le_refl _, le_refl _, hL, hR⟩
  | fuel + 1, l, b, c, hT, hlen, hlb, hbc, hch, hf, hv, hL, hR => by
    unfold doPivot.split
    obtain ⟨b₁, e1, e2, e3, e4, e5⟩ := scanUp_spec
      (fun k => (byCreationDateDescending.Interface.Less l lo k).map (!·))
      (fun k => !decide (keyAt l lo < keyAt l k)) c (c - b) b hbc (by omega)
      (fun k hk1 hk2 => by simp [Less_eq hT (show lo < l.length by omega)
        (show k < l.length by omega)])
    obtain ⟨c₁, f1, f2, f3, f4, f5⟩ := scanDown_spec
      (fun k => byCreationDateDescending.Interface.Less l lo k)
      (fun k => decide (keyAt l lo < keyAt l k)) b₁ (c - b₁) c e3 (by omega)
      (fun k hk1 hk2 => by simp [Less_eq hT (show lo < l.length by omega)
        (show k < l.length by omega)])
    simp only [e1, f1, Option.bind_eq_bind, Option.some_bind, Option.pure_def]
    have hL₁ : ∀ n, lo < n → n < b₁ → keyAt l n ≤ v := by
      intro n h1 h2
      by_cases hn : n < b
      · exact hL n h1 hn
      · have := e4 n (by omega) h2
        simp at this
        omega
    have hR₁ : ∀ n, c₁ ≤ n → n < hi → v ≤ keyAt l n := by
      intro n h1 h2
      by_cases hn : c ≤ n
      · exact hR n hn h2
      · have := f4 n h1 (by omega)
        simp at this
        omega
    by_cases hge : b₁ ≥ c₁
    · have : b₁ = c₁ := by omega
      subst this
      simp only [ge_iff_le, le_refl, if_true]
      exact ⟨l, b₁, rfl, Shuffle.refl _ _ _, e2, e3, hL₁, hR₁⟩
    · simp only [hge, if_false]
      have hb₁ : v < keyAt l b₁ := by
        have := e5 (by omega)
        simp at this
        omega
      have hc₁ : keyAt l (c₁ - 1) ≤ v := by
        have := f5 (by omega)
        simp at this
        omega
      have hne : b₁ ≠ c₁ - 1 := by
        intro h
        rw [← h] at hc₁
        omega
      have i1 : b₁ < l.length := by omega
      have i2 : c₁ - 1 < l.length := by omega
      rw [Swap_eq i1 i2]
      simp only [Option.some_bind]
      have hsh : Shuffle (lo + 1) hi l (swapAt l b₁ (c₁ - 1)) :=
        Shuffle.swap (by omega) (by omega) (by omega) (by omega) hlen
      obtain ⟨l', b', g1, g2, g3, g4, g5, g6⟩ := split_spec lo hi v fuel (swapAt l b₁ (c₁ - 1))
        (b₁ + 1) (c₁ - 1) (hT.of_perm hsh.1) (by rw [length_swapAt]; exact hlen)
        (by omega) (by omega) (by omega) (by omega)
        (by rw [hsh.2.1 lo (by omega)]; exact hv)
        (fun n h1 h2 => by
          rw [keyAt_swapAt i1 i2]
          by_cases hn : n = b₁
          · subst hn
            simp [hne]
            exact hc₁
          · have : n ≠ c₁ - 1 := by omega
            simp [hn, this]
            exact hL₁ n h1 (by omega))
        (fun n h1 h2 => by
          rw [keyAt_swapAt i1 i2]
          by_cases hn : n = c₁ - 1
          · simp [hn]
            omega
          · have : n ≠ b₁ := by omega
            simp [hn, this]
            exact hR₁ n (by omega) h2)
      exact ⟨l', b', g1, hsh.trans g2, by omega, by omega, g5, g6⟩

theorem gather_spec (lo c : Nat) (v : Int) :
    ∀ (fuel : Nat) (l : List CertificateDetail) (a b : Nat), AllTs l → c ≤ l.length →
      lo < a → lo < b → b ≤ c → b ≤ a + fuel → (fuel = 0 ∨ a ≤ b) → keyAt l lo = v →
      (∀ n, lo < n → n < b → keyAt l n ≤ v) → (∀ n, b ≤ n → n < c → keyAt l n = v) →
      ∃ l' a' b', doPivot.gather byCreationDateDescending.Interface lo fuel l a b
          = some (l', a', b') ∧
        Shuffle (lo + 1) c l l' ∧ lo < b' ∧ b' ≤ b ∧
        (∀ n, lo < n → n < b' → keyAt l' n ≤ v) ∧ (∀ n, b' ≤ n → n < c → keyAt l' n = v)
  | 0, l, a, b, _, _, _, hlb, _, _, _, _, hL, hM =>
    ⟨l, a, b, rfl, Shuffle.refl _ _ _, hlb, le_refl _, hL, hM⟩
  | fuel + 1, l, a, b, hT, hlen, hla, hlb, hbc, hf, hab, hv, hL, hM => by
    have hab : a ≤ b := by omega
    unfold doPivot.gather
    obtain ⟨b₁, e1, e2, e3, e4, e5⟩ := scanDown_spec
      (fun k => (byCreationDateDescending.Interface.Less l k lo).map (!·))
      (fun k => !decide (keyAt l k < keyAt l lo)) a (b - a) b hab (by omega)
      (fun k hk1 hk2 => by simp [Less_eq hT (show k < l.length by omega)
        (show lo < l.length by omega)])
    obtain ⟨a₁, f1, f2, f3, f4, f5⟩ := scanUp_spec
      (fun k => byCreationDateDescending.Interface.Less l k lo)
      (fun k => decide (keyAt l k < keyAt l lo)) b₁ (b₁ - a) a e2 (by omega)
      (fun k hk1 hk2 => by simp [Less_eq hT (show k < l.length by omega)
        (show lo < l.length by omega)])
    simp only [e1, f1, Option.bind_eq_bind, Option.some_bind, Option.pure_def]
    have hL₁ : ∀ n, lo < n → n < b₁ → keyAt l n ≤ v := fun n h1 h2 => hL n h1 (by omega)
    have hM₁ : ∀ n, b₁ ≤ n → n < c → keyAt l n = v := by
      intro n h1 h2
      by_cases hn : b ≤ n
      · exact hM n hn h2
      · have := e4 n h1 (by omega)
        simp at this
        have := hL n (by omega) (by omega)
        omega
    by_cases hge : a₁ ≥ b₁
    · simp only [hge, if_true]
      exact ⟨l, a₁, b₁, rfl, Shuffle.refl _ _ _, by omega, e3, hL₁, hM₁⟩
    · simp only [hge, if_false]
      have ha₁ : v ≤ keyAt l a₁ := by
        have := f5 (by omega)
        simp at this
        omega
      have hb₁ : keyAt l (b₁ - 1) < v := by
        have := e5 (by omega)
        simp at this
        omega
      have ha₁' : keyAt l a₁ = v := by
        have := hL₁ a₁ (by omega) (by omega)
        omega
      have hne : a₁ ≠ b₁ - 1 := by
        intro h
        rw [← h] at hb₁
        omega
      have i1 : a₁ < l.length := by omega
      have i2 : b₁ - 1 < l.length := by omega
      rw [Swap_eq i1 i2]
      simp only [Option.some_bind]
      have hsh : Shuffle (lo + 1) c l (swapAt l a₁ (b₁ - 1)) :=
        Shuffle.swap (by omega) (by omega) (by omega) (by omega) hlen
      obtain ⟨l', a', b', g1, g2, g3, g4, g5, g6⟩ := gather_spec lo c v fuel
        (swapAt l a₁ (b₁ - 1)) (a₁ + 1) (b₁ - 1) (hT.of_perm hsh.1)
        (by rw [length_swapAt]; exact hlen)
        (by omega) (by omega) (by omega) (by omega) (Or.inr (by omega))
        (by rw [hsh.2.1 lo (by omega)]; exact hv)
        (fun n h1 h2 => by
          rw [keyAt_swapAt i1 i2]
          have : n ≠ b₁ - 1 := by omega
          by_cases hn : n = a₁
          · simp [hn, hne]
            omega
          · simp [hn, this]
            exact hL₁ n h1 (by omega))
        (fun n h1 h2 => by
          rw [keyAt_swapAt i1 i2]
          have : n ≠ a₁ := by omega
          by_cases hn : n = b₁ - 1
          · simp [hn]
            exact ha₁'
          · simp [hn, this]
            exact hM₁ n (by omega) h2)
      exact ⟨l', a', b', g1, hsh.trans g2, g3, by omega, g5, g6⟩

theorem PivInv.allTs {lo hi : Nat} {v : Int} {l₀ l : List CertificateDetail} {b c : Nat}
    (h : PivInv lo hi v l₀ l b c) (hT : AllTs l₀) : AllTs l := hT.of_perm h.1.1

theorem PivInv.length {lo hi : Nat} {v : Int} {l₀ l : List CertificateDetail} {b c : Nat}
    (h : PivInv lo hi v l₀ l b c) : l.length = l₀.length := h.1.length_eq

/-- The first test of the duplicates block: the entry at `hi-1` equals the pivot
and is exchanged with the one at `c`. -/
theorem PivInv.step1 {lo hi : Nat} {v : Int} {l₀ l : List CertificateDetail} {c : Nat}
    (h : PivInv lo hi v l₀ l c c) (hlen : hi ≤ l₀.length) (hc : c + 1 < hi)
    (hk : ¬ keyAt l lo < keyAt l (hi - 1)) :
    PivInv lo hi v l₀ (swapAt l c (hi - 1)) c (c + 1) := by
  obtain ⟨h1, h2, h3, h4, h5, h6, h7, h8⟩ := h
  have hl : l.length = l₀.length := h1.length_eq
  have i1 : c < l.length := by omega
  have i2 : hi - 1 < l.length := by omega
  have hv : keyAt l (hi - 1) = v := by
    have := h8 (hi - 1) (by omega) (by omega)
    omega
  refine ⟨h1.trans (Shuffle.swap (by omega) (by omega) (by omega) (by omega) (by omega)),
    ?_, h3, by omega, by omega, ?_, ?_, ?_⟩
  · rw [keyAt_swapAt i1 i2]
    have e1 : lo ≠ hi - 1 := by omega
    have e2 : lo ≠ c := by omega
    simp [e1, e2, h2]
  · intro n hn1 hn2
    rw [keyAt_swapAt i1 i2]
    have e1 : n ≠ hi - 1 := by omega
    have e2 : n ≠ c := by omega
    simp [e1, e2]
    exact h6 n hn1 hn2
  · intro n hn1 hn2
    have : n = c := by omega
    subst this
    rw [keyAt_swapAt i1 i2]
    have e1 : n ≠ hi - 1 := by omega
    simp [e1, hv]
  · intro n hn1 hn2
    rw [keyAt_swapAt i1 i2]
    by_cases e1 : n = hi - 1
    · simp [e1]
      exact h8 c (le_refl _) (by omega)
    · have e2 : n ≠ c := by omega
      simp [e1, e2]
      exact h8 n (by omega) hn2

/-- The second test of the duplicates block: the entry at `b-1` equals the
pivot. -/
theorem PivInv.step2 {lo hi : Nat} {v : Int} {l₀ l : List CertificateDetail} {b c : Nat}
    (h : PivInv lo hi v l₀ l b c) (hb : lo + 1 < b)
    (hk : ¬ keyAt l (b - 1) < keyAt l lo) :
    PivInv lo hi v l₀ l (b - 1) c := by
  obtain ⟨h1, h2, h3, h4, h5, h6, h7, h8⟩ := h
  refine ⟨h1, h2, by omega, by omega, h5, fun n hn1 hn2 => h6 n hn1 (by omega), ?_, h8⟩
  intro n hn1 hn2
  by_cases hn : n = b - 1
  · subst hn
    have := h6 (b - 1) (by omega) (by omega)
    omega
  · exact h7 n (by omega) hn2

/-- The third test of the duplicates block: the entry at `m` equals the pivot
and is exchanged with the one at `b-1`. -/
theorem PivInv.step3 {lo hi : Nat} {v : Int} {l₀ l : List CertificateDetail} {b c m : Nat}
    (h : PivInv lo hi v l₀ l b c) (hlen : hi ≤ l₀.length) (hm : lo < m) (hmb : m < b)
    (hk : ¬ keyAt l m < keyAt l lo) :
    PivInv lo hi v l₀ (swapAt l m (b - 1)) (b - 1) c := by
  obtain ⟨h1, h2, h3, h4, h5, h6, h7, h8⟩ := h
  have hl : l.length = l₀.length := h1.length_eq
  have i1 : m < l.length := by omega
  have i2 : b - 1 < l.length := by omega
  have hv : keyAt l m = v := by
    have := h6 m hm hmb
    omega
  refine ⟨h1.trans (Shuffle.swap (by omega) (by omega) (by omega) (by omega) (by omega)),
    ?_, by omega, by omega, h5, ?_, ?_, ?_⟩
  · rw [keyAt_swapAt i1 i2]
    have e1 : lo ≠ b - 1 := by omega
    have e2 : lo ≠ m := by omega
    simp [e1, e2, h2]
  · intro n hn1 hn2
    rw [keyAt_swapAt i1 i2]
    have e1 : n ≠ b - 1 := by omega
    by_cases e2 : n = m
    · rw [if_neg e1, if_pos e2]
      exact h6 (b - 1) (by omega) (by omega)
    · simp [e1, e2]
      exact h6 n hn1 (by omega)
  · intro n hn1 hn2
    rw [keyAt_swapAt i1 i2]
    by_cases e1 : n = b - 1
    · simp [e1, hv]
    · have e2 : n ≠ m := by omega
      simp [e1, e2]
      exact h7 n (by omega) hn2
  · intro n hn1 hn2
    rw [keyAt_swapAt i1 i2]
    have e1 : n ≠ b - 1 := by omega
    have e2 : n ≠ m := by omega
    simp [e1, e2]
    exact h8 n hn1 hn2

theorem Less_at (l : List CertificateDetail) (i j : Nat) (hT : AllTs l)
    (hi : i < l.length) (hj : j < l.length) :
    byCreationDateDescending.Interface.Less l i j = some (decide (keyAt l i < keyAt l j)) :=
  Less_eq hT hi hj

theorem Swap_at (l : List CertificateDetail) (i j : Nat)
    (hi : i < l.length) (hj : j < l.length) :
    byCreationDateDescending.Interface.Swap l i j = some (swapAt l i j) :=
  Swap_eq hi hj

theorem dups_spec {lo hi : Nat} {v : Int} {l₀ l : List CertificateDetail} {c : Nat}
    (hT : AllTs l₀) (hlen : hi ≤ l₀.length) (h : PivInv lo hi v l₀ l c c)
    (h5 : 5 ≤ hi - c) (h4 : hi - c < (hi - lo) / 4) :
    ∃ l' b' c' pr, doPivot.dups byCreationDateDescending.Interface l lo ((lo + hi) / 2) hi c c
        = some (l', b', c', pr) ∧ PivInv lo hi v l₀ l' b' c' := by
  have hlo : lo < c := h.2.2.1
  have hm1 : lo < (lo + hi) / 2 := by omega
  have hm2 : (lo + hi) / 2 + 1 < c := by omega
  have hl := h.length
  unfold doPivot.dups
  simp only [Option.bind_eq_bind, Option.pure_def]
  rw [Less_at l lo (hi - 1) (h.allTs hT) (by omega) (by omega)]
  simp only [Option.some_bind]
  by_cases k1 : keyAt l lo < keyAt l (hi - 1)
  · simp only [k1, decide_True, Bool.not_true, Bool.false_eq_true, if_false, Option.some_bind]
    have S1 : PivInv lo hi v l₀ l c c := h
    have hl1 := S1.length
    rw [Less_at (l) (c - 1) lo (S1.allTs hT) (by omega) (by omega)]
    simp only [Option.some_bind]
    by_cases k2 : keyAt (l) (c - 1) < keyAt (l) lo
    · simp only [k2, decide_True, Bool.not_true, Bool.false_eq_true, if_false, Option.some_bind]
      have hb2 : (lo + hi) / 2 < c := by omega
      have S2 := S1
      rw [Less_at (l) ((lo + hi) / 2) lo (S1.allTs hT) (by omega) (by omega)]
      simp only [Option.some_bind]
      by_cases k3 : keyAt (l) ((lo + hi) / 2) < keyAt (l) lo
      · simp only [k3, decide_True, Bool.not_true, Bool.false_eq_true, if_false,
          Option.some_bind]
        exact ⟨_, _, _, _, rfl, S2⟩
      · simp only [k3, decide_False, Bool.not_false, if_true]
        rw [Swap_at (l) ((lo + hi) / 2) _ (by omega) (by omega)]
        simp only [Option.some_bind]
        exact ⟨_, _, _, _, rfl, S2.step3 hlen hm1 hb2 k3⟩
    · simp only [k2, decide_False, Bool.not_false, if_true, Option.some_bind]
      have hb2 : (lo + hi) / 2 < c - 1 := by omega
      have S2 := S1.step2 (by omega) k2
      rw [Less_at (l) ((lo + hi) / 2) lo (S1.allTs hT) (by omega) (by omega)]
      simp only [Option.some_bind]
      by_cases k3 : keyAt (l) ((lo + hi) / 2) < keyAt (l) lo
      · simp only [k3, decide_True, Bool.not_true, Bool.false_eq_true, if_false,
          Option.some_bind]
        exact ⟨_, _, _, _, rfl, S2⟩
      · simp only [k3, decide_False, Bool.not_false, if_true]
        rw [Swap_at (l) ((lo + hi) / 2) _ (by omega) (by omega)]
        simp only [Option.some_bind]
        exact ⟨_, _, _, _, rfl, S2.step3 hlen hm1 hb2 k3⟩
  · simp only [k1, decide_False, Bool.not_false, if_true]
    rw [Swap_at l c (hi - 1) (by omega) (by omega)]
    simp only [Option.some_bind]
    have S1 := h.step1 hlen (by omega) k1
    have hl1 := S1.length
    rw [Less_at (swapAt l c (hi - 1)) (c - 1) lo (S1.allTs hT) (by omega) (by omega)]
    simp only [Option.some_bind]
    by_cases k2 : keyAt (swapAt l c (hi - 1)) (c - 1) < keyAt (swapAt l c (hi - 1)) lo
    · simp only [k2, decide_True, Bool.not_true, Bool.false_eq_true, if_false, Option.some_bind]
      have hb2 : (lo + hi) / 2 < c := by omega
      have S2 := S1
      rw [Less_at (swapAt l c (hi - 1)) ((lo + hi) / 2) lo (S1.allTs hT) (by omega) (by omega)]
      simp only [Option.some_bind]
      by_cases k3 : keyAt (swapAt l c (hi - 1)) ((lo + hi) / 2) < keyAt (swapAt l c (hi - 1)) lo
      · simp only [k3, decide_True, Bool.not_true, Bool.false_eq_true, if_false,
          Option.some_bind]
        exact ⟨_, _, _, _, rfl, S2⟩
      · simp only [k3, decide_False, Bool.not_false, if_true]
        rw [Swap_at (swapAt l c (hi - 1)) ((lo + hi) / 2) _ (by omega) (by omega)]
        simp only [Option.some_bind]
        exact ⟨_, _, _, _, rfl, S2.step3 hlen hm1 hb2 k3⟩
    · simp only [k2, decide_False, Bool.not_false, if_true, Option.some_bind]
      have hb2 : (lo + hi) / 2 < c - 1 := by omega
      have S2 := S1.step2 (by omega) k2
      rw [Less_at (swapAt l c (hi - 1)) ((lo + hi) / 2) lo (S1.allTs hT) (by omega) (by omega)]
      simp only [Option.some_bind]
      by_cases k3 : keyAt (swapAt l c (hi - 1)) ((lo + hi) / 2) < keyAt (swapAt l c (hi - 1)) lo
      · simp only [k3, decide_True, Bool.not_true, Bool.false_eq_true, if_false,
          Option.some_bind]
        exact ⟨_, _, _, _, rfl, S2⟩
      · simp only [k3, decide_False, Bool.not_false, if_true]
        rw [Swap_at (swapAt l c (hi - 1)) ((lo + hi) / 2) _ (by omega) (by omega)]
        simp only [Option.some_bind]
        exact ⟨_, _, _, _, rfl, S2.step3 hlen hm1 hb2 k3⟩

theorem ninther_spec {lo hi : Nat} {l : List CertificateDetail} (hT : AllTs l)
    (hlen : hi ≤ l.length) :
    ∃ l', doPivot.ninther byCreationDateDescending.Interface l lo hi = some l' ∧
      Shuffle lo hi l l' := by
  unfold doPivot.ninther
  by_cases h40 : hi - lo > 40
  · simp only [h40, if_true, Option.bind_eq_bind]
    obtain ⟨l₁, e1, s1, _⟩ := @medianOfThree_spec lo hi l lo
      (lo + (hi - lo) / 8) (lo + 2 * ((hi - lo) / 8)) hT hlen
      (by omega) (by omega) (by omega) (by omega)
    rw [e1]
    simp only [Option.some_bind]
    obtain ⟨l₂, e2, s2, _⟩ := @medianOfThree_spec lo hi l₁ ((lo + hi) / 2)
      ((lo + hi) / 2 - (hi - lo) / 8) ((lo + hi) / 2 + (hi - lo) / 8)
      (hT.of_perm s1.1) (by rw [s1.length_eq]; exact hlen)
      (by omega) (by omega) (by omega) (by omega)
    rw [e2]
    simp only [Option.some_bind]
    obtain ⟨l₃, e3, s3, _⟩ := @medianOfThree_spec lo hi l₂ (hi - 1)
      (hi - 1 - (hi - lo) / 8) (hi - 1 - 2 * ((hi - lo) / 8))
      (hT.of_perm (s1.trans s2).1) (by rw [(s1.trans s2).length_eq]; exact hlen)
      (by omega) (by omega) (by omega) (by omega)
    exact ⟨l₃, e3, (s1.trans s2).trans s3⟩
  · simp only [h40, if_false]
    exact ⟨l, rfl, Shuffle.refl _ _ _⟩

theorem PivInv.final {lo hi : Nat} {v : Int} {l₀ l : List CertificateDetail} {b c : Nat}
    (h : PivInv lo hi v l₀ l b c) (hlen : hi ≤ l₀.length) :
    Shuffle lo hi l₀ (swapAt l lo (b - 1)) ∧
      Partitioned (keyAt (swapAt l lo (b - 1))) lo (b - 1) c hi := by
  obtain ⟨h1, h2, h3, h4, h5, h6, h7, h8⟩ := h
  have hl : l.length = l₀.length := h1.length_eq
  have i1 : lo < l.length := by omega
  have i2 : b - 1 < l.length := by omega
  have hK : ∀ n, keyAt (swapAt l lo (b - 1)) n =
      if n = b - 1 then keyAt l lo else if n = lo then keyAt l (b - 1) else keyAt l n :=
    fun n => keyAt_swapAt i1 i2 n
  have hp : keyAt (swapAt l lo (b - 1)) (b - 1) = v := by rw [hK]; simp [h2]
  refine ⟨(h1.mono (by omega) (le_refl _)).trans
    (Shuffle.swap (le_refl _) (by omega) (by omega) (by omega) (by omega)),
    by omega, by omega, h5, ?_, ?_, ?_⟩
  · intro n hn1 hn2
    rw [hp, hK]
    have e1 : n ≠ b - 1 := by omega
    rw [if_neg e1]
    by_cases e2 : n = lo
    · rw [if_pos e2]
      exact h6 (b - 1) (by omega) (by omega)
    · rw [if_neg e2]
      exact h6 n (by omega) (by omega)
  · intro n hn1 hn2
    rw [hp, hK]
    by_cases e1 : n = b - 1
    · rw [if_pos e1]; exact h2
    · have e2 : n ≠ lo := by omega
      rw [if_neg e1, if_neg e2]
      exact h7 n (by omega) hn2
  · intro n hn1 hn2
    rw [hp, hK]
    have e1 : n ≠ b - 1 := by omega
    have e2 : n ≠ lo := by omega
    rw [if_neg e1, if_neg e2]
    exact h8 n hn1 hn2

theorem PivInv.gather {lo hi : Nat} {v : Int} {l₀ l : List CertificateDetail} {a b c : Nat}
    (h : PivInv lo hi v l₀ l b c) (hT : AllTs l₀) (hlen : hi ≤ l₀.length) (ha : lo < a) :
    ∃ l' a' b', doPivot.gather byCreationDateDescending.Interface lo (b - a) l a b
        = some (l', a', b') ∧ PivInv lo hi v l₀ l' b' c := by
  obtain ⟨h1, h2, h3, h4, h5, h6, h7, h8⟩ := h
  have hl : l.length = l₀.length := h1.length_eq
  obtain ⟨l', a', b', g1, g2, g3, g4, g5, g6⟩ := gather_spec lo c v (b - a) l a b
    (hT.of_perm h1.1) (by omega) ha h3 h4 (by omega) (by omega) h2 h6 h7
  refine ⟨l', a', b', g1, h1.trans (g2.mono (le_refl _) h5), ?_, g3, by omega, h5, g5, g6, ?_⟩
  · rw [g2.2.1 lo (by omega)]; exact h2
  · intro n hn1 hn2
    rw [g2.2.1 n (by omega)]
    exact h8 n hn1 hn2

theorem doPivot_finish {lo hi : Nat} {v : Int} {l₀ l : List CertificateDetail} {a b c : Nat}
    (h : PivInv lo hi v l₀ l b c) (hT : AllTs l₀) (hlen : hi ≤ l₀.length) (ha : lo < a)
    (protect : Bool) :
    ∃ l' mlo, (if protect = true then
          (doPivot.gather byCreationDateDescending.Interface lo (b - a) l a b).bind fun d =>
            (byCreationDateDescending.Interface.Swap d.1 lo (d.2.2 - 1)).bind fun data =>
              some (data, d.2.2 - 1, c)
        else
          (byCreationDateDescending.Interface.Swap l lo (b - 1)).bind fun data =>
            some (data, b - 1, c)) = some (l', mlo, c) ∧
      Shuffle lo hi l₀ l' ∧ Partitioned (keyAt l') lo mlo c hi := by
  cases protect with
  | true =>
    obtain ⟨l₁, a₁, b₁, e, S⟩ := h.gather hT hlen ha
    have hl := S.length
    have := S.2.2.1
    have := S.2.2.2.1
    have := S.2.2.2.2.1
    simp only [if_true, e, Option.some_bind]
    rw [Swap_at l₁ lo (b₁ - 1) (by omega) (by omega)]
    exact ⟨_, _, rfl, S.final hlen⟩
  | false =>
    have hl := h.length
    have := h.2.2.1
    have := h.2.2.2.1
    have := h.2.2.2.2.1
    simp only [Bool.false_eq_true, if_false]
    rw [Swap_at l lo (b - 1) (by omega) (by omega)]
    exact ⟨_, _, rfl, h.final hlen⟩

theorem doPivot_spec {lo hi : Nat} {l : List CertificateDetail} (hT : AllTs l)
    (hlen : hi ≤ l.length) (h12 : 12 < hi - lo) :
    ∃ l' mlo mhi, doPivot byCreationDateDescending.Interface l lo hi = some (l', mlo, mhi) ∧
      Shuffle lo hi l l' ∧ Partitioned (keyAt l') lo mlo mhi hi := by
  unfold doPivot
  simp only [Option.bind_eq_bind, Option.pure_def]
  obtain ⟨l₁, e1, s1⟩ := @ninther_spec lo hi l hT hlen
  rw [e1]
  simp only [Option.some_bind]
  have hT₁ := hT.of_perm s1.1
  have hlen₁ : hi ≤ l₁.length := by rw [s1.length_eq]; exact hlen
  obtain ⟨l₂, e2, s2, hk⟩ := @medianOfThree_spec lo hi l₁ lo ((lo + hi) / 2) (hi - 1) hT₁ hlen₁
    (by omega) (by omega) (by omega) (by omega)
  rw [e2]
  simp only [Option.some_bind]
  have hT₂ := hT₁.of_perm s2.1
  have hlen₂ : hi ≤ l₂.length := by rw [s2.length_eq]; exact hlen₁
  obtain ⟨a₁, e3, f1, f2, f3, _⟩ := scanUp_spec
    (fun k => byCreationDateDescending.Interface.Less l₂ k lo)
    (fun k => decide (keyAt l₂ k < keyAt l₂ lo)) (hi - 1) (hi - 1 - (lo + 1)) (lo + 1)
    (by omega) (by omega)
    (fun k hk1 hk2 => Less_at l₂ k lo hT₂ (by omega) (by omega))
  rw [e3]
  simp only [Option.some_bind]
  obtain ⟨l₃, b₃, e4, s4, g1, g2, g3, g4⟩ := split_spec lo hi (keyAt l₂ lo) (hi - 1 - a₁) l₂ a₁
    (hi - 1) hT₂ hlen₂ (by omega) f2 (by omega) (by omega) rfl
    (fun n hn1 hn2 => by
      have := f3 n (by omega) hn2
      simp at this
      omega)
    (fun n hn1 hn2 => by
      have : n = hi - 1 := by omega
      subst this
      exact hk)
  rw [e4]
  simp only [Option.some_bind]
  have S3 : PivInv lo hi (keyAt l₂ lo) l₂ l₃ b₃ b₃ :=
    ⟨s4, by rw [s4.2.1 lo (by omega)], by omega, le_refl _, by omega, g3,
      fun n hn1 hn2 => by omega, g4⟩
  have hfin : ∀ (l₄ : List CertificateDetail) (b c : Nat) (pr : Bool),
      PivInv lo hi (keyAt l₂ lo) l₂ l₄ b c →
      ∃ l' mlo, (if pr = true then
          (doPivot.gather byCreationDateDescending.Interface lo (b - a₁) l₄ a₁ b).bind fun d =>
            (byCreationDateDescending.Interface.Swap d.1 lo (d.2.2 - 1)).bind fun data =>
              some (data, d.2.2 - 1, c)
        else
          (byCreationDateDescending.Interface.Swap l₄ lo (b - 1)).bind fun data =>
            some (data, b - 1, c)) = some (l', mlo, c) ∧
      Shuffle lo hi l l' ∧ Partitioned (keyAt l') lo mlo c hi := by
    intro l₄ b c pr S
    obtain ⟨l', mlo, h1, h2, h3⟩ := doPivot_finish S hT₂ hlen₂ (show lo < a₁ by omega) pr
    exact ⟨l', mlo, h1, (s1.trans s2).trans h2, h3⟩
  by_cases hd : (!decide (hi - b₃ < 5) && decide (hi - b₃ < (hi - lo) / 4)) = true
  · simp only [hd, if_true]
    have hd' : 5 ≤ hi - b₃ ∧ hi - b₃ < (hi - lo) / 4 := by
      simp at hd
      omega
    obtain ⟨l₄, b₄, c₄, pr, e5, S4⟩ := dups_spec hT₂ hlen₂ S3 hd'.1 hd'.2
    rw [e5]
    simp only [Option.some_bind]
    obtain ⟨l', mlo, h1, h2, h3⟩ := hfin l₄ b₄ c₄ pr S4
    exact ⟨l', mlo, c₄, h1, h2, h3⟩
  · simp only [hd, Bool.false_eq_true, if_false, Option.some_bind]
    obtain ⟨l', mlo, h1, h2, h3⟩ := hfin l₃ b₃ b₃ (decide (hi - b₃ < 5)) S3
    exact ⟨l', mlo, b₃, h1, h2, h3⟩

theorem siftDown_loop_spec (first lo hi : Nat) :
    ∀ (fuel root : Nat) (l : List CertificateDetail), AllTs l → first + hi ≤ l.length →
      lo ≤ root → hi ≤ root + fuel → AlmostHeap (keyAt l) first lo hi root →
      ∃ l', siftDown.loop byCreationDateDescending.Interface hi first fuel root l = some l' ∧
        Shuffle (first + lo) (first + hi) l l' ∧ HeapFrom (keyAt l') first lo hi
  | 0, root, l, _, _, _, hf, hA => by
    refine ⟨l, rfl, Shuffle.refl _ _ _, fun n c hn hc hch => ?_⟩
    by_cases hr : n = root
    · omega
    · exact hA.1 n c hn hr hc hch
  | fuel + 1, root, l, hT, hlen, hlo, hf, hA => by
    unfold siftDown.loop
    simp only []
    by_cases hch : 2 * root + 1 ≥ hi
    · simp only [hch, if_true]
      refine ⟨l, rfl, Shuffle.refl _ _ _, fun n c hn hc hcc => ?_⟩
      by_cases hr : n = root
      · omega
      · exact hA.1 n c hn hr hc hcc
    · simp only [hch, if_false, Option.bind_eq_bind, Option.pure_def]
      have tail : ∀ lt : Bool,
          (lt = true → 2 * root + 2 < hi ∧
            keyAt l (first + (2 * root + 1)) < keyAt l (first + (2 * root + 2))) →
          (lt = false → 2 * root + 2 < hi →
            keyAt l (first + (2 * root + 2)) ≤ keyAt l (first + (2 * root + 1))) →
          ∃ l', ((byCreationDateDescending.Interface.Less l (first + root)
              (first + if lt = true then 2 * root + 1 + 1 else 2 * root + 1)).bind fun t =>
            if (!t) = true then some l
            else
              (byCreationDateDescending.Interface.Swap l (first + root)
                (first + if lt = true then 2 * root + 1 + 1 else 2 * root + 1)).bind fun data =>
                siftDown.loop byCreationDateDescending.Interface hi first fuel
                  (if lt = true then 2 * root + 1 + 1 else 2 * root + 1) data) = some l' ∧
            Shuffle (first + lo) (first + hi) l l' ∧ HeapFrom (keyAt l') first lo hi := by
        intro lt hlt1 hlt2
        obtain ⟨ch, hchd, hch1, hch2, hch3⟩ : ∃ ch, (if lt = true then 2 * root + 1 + 1
            else 2 * root + 1) = ch ∧ ch < hi ∧ (ch = 2 * root + 1 ∨ ch = 2 * root + 2) ∧
            ∀ c, c < hi → (c = 2 * root + 1 ∨ c = 2 * root + 2) →
              keyAt l (first + c) ≤ keyAt l (first + ch) := by
          cases lt with
          | true =>
            obtain ⟨h1, h2⟩ := hlt1 rfl
            refine ⟨2 * root + 2, by simp, h1, Or.inr rfl, fun c hc hcc => ?_⟩
            rcases hcc with h | h <;> subst h <;> omega
          | false =>
            refine ⟨2 * root + 1, by simp, by omega, Or.inl rfl, fun c hc hcc => ?_⟩
            rcases hcc with h | h
            · subst h; omega
            · subst h
              exact hlt2 rfl hc
        rw [hchd]
        rw [Less_at l (first + root) (first + ch) hT (by omega) (by omega)]
        simp only [Option.some_bind]
        by_cases hk : keyAt l (first + root) < keyAt l (first + ch)
        · simp only [hk, decide_True, Bool.not_true, Bool.false_eq_true, if_false]
          have i1 : first + root < l.length := by omega
          have i2 : first + ch < l.length := by omega
          rw [Swap_at l (first + root) (first + ch) i1 i2]
          simp only [Option.some_bind]
          have hsh : Shuffle (first + lo) (first + hi) l (swapAt l (first + root) (first + ch)) :=
            Shuffle.swap (by omega) (by omega) (by omega) (by omega) hlen
          have hK : ∀ n, keyAt (swapAt l (first + root) (first + ch)) (first + n) =
              if n = ch then keyAt l (first + root) else if n = root then keyAt l (first + ch)
                else keyAt l (first + n) := by
            intro n
            rw [keyAt_swapAt i1 i2]
            by_cases e1 : n = ch
            · subst e1; simp
            · by_cases e2 : n = root
              · subst e2
                have : first + n ≠ first + ch := by omega
                simp [this, e1]
              · have e3 : first + n ≠ first + ch := by omega
                have e4 : first + n ≠ first + root := by omega
                simp [e1, e2, e3, e4]
          have hA' : AlmostHeap (keyAt (swapAt l (first + root) (first + ch))) first lo hi ch := by
            constructor
            · intro n c hn hne hc hcc
              rw [hK, hK]
              by_cases hnr : n = root
              · subst hnr
                have e0 : n ≠ ch := by omega
                rw [if_neg e0, if_pos rfl]
                by_cases hcch : c = ch
                · rw [if_pos hcch]; omega
                · have e1 : c ≠ n := by omega
                  rw [if_neg hcch, if_neg e1]
                  exact hch3 c hc hcc
              · rw [if_neg hne, if_neg hnr]
                have e1 : c ≠ ch := by omega
                rw [if_neg e1]
                by_cases hcr : c = root
                · rw [if_pos hcr]
                  exact hA.2 n ch hn (by omega) hch1 hch2
                · rw [if_neg hcr]
                  exact hA.1 n c hn hnr hc hcc
            · intro p c hp hpc hc hcc
              have hpr : p = root := by omega
              subst hpr
              rw [hK, hK]
              have e1 : c ≠ ch := by omega
              have e2 : c ≠ p := by omega
              have e3 : p ≠ ch := by omega
              rw [if_neg e1, if_neg e2, if_neg e3, if_pos rfl]
              exact hA.1 ch c (by omega) (by omega) hc hcc
          obtain ⟨l', g1, g2, g3⟩ := siftDown_loop_spec first lo hi fuel ch
            (swapAt l (first + root) (first + ch)) (hT.of_perm hsh.1)
            (by rw [length_swapAt]; exact hlen) (by omega) (by omega) hA'
          exact ⟨l', g1, hsh.trans g2, g3⟩
        · simp only [hk, decide_False, Bool.not_false, if_true]
          refine ⟨l, rfl, Shuffle.refl _ _ _, fun n c hn hc hcc => ?_⟩
          by_cases hr : n = root
          · subst hr
            have := hch3 c hc hcc
            omega
          · exact hA.1 n c hn hr hc hcc

      by_cases h2 : 2 * root + 1 + 1 < hi
      · simp only [h2, if_true]
        rw [Less_at l (first + (2 * root + 1)) (first + (2 * root + 1) + 1) hT (by omega)
          (by omega)]
        simp only [Option.some_bind]
        have e : first + (2 * root + 1) + 1 = first + (2 * root + 2) := by omega
        rw [e]
        refine tail _ (fun h => ?_) (fun h _ => ?_)
        · simp only [decide_eq_true_eq] at h
          exact ⟨by omega, h⟩
        · simp only [decide_eq_false_iff_not] at h
          omega
      · simp only [h2, if_false, Option.some_bind]
        exact tail false (fun h => by simp at h) (fun _ h => by omega)

theorem siftDown_spec {first lo hi : Nat} {l : List CertificateDetail} (hT : AllTs l)
    (hlen : first + hi ≤ l.length) (hA : AlmostHeap (keyAt l) first lo hi lo) :
    ∃ l', siftDown byCreationDateDescending.Interface l lo hi first = some l' ∧
      Shuffle (first + lo) (first + hi) l l' ∧ HeapFrom (keyAt l') first lo hi := by
  unfold siftDown
  exact siftDown_loop_spec first lo hi (hi - lo) lo l hT hlen (le_refl _) (by omega) hA

theorem heap_root_max {K : Nat → Int} {first n : Nat} (h : HeapFrom K first 0 n) :
    ∀ p, p < n → K (first + p) ≤ K (first + 0) := by
  intro p
  induction p using Nat.strong_induction_on with
  | _ p ih =>
    intro hp
    by_cases h0 : p = 0
    · subst h0; exact le_refl _
    · have h1 := h ((p - 1) / 2) p (Nat.zero_le _) hp (by omega)
      have h2 := ih ((p - 1) / 2) (by omega) (by omega)
      omega

theorem heapSort_build_spec (first hi : Nat) :
    ∀ (n : Nat) (l : List CertificateDetail), AllTs l → first + hi ≤ l.length →
      HeapFrom (keyAt l) first n hi →
      ∃ l', heapSort.build byCreationDateDescending.Interface hi first n l = some l' ∧
        Shuffle first (first + hi) l l' ∧ HeapFrom (keyAt l') first 0 hi
  | 0, l, _, _, hH => ⟨l, rfl, Shuffle.refl _ _ _, hH⟩
  | i + 1, l, hT, hlen, hH => by
    unfold heapSort.build
    have hA : AlmostHeap (keyAt l) first i hi i :=
      ⟨fun n c hn hne hc hcc => hH n c (by omega) hc hcc,
        fun p c hp hpc _ _ => by omega⟩
    obtain ⟨l₁, e1, s1, h1⟩ := siftDown_spec hT hlen hA
    simp only [e1, Option.bind_eq_bind, Option.some_bind]
    obtain ⟨l₂, e2, s2, h2⟩ := heapSort_build_spec first hi i l₁ (hT.of_perm s1.1)
      (by rw [s1.length_eq]; exact hlen) h1
    exact ⟨l₂, e2, (s1.mono (by omega) (le_refl _)).trans s2, h2⟩

theorem heapSort_pop_spec (first hi : Nat) :
    ∀ (n : Nat) (l : List CertificateDetail), AllTs l → first + hi ≤ l.length → n ≤ hi →
      HeapFrom (keyAt l) first 0 n → SortedRange (keyAt l) (first + n) (first + hi) →
      (∀ p q, p < n → n ≤ q → q < hi → keyAt l (first + p) ≤ keyAt l (first + q)) →
      ∃ l', heapSort.pop byCreationDateDescending.Interface 0 first n l = some l' ∧
        Shuffle first (first + hi) l l' ∧ SortedRange (keyAt l') first (first + hi)
  | 0, l, _, _, _, _, hS, _ => ⟨l, rfl, Shuffle.refl _ _ _, by simpa using hS⟩
  | i + 1, l, hT, hlen, hn, hH, hS, hC => by
    unfold heapSort.pop
    have i1 : first < l.length := by omega
    have i2 : first + i < l.length := by omega
    rw [Swap_at l first (first + i) i1 i2]
    simp only [Option.bind_eq_bind, Option.some_bind]
    have hsh : Shuffle first (first + hi) l (swapAt l first (first + i)) :=
      Shuffle.swap (le_refl _) (by omega) (by omega) (by omega) hlen
    have hmax := heap_root_max hH
    have hK : ∀ n, keyAt (swapAt l first (first + i)) (first + n) =
        if n = i then keyAt l first else if n = 0 then keyAt l (first + i)
          else keyAt l (first + n) := by
      intro n
      rw [keyAt_swapAt i1 i2]
      by_cases e1 : n = i
      · subst e1; simp
      · by_cases e2 : n = 0
        · subst e2
          have : first ≠ first + i := by omega
          simp [this, e1]
        · have e3 : first + n ≠ first + i := by omega
          have e4 : first + n ≠ first := by omega
          simp [e1, e2, e3, e4]
    have hK' : ∀ m, first ≤ m → keyAt (swapAt l first (first + i)) m =
        if m - first = i then keyAt l first else if m - first = 0 then keyAt l (first + i)
          else keyAt l m := by
      intro m hm
      have := hK (m - first)
      rw [show first + (m - first) = m by omega] at this
      exact this
    have hA : AlmostHeap (keyAt (swapAt l first (first + i))) first 0 i 0 := by
      constructor
      · intro n c _ hne hc hcc
        rw [hK, hK]
        have e1 : c ≠ i := by omega
        have e2 : c ≠ 0 := by omega
        have e3 : n ≠ i := by omega
        rw [if_neg e1, if_neg e2, if_neg e3, if_neg hne]
        exact hH n c (Nat.zero_le _) (by omega) hcc
      · intro p c _ hpc _ _
        omega
    obtain ⟨l₁, e1, s1, h1⟩ := siftDown_spec (hT.of_perm hsh.1)
      (show first + i ≤ (swapAt l first (first + i)).length by rw [length_swapAt]; omega) hA
    rw [e1]
    simp only [Option.some_bind]
    have hfr : ∀ m, first + i ≤ m → keyAt l₁ m = keyAt (swapAt l first (first + i)) m :=
      fun m hm => s1.2.1 m (by omega)
    have hz : keyAt l (first + 0) = keyAt l first := by simp
    obtain ⟨l₂, e2, s2, h2⟩ := heapSort_pop_spec first hi i l₁
      (hT.of_perm (hsh.trans (s1.mono (by omega) (by omega))).1)
      (by rw [s1.length_eq, length_swapAt]; exact hlen) (by omega) h1
      (by
        intro p q hp hpq hq
        rw [hfr p hp, hfr q (by omega), hK' p (by omega), hK' q (by omega)]
        have e1 : q - first ≠ i := by omega
        have e2 : q - first ≠ 0 := by omega
        rw [if_neg e1, if_neg e2]
        by_cases e3 : p - first = i
        · rw [if_pos e3]
          have := hC 0 (q - first) (by omega) (by omega) (by omega)
          rw [show first + (q - first) = q by omega] at this
          omega
        · have e4 : p - first ≠ 0 := by omega
          rw [if_neg e3, if_neg e4]
          exact hS p q (by omega) hpq hq)
      (by
        intro p q hp hpq hq
        obtain ⟨m, hm1, hm2, hm⟩ := s1.2.2 (first + p) (by omega) (by omega)
        rw [hm, hfr (first + q) (by omega), hK' m (by omega), hK (q)]
        have e0 : m - first ≠ i := by omega
        rw [if_neg e0]
        have hmq : keyAt l m ≤ keyAt l first := by
          have := hmax (m - first) (by omega)
          rw [show first + (m - first) = m by omega] at this
          omega
        by_cases e1 : q = i
        · rw [if_pos e1]
          by_cases e2 : m - first = 0
          · rw [if_pos e2]
            have := hmax i (by omega)
            omega
          · rw [if_neg e2]; exact hmq
        · have e3 : q ≠ 0 := by omega
          rw [if_neg e1, if_neg e3]
          by_cases e2 : m - first = 0
          · rw [if_pos e2]
            exact hC i q (by omega) (by omega) hq
          · rw [if_neg e2]
            have := hC (m - first) q (by omega) (by omega) hq
            rw [show first + (m - first) = m by omega] at this
            exact this)
    exact ⟨l₂, e2, (hsh.trans (s1.mono (by omega) (by omega))).trans s2, h2⟩

theorem heapSort_spec {a b : Nat} {l : List CertificateDetail} (hT : AllTs l) (hab : a ≤ b)
    (hb : b ≤ l.length) :
    ∃ l', heapSort byCreationDateDescending.Interface l a b = some l' ∧
      Shuffle a b l l' ∧ SortedRange (keyAt l') a b := by
  unfold heapSort
  simp only [Option.bind_eq_bind]
  have hb' : a + (b - a) = b := by omega
  obtain ⟨l₁, e1, s1, h1⟩ := heapSort_build_spec a (b - a) ((b - a - 1) / 2 + 1) l hT
    (by omega) (fun n c hn hc hcc => by omega)
  rw [e1]
  simp only [Option.some_bind]
  obtain ⟨l₂, e2, s2, h2⟩ := heapSort_pop_spec a (b - a) (b - a) l₁ (hT.of_perm s1.1)
    (by rw [s1.length_eq]; omega) (le_refl _) h1
    (fun p q hp hpq hq => by omega) (fun p q hp hpq hq => by omega)
  rw [hb'] at s1 s2 h2
  exact ⟨l₂, e2, s1.trans s2, h2⟩

theorem sorted_of_partitioned {K₁ K₃ : Nat → Int} {a mlo mhi b : Nat}
    (hP : Partitioned K₁ a mlo mhi b)
    (hL : ∀ n, a ≤ n → n < mlo → ∃ m, a ≤ m ∧ m < mlo ∧ K₃ n = K₁ m)
    (hM : ∀ n, mlo ≤ n → n < mhi → K₃ n = K₁ n)
    (hR : ∀ n, mhi ≤ n → n < b → ∃ m, mhi ≤ m ∧ m < b ∧ K₃ n = K₁ m)
    (hSL : SortedRange K₃ a mlo) (hSR : SortedRange K₃ mhi b) : SortedRange K₃ a b := by
  obtain ⟨h1, h2, h3, h4, h5, h6⟩ := hP
  have lo_le : ∀ n, a ≤ n → n < mlo → K₃ n ≤ K₁ mlo := by
    intro n hn1 hn2
    obtain ⟨m, hm1, hm2, hm⟩ := hL n hn1 hn2
    rw [hm]; exact h4 m hm1 hm2
  have mid_eq : ∀ n, mlo ≤ n → n < mhi → K₃ n = K₁ mlo := by
    intro n hn1 hn2
    rw [hM n hn1 hn2]; exact h5 n hn1 hn2
  have hi_ge : ∀ n, mhi ≤ n → n < b → K₁ mlo ≤ K₃ n := by
    intro n hn1 hn2
    obtain ⟨m, hm1, hm2, hm⟩ := hR n hn1 hn2
    rw [hm]; exact h6 m hm1 hm2
  intro p q hp hpq hq
  by_cases hq1 : q < mlo
  · exact hSL p q hp hpq hq1
  · by_cases hp1 : mhi ≤ p
    · exact hSR p q hp1 hpq hq
    · have hpv : K₃ p ≤ K₁ mlo := by
        by_cases hp2 : p < mlo
        · exact lo_le p hp hp2
        · exact le_of_eq (mid_eq p (by omega) (by omega))
      have hqv : K₁ mlo ≤ K₃ q := by
        by_cases hq2 : q < mhi
        · exact le_of_eq (mid_eq q (by omega) hq2).symm
        · exact hi_ge q (by omega) hq
      omega

theorem quickSort_spec :
    ∀ (maxDepth : Nat) (l : List CertificateDetail) (a b : Nat), AllTs l → b ≤ l.length →
      ∃ l', quickSort byCreationDateDescending.Interface maxDepth l a b = some l' ∧
        Shuffle a b l l' ∧ SortedRange (keyAt l') a b := by
  intro maxDepth
  induction maxDepth with
  | zero =>
    intro l a b hT hb
    unfold quickSort
    by_cases h12 : b - a > 12
    · simp only [h12, if_true]
      exact heapSort_spec hT (by omega) hb
    · simp only [h12, if_false]
      by_cases h1 : b - a > 1
      · simp only [h1, if_true, Option.bind_eq_bind]
        obtain ⟨l₁, e1, s1⟩ := shell_spec a b (b - (a + 6)) (a + 6) l hT (le_refl _) hb
        rw [e1]
        simp only [Option.some_bind]
        obtain ⟨l₂, e2, s2, h2⟩ := @insertionSort_spec a b l₁ (hT.of_perm s1.1)
          (by rw [s1.length_eq]; exact hb)
        exact ⟨l₂, e2, s1.trans s2, h2⟩
      · simp only [h1, if_false]
        exact ⟨l, rfl, Shuffle.refl a b l, fun p q hp hpq hq => by omega⟩
  | succ d ih =>
    intro l a b hT hb
    unfold quickSort
    by_cases h12 : b - a > 12
    · simp only [h12, if_true, Option.bind_eq_bind]
      obtain ⟨l₁, mlo, mhi, e1, s1, hP⟩ := @doPivot_spec a b l hT hb (by omega)
      rw [e1]
      simp only [Option.some_bind]
      have hT₁ := hT.of_perm s1.1
      have hb₁ : b ≤ l₁.length := by rw [s1.length_eq]; exact hb
      have hP' := hP
      obtain ⟨p1, p2, p3, _, _, _⟩ := hP'
      by_cases hlt : mlo - a < b - mhi
      · simp only [hlt, if_true]
        obtain ⟨l₂, e2, s2, h2⟩ := ih l₁ a mlo hT₁ (by omega)
        rw [e2]
        simp only [Option.some_bind]
        obtain ⟨l₃, e3, s3, h3⟩ := ih l₂ mhi b (hT₁.of_perm s2.1)
          (by rw [s2.length_eq]; exact hb₁)
        refine ⟨l₃, e3, s1.trans ((s2.mono (le_refl _) (by omega)).trans
          (s3.mono (by omega) (le_refl _))), ?_⟩
        refine sorted_of_partitioned hP ?_ ?_ ?_ ?_ h3
        · intro n hn1 hn2
          obtain ⟨m, hm1, hm2, hm⟩ := s2.2.2 n hn1 hn2
          exact ⟨m, hm1, hm2, by rw [s3.2.1 n (by omega), hm]⟩
        · intro n hn1 hn2
          rw [s3.2.1 n (by omega), s2.2.1 n (by omega)]
        · intro n hn1 hn2
          obtain ⟨m, hm1, hm2, hm⟩ := s3.2.2 n hn1 hn2
          exact ⟨m, hm1, hm2, by rw [hm, s2.2.1 m (by omega)]⟩
        · intro p q hp hpq hq
          rw [s3.2.1 p (by omega), s3.2.1 q (by omega)]
          exact h2 p q hp hpq hq
      · simp only [hlt, if_false]
        obtain ⟨l₂, e2, s2, h2⟩ := ih l₁ mhi b hT₁ hb₁
        rw [e2]
        simp only [Option.some_bind]
        obtain ⟨l₃, e3, s3, h3⟩ := ih l₂ a mlo (hT₁.of_perm s2.1)
          (by rw [s2.length_eq]; omega)
        refine ⟨l₃, e3, s1.trans ((s2.mono (by omega) (le_refl _)).trans
          (s3.mono (le_refl _) (by omega))), ?_⟩
        refine sorted_of_partitioned hP ?_ ?_ ?_ h3 ?_
        · intro n hn1 hn2
          obtain ⟨m, hm1, hm2, hm⟩ := s3.2.2 n hn1 hn2
          exact ⟨m, hm1, hm2, by rw [hm, s2.2.1 m (by omega)]⟩
        · intro n hn1 hn2
          rw [s3.2.1 n (by omega), s2.2.1 n (by omega)]
        · intro n hn1 hn2
          obtain ⟨m, hm1, hm2, hm⟩ := s2.2.2 n hn1 hn2
          exact ⟨m, hm1, hm2, by rw [s3.2.1 n (by omega), hm]⟩
        · intro p q hp hpq hq
          rw [s3.2.1 p (by omega), s3.2.1 q (by omega)]
          exact h2 p q hp hpq hq
    · simp only [h12, if_false]
      by_cases h1 : b - a > 1
      · simp only [h1, if_true, Option.bind_eq_bind]
        obtain ⟨l₁, e1, s1⟩ := shell_spec a b (b - (a + 6)) (a + 6) l hT (le_refl _) hb
        rw [e1]
        simp only [Option.some_bind]
        obtain ⟨l₂, e2, s2, h2⟩ := @insertionSort_spec a b l₁ (hT.of_perm s1.1)
          (by rw [s1.length_eq]; exact hb)
        exact ⟨l₂, e2, s1.trans s2, h2⟩
      · simp only [h1, if_false]
        exact ⟨l, rfl, Shuffle.refl a b l, fun p q hp hpq hq => by omega⟩

/-- The routine `sort.Sort` on a slice whose details all have a timestamp
returns, and its result is a rearrangement of the slice with the keys in
non-decreasing order. -/
theorem SortData_spec {l : List CertificateDetail} (hT : AllTs l) :
    ∃ l', SortData byCreationDateDescending.Interface l = some l' ∧ l'.Perm l ∧
      SortedRange (keyAt l') 0 l.length := by
  unfold SortData
  obtain ⟨l', e, s, h⟩ := quickSort_spec (maxDepth l.length) l 0 l.length hT (le_refl _)
  exact ⟨l', e, s.1, h⟩

theorem keyAt_getElem {l : List CertificateDetail} {i : Nat} (h : i < l.length) :
    keyAt l i = - Spec.ts l[i] := by
  simp [keyAt, List.getElem?_eq_getElem h, Spec.key]

/-- The head of the sorted slice is a detail of the slice whose instant is the
latest. -/
theorem SortData_head {l : List CertificateDetail} (hT : AllTs l) (hne : l ≠ []) :
    ∃ sorted first, SortData byCreationDateDescending.Interface l = some sorted ∧
      sorted[0]? = some first ∧ first ∈ l ∧ ∀ e ∈ l, Spec.ts e ≤ Spec.ts first := by
  obtain ⟨sorted, e, hp, hs⟩ := SortData_spec hT
  have hlen : sorted.length = l.length := hp.length_eq
  have hpos : 0 < sorted.length := by
    rw [hlen]; exact List.length_pos.mpr hne
  refine ⟨sorted, sorted[0], e, List.getElem?_eq_getElem hpos,
    hp.mem_iff.mp (List.getElem_mem hpos), fun c hc => ?_⟩
  obtain ⟨j, hj, hjc⟩ := List.getElem_of_mem (hp.mem_iff.mpr hc)
  subst hjc
  by_cases h0 : j = 0
  · subst h0; exact le_refl _
  · have := hs 0 j (le_refl _) (by omega) (by omega)
    rw [keyAt_getElem hpos, keyAt_getElem hj] at this
    omega

theorem swapAt_cons_succ (a : CertificateDetail) (l : List CertificateDetail) (i j : Nat) :
    swapAt (a :: l) (i + 1) (j + 1) = a :: swapAt l i j := by
  unfold swapAt
  simp only [List.getElem?_cons_succ]
  cases l[i]? <;> cases l[j]? <;> simp [List.set]

theorem swapAt_one_zero (x y : CertificateDetail) (l : List CertificateDetail) :
    swapAt (x :: y :: l) 1 0 = y :: x :: l := by
  simp [swapAt, List.set]

theorem keyAt_cons_succ (a : CertificateDetail) (l : List CertificateDetail) (n : Nat) :
    keyAt (a :: l) (n + 1) = keyAt l n := by
  simp [keyAt]

theorem Spec.stable_refl (l : List CertificateDetail) : Spec.Stable l l := fun _ => rfl

theorem Spec.stable_trans {l₁ l₂ l₃ : List CertificateDetail} (h₁ : Spec.Stable l₁ l₂)
    (h₂ : Spec.Stable l₂ l₃) : Spec.Stable l₁ l₃ := fun t => (h₂ t).trans (h₁ t)

theorem stable_swap_adjacent :
    ∀ (j : Nat) (l : List CertificateDetail), j + 1 < l.length →
      keyAt l (j + 1) ≠ keyAt l j → Spec.Stable l (swapAt l (j + 1) j)
  | 0, [], h, _ => by simp at h
  | 0, [_], h, _ => by simp at h
  | 0, x :: y :: l, _, hk => by
    rw [swapAt_one_zero]
    have hne : Spec.ts y ≠ Spec.ts x := by
      intro h
      apply hk
      simp [keyAt, Spec.key, h]
    intro t
    by_cases hx : Spec.ts x = t
    · have hy : Spec.ts y ≠ t := fun h => hne (h.trans hx.symm)
      simp [List.filter_cons, hx, hy]
    · simp [List.filter_cons, hx]
  | j + 1, [], h, _ => by simp at h
  | j + 1, a :: l, h, hk => by
    rw [swapAt_cons_succ]
    rw [keyAt_cons_succ, keyAt_cons_succ] at hk
    have ih := stable_swap_adjacent j l (by simpa using h) hk
    intro t
    simp only [List.filter_cons, ih t]

theorem insertionSort_inner_stable (a : Nat) :
    ∀ (j : Nat) (l : List CertificateDetail), AllTs l → j < l.length →
      ∃ l', insertionSort.inner byCreationDateDescending.Interface a j l = some l' ∧
        l'.Perm l ∧ Spec.Stable l l'
  | 0, l, _, _ => ⟨l, rfl, List.Perm.refl _, Spec.stable_refl _⟩
  | j + 1, l, hT, hj => by
    unfold insertionSort.inner
    by_cases hgt : j + 1 > a
    · simp only [hgt, if_true]
      rw [Less_at l (j + 1) j hT hj (by omega)]
      simp only [Option.bind_eq_bind, Option.some_bind, Option.pure_def]
      by_cases hlt : keyAt l (j + 1) < keyAt l j
      · simp only [hlt, decide_True, if_true]
        rw [Swap_at l (j + 1) j hj (by omega)]
        simp only [Option.some_bind]
        have hp : (swapAt l (j + 1) j).Perm l := perm_swapAt hj (by omega)
        obtain ⟨l', h1, h2, h3⟩ := insertionSort_inner_stable a j (swapAt l (j + 1) j)
          (hT.of_perm hp) (by rw [length_swapAt]; omega)
        exact ⟨l', h1, h2.trans hp,
          Spec.stable_trans (stable_swap_adjacent j l hj (by omega)) h3⟩
      · simp only [hlt, decide_False]
        exact ⟨l, rfl, List.Perm.refl _, Spec.stable_refl _⟩
    · simp only [hgt, if_false]
      exact ⟨l, rfl, List.Perm.refl _, Spec.stable_refl _⟩

theorem insertionSort_outer_stable (a b : Nat) :
    ∀ (fuel i : Nat) (l : List CertificateDetail), AllTs l → b ≤ l.length →
      ∃ l', insertionSort.outer byCreationDateDescending.Interface a b fuel i l = some l' ∧
        l'.Perm l ∧ Spec.Stable l l'
  | 0, i, l, _, _ => ⟨l, rfl, List.Perm.refl _, Spec.stable_refl _⟩
  | fuel + 1, i, l, hT, hb => by
    unfold insertionSort.outer
    by_cases hlt : i < b
    · simp only [hlt, if_true]
      obtain ⟨l₁, h1, h2, h3⟩ := insertionSort_inner_stable a i l hT (by omega)
      simp only [h1, Option.bind_eq_bind, Option.some_bind]
      obtain ⟨l₂, g1, g2, g3⟩ := insertionSort_outer_stable a b fuel (i + 1) l₁
        (hT.of_perm h2) (by rw [h2.length_eq]; exact hb)
      exact ⟨l₂, g1, g2.trans h2, Spec.stable_trans h3 g3⟩
    · simp only [hlt, if_false]
      exact ⟨l, rfl, List.Perm.refl _, Spec.stable_refl _⟩

/-- On a slice of at most six details `sort.Sort` is a plain insertion sort,
which is stable. -/
theorem SortData_stable_small {l : List CertificateDetail} (hT : AllTs l)
    (h6 : l.length ≤ 6) :
    ∃ sorted, SortData byCreationDateDescending.Interface l = some sorted ∧
      sorted.Perm l ∧ Spec.Stable l sorted := by
  have hq : ∀ maxDepth, quickSort byCreationDateDescending.Interface maxDepth l 0 l.length =
      insertionSort.outer byCreationDateDescending.Interface 0 l.length (l.length - 1) 1 l ∨
      quickSort byCreationDateDescending.Interface maxDepth l 0 l.length = some l := by
    intro maxDepth
    have h12 : ¬ l.length - 0 > 12 := by omega
    have hz : l.length - (0 + 6) = 0 := by omega
    by_cases h1 : l.length - 0 > 1
    · left
      cases maxDepth <;>
        (unfold quickSort
         simp only [h12, if_false, h1, if_true, hz, quickSort.shell, Option.bind_eq_bind,
           Option.some_bind, insertionSort])
    · right
      cases maxDepth <;>
        (unfold quickSort
         simp only [h12, if_false, h1, Option.pure_def])
  unfold SortData
  rcases hq (maxDepth (byCreationDateDescending.Interface.Len l)) with h | h
  · have h' : quickSort byCreationDateDescending.Interface
        (maxDepth (byCreationDateDescending.Interface.Len l)) l 0
        (byCreationDateDescending.Interface.Len l) = _ := h
    simp only []
    rw [h']
    exact insertionSort_outer_stable 0 l.length (l.length - 1) 1 l hT (le_refl _)
  · have h' : quickSort byCreationDateDescending.Interface
        (maxDepth (byCreationDateDescending.Interface.Len l)) l 0
        (byCreationDateDescending.Interface.Len l) = _ := h
    simp only []
    rw [h']
    exact ⟨l, rfl, List.Perm.refl _, Spec.stable_refl _⟩

theorem SortData_thirteen :
    (SortData byCreationDateDescending.Interface Example.thirteen).map
        (fun sorted => sorted.map (fun c => c.CertificateArn))
      = some ["arn:6", "arn:11", "arn:3", "arn:9", "arn:2", "arn:8", "arn:0", "arn:7", "arn:5",
          "arn:4", "arn:10", "arn:1", "arn:12"] := by
  rfl

/-- The bound of six is tight: on seven details the gap-6 pass moves the last
detail in front of an earlier one with the same timestamp. -/
theorem SortData_seven :
    (SortData byCreationDateDescending.Interface Example.seven).map
        (fun sorted => sorted.map (fun c => c.CertificateArn))
      = some ["arn:6", "arn:1", "arn:0", "arn:2", "arn:3", "arn:4", "arn:5"] := by
  rfl

theorem describeAll_mem (conn : ACM) :
    ∀ (arns : List String) (i : Nat) (details : List CertificateDetail),
      Spec.describeAll conn i arns = .ok details →
      ∀ c ∈ details, ∃ k arn, conn.describeCertificate k arn = .ok c
  | [], i, details, h, c, hc => by
    simp only [Spec.describeAll, Except.ok.injEq] at h
    subst h
    simp at hc
  | arn :: rest, i, details, h, c, hc => by
    simp only [Spec.describeAll] at h
    cases hd : conn.describeCertificate i arn with
    | error e => simp [hd] at h
    | ok c₀ =>
      simp only [hd] at h
      cases hr : Spec.describeAll conn (i + 1) rest with
      | error e => simp [hr] at h
      | ok ds =>
        simp only [hr, Except.ok.injEq] at h
        subst h
        rcases List.mem_cons.mp hc with h1 | h1
        · subst h1; exact ⟨i, arn, hd⟩
        · exact describeAll_mem conn rest (i + 1) ds hr c h1

theorem retained_mem (d : ResourceData) (conn : ACM) (ds : List CertificateDetail)
    (hr : Spec.retained d conn = .ok ds) :
    ∀ c ∈ ds, ∃ k arn, conn.describeCertificate k arn = .ok c := by
  unfold Spec.retained at hr
  cases ht : Spec.typesOf d with
  | none =>
    simp only [ht, Except.ok.injEq] at hr
    subst hr
    intro c hc
    simp at hc
  | some types =>
    simp only [ht] at hr
    cases ha : Spec.describeAll conn 0 (Spec.candidates d.domain (Spec.listing d conn).pages) with
    | error e => simp [ha] at hr
    | ok details =>
      simp only [ha, Except.ok.injEq] at hr
      subst hr
      intro c hc
      exact describeAll_mem conn _ 0 details ha c (List.mem_of_mem_filter hc)

theorem finish_not_panicked (d : ResourceData) (now : String) (calls : List Call)
    (ds : List CertificateDetail) (hT : AllTs ds) :
    (Spec.finish d now calls ds).ret ≠ .panicked := by
  unfold Spec.finish
  split
  · simp [NotFound]
  · split
    · simp [AmbiguousMatch]
    · rename_i h0 _
      have hne : ds ≠ [] := fun h => h0 (by simp [h])
      obtain ⟨sorted, first, e1, e2, _, _⟩ := SortData_head hT hne
      simp [e1, e2]

theorem timestamp_eq_recency (c : CertificateDetail) : timestamp c = Spec.recency c := by
  unfold timestamp Spec.recency
  cases c.CreatedAt <;> simp

theorem ts_eq_of_recency {c : CertificateDetail} {t : Time} (h : Spec.recency c = some t) :
    Spec.ts c = t.nanos := by
  unfold Spec.ts
  rw [timestamp_eq_recency, h]

theorem Less_eq_ts {b : List CertificateDetail} (hT : AllTs b) {i j : Nat}
    (hi : i < b.length) (hj : j < b.length) :
    byCreationDateDescending.Less b i j = some (decide (Spec.ts b[j] < Spec.ts b[i])) := by
  have h := Less_at b i j hT hi hj
  rw [keyAt_getElem hi, keyAt_getElem hj] at h
  have e : byCreationDateDescending.Interface.Less b i j = byCreationDateDescending.Less b i j :=
    rfl
  rw [← e, h]
  congr 1
  simp only [decide_eq_decide]
  omega

theorem describedArns_map (arns : List String) :
    Spec.describedArns (arns.map Call.DescribeCertificate) = arns := by
  induction arns with
  | nil => rfl
  | cons a rest ih =>
    simp only [Spec.describedArns, List.map_cons, List.filterMap_cons] at ih ⊢
    rw [ih]

theorem describeAll_length (conn : ACM) :
    ∀ (arns : List String) (i : Nat) (details : List CertificateDetail),
      Spec.describeAll conn i arns = .ok details → details.length = arns.length
  | [], i, details, h => by
    simp only [Spec.describeAll, Except.ok.injEq] at h
    subst h
    rfl
  | arn :: rest, i, details, h => by
    simp only [Spec.describeAll] at h
    cases hd : conn.describeCertificate i arn with
    | error e => simp [hd] at h
    | ok c₀ =>
      simp only [hd] at h
      cases hr : Spec.describeAll conn (i + 1) rest with
      | error e => simp [hr] at h
      | ok ds =>
        simp only [hr, Except.ok.injEq] at h
        subst h
        simp [describeAll_length conn rest (i + 1) ds hr]

theorem typesOf_of_nonempty {d : ResourceData} {types : List String}
    (htypes : d.types = some types) (hne : types ≠ []) : Spec.typesOf d = some types := by
  unfold Spec.typesOf
  cases types with
  | nil => exact absurd rfl hne
  | cons t rest => simp [htypes]

theorem typesOf_of_empty {d : ResourceData} (htypes : d.types = none ∨ d.types = some []) :
    Spec.typesOf d = none := by
  unfold Spec.typesOf
  rcases htypes with h | h <;> simp [h]

theorem sorted_pairwise {l : List CertificateDetail}
    (h : SortedRange (keyAt l) 0 l.length) :
    l.Pairwise (fun x y => Spec.ts y ≤ Spec.ts x) := by
  rw [List.pairwise_iff_getElem]
  intro i j hi hj hij
  have := h i j (Nat.zero_le _) hij hj
  rw [keyAt_getElem hi, keyAt_getElem hj] at this
  omega

/-- On a collection of at most one element `sort.Sort` returns the collection
without calling `Less` or `Swap`, whatever the interface. -/
theorem SortData_short {σ : Type} (I : Interface σ) (data : σ) (h : I.Len data ≤ 1) :
    SortData I data = some data := by
  unfold SortData
  have h12 : ¬ I.Len data - 0 > 12 := by omega
  have h1 : ¬ I.Len data - 0 > 1 := by omega
  cases maxDepth (I.Len data) <;>
    (unfold quickSort
     simp only [h12, if_false, h1, Option.pure_def])

/-! ## Whatever `sort.Sort` returns is a rearrangement -/

theorem permVia_pure {β : Type} {p : β → List CertificateDetail} {r : β}
    {l : List CertificateDetail} (h : (p r).Perm l) : PermVia p (some r) l := by
  unfold PermVia
  intro r' hr
  cases hr
  exact h

theorem permVia_ite {β : Type} {p : β → List CertificateDetail} {c : Prop} [Decidable c]
    {A B : Option β} {l : List CertificateDetail} (hA : PermVia p A l) (hB : PermVia p B l) :
    PermVia p (if c then A else B) l := by
  split
  · exact hA
  · exact hB

theorem permVia_bind_any {β γ : Type} {p : β → List CertificateDetail} {x : Option γ}
    {f : γ → Option β} {l : List CertificateDetail} (hf : ∀ c, PermVia p (f c) l) :
    PermVia p (x.bind f) l := by
  unfold PermVia at *
  intro r hr
  obtain ⟨c, _, hc⟩ := Option.bind_eq_some.mp hr
  exact hf c r hc

theorem permVia_bind_data {β γ : Type} {p : β → List CertificateDetail}
    {q : γ → List CertificateDetail} {x : Option γ} {f : γ → Option β}
    {a l : List CertificateDetail} (hx : PermVia q x a) (ha : a.Perm l)
    (hf : ∀ c, (q c).Perm l → PermVia p (f c) l) : PermVia p (x.bind f) l := by
  unfold PermVia at *
  intro r hr
  obtain ⟨c, hc1, hc2⟩ := Option.bind_eq_some.mp hr
  exact hf c ((hx c hc1).trans ha) r hc2

theorem permVia_weaken {β : Type} {p : β → List CertificateDetail} {x : Option β}
    {a l : List CertificateDetail} (hx : PermVia p x a) (ha : a.Perm l) : PermVia p x l := by
  unfold PermVia at *
  exact fun r hr => (hx r hr).trans ha

theorem Swap_permVia (l : List CertificateDetail) (i j : Nat) :
    PermVia id (byCreationDateDescending.Interface.Swap l i j) l := by
  unfold PermVia
  intro r hr
  by_cases hi : i < l.length
  · by_cases hj : j < l.length
    · rw [Swap_at l i j hi hj] at hr
      cases hr
      exact perm_swapAt hi hj
    · simp [byCreationDateDescending.Interface, byCreationDateDescending.Swap,
        List.getElem?_eq_none (Nat.le_of_not_lt hj)] at hr
  · simp [byCreationDateDescending.Interface, byCreationDateDescending.Swap,
      List.getElem?_eq_none (Nat.le_of_not_lt hi)] at hr

theorem permVia_bind_swap_if {β : Type} {p : β → List CertificateDetail} {c : Prop}
    [Decidable c] {f : List CertificateDetail → Option β} {a l : List CertificateDetail}
    {i j : Nat} (ha : a.Perm l) (hf : ∀ d, d.Perm l → PermVia p (f d) l) :
    PermVia p ((if c then byCreationDateDescending.Interface.Swap a i j else some a).bind f) l :=
  permVia_bind_data (permVia_ite (Swap_permVia a i j) (permVia_pure (List.Perm.refl a))) ha hf

theorem insertionSort_inner_perm (a : Nat) :
    ∀ (j : Nat) (l : List CertificateDetail),
      PermVia id (insertionSort.inner byCreationDateDescending.Interface a j l) l
  | 0, l => permVia_pure (List.Perm.refl l)
  | j + 1, l => by
    unfold insertionSort.inner
    simp only [Option.bind_eq_bind, Option.pure_def]
    have hl : l.Perm l := List.Perm.refl l
    repeat' first
      | assumption
      | exact permVia_weaken (insertionSort_inner_perm a j _) ‹_›
      | exact permVia_weaken (Swap_permVia _ _ _) ‹_›
      | exact permVia_pure ‹_›
      | apply permVia_ite
      | (apply permVia_bind_data (Swap_permVia _ _ _) ‹_›; intro _ _)
      | (apply permVia_bind_swap_if ‹_›; intro _ _)
      | ((with_reducible apply permVia_bind_any); intro _)

theorem insertionSort_outer_perm (a b : Nat) :
    ∀ (fuel i : Nat) (l : List CertificateDetail),
      PermVia id (insertionSort.outer byCreationDateDescending.Interface a b fuel i l) l
  | 0, _, l => permVia_pure (List.Perm.refl l)
  | fuel + 1, i, l => by
    unfold insertionSort.outer
    simp only [Option.bind_eq_bind, Option.pure_def]
    have hl : l.Perm l := List.Perm.refl l
    repeat' first
      | assumption
      | exact permVia_weaken (insertionSort_outer_perm a b fuel _ _) ‹_›
      | (apply permVia_bind_data (insertionSort_inner_perm _ _ _) ‹_›; intro _ _)
      | exact permVia_weaken (Swap_permVia _ _ _) ‹_›
      | exact permVia_pure ‹_›
      | apply permVia_ite
      | (apply permVia_bind_data (Swap_permVia _ _ _) ‹_›; intro _ _)
      | (apply permVia_bind_swap_if ‹_›; intro _ _)
      | ((with_reducible apply permVia_bind_any); intro _)

theorem insertionSort_perm (l : List CertificateDetail) (a b : Nat) :
    PermVia id (insertionSort byCreationDateDescending.Interface l a b) l := by
  unfold insertionSort
  exact insertionSort_outer_perm a b _ _ l

theorem siftDown_loop_perm (hi first : Nat) :
    ∀ (fuel root : Nat) (l : List CertificateDetail),
      PermVia id (siftDown.loop byCreationDateDescending.Interface hi first fuel root l) l
  | 0, _, l => permVia_pure (List.Perm.refl l)
  | fuel + 1, root, l => by
    unfold siftDown.loop
    simp only [Option.bind_eq_bind, Option.pure_def, Option.some_bind]
    have hl : l.Perm l := List.Perm.refl l
    repeat' first
      | assumption
      | exact permVia_weaken (siftDown_loop_perm hi first fuel _ _) ‹_›
      | exact permVia_weaken (Swap_permVia _ _ _) ‹_›
      | exact permVia_pure ‹_›
      | apply permVia_ite
      | (apply permVia_bind_data (Swap_permVia _ _ _) ‹_›; intro _ _)
      | (apply permVia_bind_swap_if ‹_›; intro _ _)
      | ((with_reducible apply permVia_bind_any); intro _)

theorem siftDown_perm (l : List CertificateDetail) (lo hi first : Nat) :
    PermVia id (siftDown byCreationDateDescending.Interface l lo hi first) l := by
  unfold siftDown
  exact siftDown_loop_perm hi first _ _ l

theorem heapSort_build_perm (hi first : Nat) :
    ∀ (n : Nat) (l : List CertificateDetail),
      PermVia id (heapSort.build byCreationDateDescending.Interface hi first n l) l
  | 0, l => permVia_pure (List.Perm.refl l)
  | i + 1, l => by
    unfold heapSort.build
    simp only [Option.bind_eq_bind, Option.pure_def]
    have hl : l.Perm l := List.Perm.refl l
    repeat' first
      | assumption
      | exact permVia_weaken (heapSort_build_perm hi first i _) ‹_›
      | (apply permVia_bind_data (siftDown_perm _ _ _ _) ‹_›; intro _ _)
      | exact permVia_weaken (Swap_permVia _ _ _) ‹_›
      | exact permVia_pure ‹_›
      | apply permVia_ite
      | (apply permVia_bind_data (Swap_permVia _ _ _) ‹_›; intro _ _)
      | (apply permVia_bind_swap_if ‹_›; intro _ _)
      | ((with_reducible apply permVia_bind_any); intro _)

theorem heapSort_pop_perm (lo first : Nat) :
    ∀ (n : Nat) (l : List CertificateDetail),
      PermVia id (heapSort.pop byCreationDateDescending.Interface lo first n l) l
  | 0, l => permVia_pure (List.Perm.refl l)
  | i + 1, l => by
    unfold heapSort.pop
    simp only [Option.bind_eq_bind, Option.pure_def]
    have hl : l.Perm l := List.Perm.refl l
    repeat' first
      | assumption
      | exact permVia_weaken (heapSort_pop_perm lo first i _) ‹_›
      | (apply permVia_bind_data (siftDown_perm _ _ _ _) ‹_›; intro _ _)
      | exact permVia_weaken (Swap_permVia _ _ _) ‹_›
      | exact permVia_pure ‹_›
      | apply permVia_ite
      | (apply permVia_bind_data (Swap_permVia _ _ _) ‹_›; intro _ _)
      | (apply permVia_bind_swap_if ‹_›; intro _ _)
      | ((with_reducible apply permVia_bind_any); intro _)

theorem heapSort_perm (l : List CertificateDetail) (a b : Nat) :
    PermVia id (heapSort byCreationDateDescending.Interface l a b) l := by
  unfold heapSort
  simp only [Option.bind_eq_bind, Option.pure_def]
  have hl : l.Perm l := List.Perm.refl l
  repeat' first
    | assumption
    | exact permVia_weaken (heapSort_pop_perm _ _ _ _) ‹_›
    | (apply permVia_bind_data (heapSort_build_perm _ _ _ _) ‹_›; intro _ _)
    | exact permVia_weaken (Swap_permVia _ _ _) ‹_›
    | exact permVia_pure ‹_›
    | apply permVia_ite
    | (apply permVia_bind_data (Swap_permVia _ _ _) ‹_›; intro _ _)
    | (apply permVia_bind_swap_if ‹_›; intro _ _)
    | ((with_reducible apply permVia_bind_any); intro _)

theorem medianOfThree_perm (l : List CertificateDetail) (m1 m0 m2 : Nat) :
    PermVia id (medianOfThree byCreationDateDescending.Interface l m1 m0 m2) l := by
  unfold medianOfThree
  simp only [Option.bind_eq_bind, Option.pure_def, Option.some_bind]
  have hl : l.Perm l := List.Perm.refl l
  repeat' first
    | assumption
    | exact permVia_weaken (Swap_permVia _ _ _) ‹_›
    | exact permVia_pure ‹_›
    | apply permVia_ite
    | (apply permVia_bind_data (Swap_permVia _ _ _) ‹_›; intro _ _)
    | (apply permVia_bind_swap_if ‹_›; intro _ _)
    | ((with_reducible apply permVia_bind_any); intro _)

theorem split_perm (pivot : Nat) :
    ∀ (fuel : Nat) (l : List CertificateDetail) (b c : Nat),
      PermVia Prod.fst (doPivot.split byCreationDateDescending.Interface pivot fuel l b c) l
  | 0, l, _, _ => permVia_pure (List.Perm.refl l)
  | fuel + 1, l, b, c => by
    unfold doPivot.split
    simp only [Option.bind_eq_bind, Option.pure_def]
    have hl : l.Perm l := List.Perm.refl l
    repeat' first
      | assumption
      | exact permVia_weaken (split_perm pivot fuel _ _ _) ‹_›
      | exact permVia_weaken (Swap_permVia _ _ _) ‹_›
      | exact permVia_pure ‹_›
      | apply permVia_ite
      | (apply permVia_bind_data (Swap_permVia _ _ _) ‹_›; intro _ _)
      | (apply permVia_bind_swap_if ‹_›; intro _ _)
      | ((with_reducible apply permVia_bind_any); intro _)

theorem gather_perm (pivot : Nat) :
    ∀ (fuel : Nat) (l : List CertificateDetail) (a b : Nat),
      PermVia Prod.fst (doPivot.gather byCreationDateDescending.Interface pivot fuel l a b) l
  | 0, l, _, _ => permVia_pure (List.Perm.refl l)
  | fuel + 1, l, a, b => by
    unfold doPivot.gather
    simp only [Option.bind_eq_bind, Option.pure_def]
    have hl : l.Perm l := List.Perm.refl l
    repeat' first
      | assumption
      | exact permVia_weaken (gather_perm pivot fuel _ _ _) ‹_›
      | exact permVia_weaken (Swap_permVia _ _ _) ‹_›
      | exact permVia_pure ‹_›
      | apply permVia_ite
      | (apply permVia_bind_data (Swap_permVia _ _ _) ‹_›; intro _ _)
      | (apply permVia_bind_swap_if ‹_›; intro _ _)
      | ((with_reducible apply permVia_bind_any); intro _)

theorem ninther_perm (l : List CertificateDetail) (lo hi : Nat) :
    PermVia id (doPivot.ninther byCreationDateDescending.Interface l lo hi) l := by
  unfold doPivot.ninther
  simp only [Option.bind_eq_bind, Option.pure_def]
  have hl : l.Perm l := List.Perm.refl l
  repeat' first
    | assumption
    | exact permVia_weaken (medianOfThree_perm _ _ _ _) ‹_›
    | (apply permVia_bind_data (medianOfThree_perm _ _ _ _) ‹_›; intro _ _)
    | exact permVia_weaken (Swap_permVia _ _ _) ‹_›
    | exact permVia_pure ‹_›
    | apply permVia_ite
    | (apply permVia_bind_data (Swap_permVia _ _ _) ‹_›; intro _ _)
    | (apply permVia_bind_swap_if ‹_›; intro _ _)
    | ((with_reducible apply permVia_bind_any); intro _)

theorem dups_perm (l : List CertificateDetail) (pivot m hi b c : Nat) :
    PermVia Prod.fst (doPivot.dups byCreationDateDescending.Interface l pivot m hi b c) l := by
  unfold doPivot.dups
  simp only [Option.bind_eq_bind, Option.pure_def, Option.some_bind]
  have hl : l.Perm l := List.Perm.refl l
  repeat' first
    | assumption
    | exact permVia_weaken (Swap_permVia _ _ _) ‹_›
    | exact permVia_pure ‹_›
    | apply permVia_ite
    | (apply permVia_bind_data (Swap_permVia _ _ _) ‹_›; intro _ _)
    | (apply permVia_bind_swap_if ‹_›; intro _ _)
    | ((with_reducible apply permVia_bind_any); intro _)

theorem doPivot_perm (l : List CertificateDetail) (lo hi : Nat) :
    PermVia Prod.fst (doPivot byCreationDateDescending.Interface l lo hi) l := by
  unfold doPivot
  simp only [Option.bind_eq_bind, Option.pure_def, Option.some_bind]
  have hl : l.Perm l := List.Perm.refl l
  repeat' first
    | assumption
    | (apply permVia_bind_data (ninther_perm _ _ _) ‹_›; intro _ _)
    | (apply permVia_bind_data (medianOfThree_perm _ _ _ _) ‹_›; intro _ _)
    | (apply permVia_bind_data (split_perm _ _ _ _ _) ‹_›; intro _ _)
    | (apply permVia_bind_data (dups_perm _ _ _ _ _ _) ‹_›; intro _ _)
    | (apply permVia_bind_data (gather_perm _ _ _ _ _) ‹_›; intro _ _)
    | exact permVia_weaken (Swap_permVia _ _ _) ‹_›
    | exact permVia_pure ‹_›
    | apply permVia_ite
    | (apply permVia_bind_data (Swap_permVia _ _ _) ‹_›; intro _ _)
    | (apply permVia_bind_swap_if ‹_›; intro _ _)
    | ((with_reducible apply permVia_bind_any); intro _)

theorem shell_perm (b : Nat) :
    ∀ (fuel i : Nat) (l : List CertificateDetail),
      PermVia id (quickSort.shell byCreationDateDescending.Interface b fuel i l) l
  | 0, _, l => permVia_pure (List.Perm.refl l)
  | fuel + 1, i, l => by
    unfold quickSort.shell
    simp only [Option.bind_eq_bind, Option.pure_def]
    have hl : l.Perm l := List.Perm.refl l
    repeat' first
      | assumption
      | exact permVia_weaken (shell_perm b fuel _ _) ‹_›
      | exact permVia_weaken (Swap_permVia _ _ _) ‹_›
      | exact permVia_pure ‹_›
      | apply permVia_ite
      | (apply permVia_bind_data (Swap_permVia _ _ _) ‹_›; intro _ _)
      | (apply permVia_bind_swap_if ‹_›; intro _ _)
      | ((with_reducible apply permVia_bind_any); intro _)

theorem quickSort_perm :
    ∀ (maxDepth : Nat) (l : List CertificateDetail) (a b : Nat),
      PermVia id (quickSort byCreationDateDescending.Interface maxDepth l a b) l
  | 0, l, a, b => by
    unfold quickSort
    simp only [Option.bind_eq_bind, Option.pure_def]
    have hl : l.Perm l := List.Perm.refl l
    repeat' first
      | assumption
      | exact permVia_weaken (heapSort_perm _ _ _) ‹_›
      | exact permVia_weaken (insertionSort_perm _ _ _) ‹_›
      | (apply permVia_bind_data (shell_perm _ _ _ _) ‹_›; intro _ _)
      | exact permVia_weaken (Swap_permVia _ _ _) ‹_›
      | exact permVia_pure ‹_›
      | apply permVia_ite
      | (apply permVia_bind_data (Swap_permVia _ _ _) ‹_›; intro _ _)
      | (apply permVia_bind_swap_if ‹_›; intro _ _)
      | ((with_reducible apply permVia_bind_any); intro _)
  | maxDepth + 1, l, a, b => by
    unfold quickSort
    simp only [Option.bind_eq_bind, Option.pure_def]
    have hl : l.Perm l := List.Perm.refl l
    repeat' first
      | assumption
      | exact permVia_weaken (quickSort_perm maxDepth _ _ _) ‹_›
      | exact permVia_weaken (insertionSort_perm _ _ _) ‹_›
      | (apply permVia_bind_data (shell_perm _ _ _ _) ‹_›; intro _ _)
      | (apply permVia_bind_data (doPivot_perm _ _ _) ‹_›; intro _ _)
      | (apply permVia_bind_data (quickSort_perm maxDepth _ _ _) ‹_›; intro _ _)
      | exact permVia_weaken (Swap_permVia _ _ _) ‹_›
      | exact permVia_pure ‹_›
      | apply permVia_ite
      | (apply permVia_bind_data (Swap_permVia _ _ _) ‹_›; intro _ _)
      | (apply permVia_bind_swap_if ‹_›; intro _ _)
      | ((with_reducible apply permVia_bind_any); intro _)

/-- Whenever `sort.Sort` returns, with or without timestamps on the details, its
result is a rearrangement of the slice. -/
theorem SortData_perm {l sorted : List CertificateDetail}
    (h : SortData byCreationDateDescending.Interface l = some sorted) : sorted.Perm l := by
  have := quickSort_perm (maxDepth l.length) l 0 l.length
  unfold PermVia at this
  exact this sorted h

/-- Every described detail is the answer to the describe call of some position
of the identifier list. -/
theorem describeAll_index (conn : ACM) :
    ∀ (arns : List String) (i : Nat) (details : List CertificateDetail),
      Spec.describeAll conn i arns = .ok details →
      ∀ c ∈ details, ∃ k arn, arns[k]? = some arn ∧
        conn.describeCertificate (i + k) arn = .ok c
  | [], i, details, h, c, hc => by
    simp only [Spec.describeAll, Except.ok.injEq] at h
    subst h
    simp at hc
  | arn :: rest, i, details, h, c, hc => by
    simp only [Spec.describeAll] at h
    cases hd : conn.describeCertificate i arn with
    | error e => simp [hd] at h
    | ok c₀ =>
      simp only [hd] at h
      cases hr : Spec.describeAll conn (i + 1) rest with
      | error e => simp [hr] at h
      | ok ds =>
        simp only [hr, Except.ok.injEq] at h
        subst h
        rcases List.mem_cons.mp hc with h1 | h1
        · subst h1; exact ⟨0, arn, by simp, by simpa using hd⟩
        · obtain ⟨k, a, hk, hd'⟩ := describeAll_index conn rest (i + 1) ds hr c h1
          refine ⟨k + 1, a, by simpa using hk, ?_⟩
          have : i + (k + 1) = i + 1 + k := by omega
          rw [this]
          exact hd'

/-- A successful finish sets the arn of one of the retained details. -/
theorem finish_nil_mem (d : ResourceData) (now : String) (calls : List Call)
    (ds : List CertificateDetail) (h : (Spec.finish d now calls ds).ret = .nil) :
    ∃ c ∈ ds, (Spec.finish d now calls ds).d.arn = some c.CertificateArn := by
  unfold Spec.finish at h ⊢
  split
  · rename_i h0; simp [h0, NotFound] at h
  · split
    · rename_i h0 h1; simp [h0, h1, AmbiguousMatch] at h
    · rename_i h0 h1
      simp only [h0, h1, if_false] at h
      cases hs : SortData byCreationDateDescending.Interface ds with
      | none => simp [hs] at h
      | some sorted =>
        cases hf : sorted[0]? with
        | none => simp [hs, hf] at h
        | some first =>
          have hmem : first ∈ sorted := List.mem_iff_getElem?.mpr ⟨0, hf⟩
          exact ⟨first, (SortData_perm hs).mem_iff.mp hmem, by simp [hs, hf, ResourceData.SetArn]⟩

/-- A successful read got its listing and every description it asked for. -/
theorem read_nil_retained (d : ResourceData) (conn : ACM) (now : String)
    (h : (dataSourceAwsAcmCertificateRead d conn now).ret = .nil) :
    (Spec.listing d conn).err = none ∧ ∃ ds, Spec.retained d conn = .ok ds := by
  cases hl : (Spec.listing d conn).err with
  | some err =>
    rw [read_listing_error d conn now err hl] at h
    simp [Wrapped] at h
  | none =>
    refine ⟨rfl, ?_⟩
    cases hr : Spec.retained d conn with
    | error err =>
      rw [(read_retained_error d conn now err hl hr).2] at h
      simp [Wrapped] at h
    | ok ds => exact ⟨ds, rfl⟩

/-- The finish panics only in the sort: with two or more retained details,
`most_recent` true and a retained detail without timestamp; the id has then
been set and nothing else. -/
theorem finish_panicked (d : ResourceData) (now : String) (calls : List Call)
    (ds : List CertificateDetail) (h : (Spec.finish d now calls ds).ret = .panicked) :
    (Spec.finish d now calls ds).d = d.SetId now ∧ 2 ≤ ds.length ∧ d.most_recent = true ∧
      ∃ c ∈ ds, ¬ Spec.hasTimestamp c := by
  have hT : ¬ AllTs ds := fun hT => finish_not_panicked d now calls ds hT h
  have hc : ∃ c ∈ ds, ¬ Spec.hasTimestamp c := by
    unfold AllTs at hT
    push_neg at hT
    exact hT
  unfold Spec.finish at h ⊢
  split
  · rename_i h0; simp [h0, NotFound] at h
  · split
    · rename_i h0 h1; simp [h0, h1, AmbiguousMatch] at h
    · rename_i h0 h1
      simp only [h0, h1, if_false] at h
      have hlen : 2 ≤ ds.length := by
        by_contra hlt
        have hone : ds.length = 1 := by omega
        obtain ⟨c, hc⟩ := List.length_eq_one.mp hone
        subst hc
        simp [SortData_singleton] at h
      have hmr : d.most_recent = true := by
        by_contra hf
        exact h1 ⟨by omega, by simpa using hf⟩
      refine ⟨?_, hlen, hmr, hc⟩
      cases hs : SortData byCreationDateDescending.Interface ds with
      | none => rfl
      | some sorted =>
        cases hf : sorted[0]? with
        | none => simp [hf]
        | some first => simp [hs, hf] at h

/-- A detail with one of its timestamps has a recency timestamp in the words of
the specification. -/
theorem recency_isSome {c : CertificateDetail} (h : Spec.hasTimestamp c) :
    ∃ t, Spec.recency c = some t ∧ Spec.ts c = t.nanos := by
  obtain ⟨t, ht⟩ := timestamp_isSome h
  rw [timestamp_eq_recency] at ht
  exact ⟨t, ht, ts_eq_of_recency ht⟩

/-! ## Properties of the read function -/

/-- C1: when `types` is absent or empty and the listing succeeds, the read
function fails with `NotFound` and leaves the resource data, hence `arn`,
untouched, whatever the pages hold. -/
theorem C1_no_types_not_found (d : ResourceData) (conn : ACM) (now : String)
    (htypes : d.types = none ∨ d.types = some [])
    (hlist : (conn.listCertificates (Spec.statusFilter d)).err = none) :
    (dataSourceAwsAcmCertificateRead d conn now).ret = NotFound d.domain ∧
      (dataSourceAwsAcmCertificateRead d conn now).d = d ∧
      (dataSourceAwsAcmCertificateRead d conn now).d.arn = d.arn := by
  have hr : Spec.retained d conn = .ok [] := by
    unfold Spec.retained Spec.typesOf
    rcases htypes with h | h <;> simp [h]
  rw [read_retained_ok d conn now [] hlist hr]
  simp [Spec.finish]

theorem C1_no_types_not_found_witness :
    (dataSourceAwsAcmCertificateRead (Example.query none true) Example.conn "now").ret
        = NotFound "example.com" ∧
      (dataSourceAwsAcmCertificateRead (Example.query (some []) true) Example.conn "now").d
        = Example.query (some []) true :=
  ⟨(C1_no_types_not_found (Example.query none true) Example.conn "now" (Or.inl rfl) rfl).1,
    (C1_no_types_not_found (Example.query (some []) true) Example.conn "now" (Or.inr rfl) rfl).2.1⟩

/-- C2: with `most_recent` true, when the listing and every describe call
succeed, two or more details are retained and each of them has a timestamp, the
read function returns nil and the `arn` it sets is that of a retained detail
whose recency timestamp no retained detail exceeds. -/
theorem C2_most_recent (d : ResourceData) (conn : ACM) (now : String)
    (ds : List CertificateDetail) (hm : d.most_recent = true)
    (hlist : (Spec.listing d conn).err = none) (hr : Spec.retained d conn = .ok ds)
    (h2 : 2 ≤ ds.length) (hts : ∀ c ∈ ds, Spec.hasTimestamp c) :
    ∃ c, c ∈ ds ∧ (dataSourceAwsAcmCertificateRead d conn now).ret = .nil ∧
      (dataSourceAwsAcmCertificateRead d conn now).d.arn = some c.CertificateArn ∧
      ∀ e ∈ ds, Spec.ts e ≤ Spec.ts c := by
  have hne : ds ≠ [] := by
    intro h; subst h; simp at h2
  obtain ⟨sorted, first, e1, e2, hmem, hmax⟩ := SortData_head hts hne
  refine ⟨first, hmem, ?_, ?_, hmax⟩
  · rw [read_retained_ok d conn now ds hlist hr]
    have h0 : ds.length ≠ 0 := by omega
    simp [Spec.finish, h0, hm, e1, e2]
  · rw [read_retained_ok d conn now ds hlist hr]
    have h0 : ds.length ≠ 0 := by omega
    simp [Spec.finish, h0, hm, e1, e2, ResourceData.SetArn]

theorem C2_most_recent_witness :
    (∃ c, c ∈ [Example.issued, Example.imported] ∧
      (dataSourceAwsAcmCertificateRead (Example.query (some ["AMAZON_ISSUED", "IMPORTED"]) true)
        Example.conn "now").ret = .nil ∧
      (dataSourceAwsAcmCertificateRead (Example.query (some ["AMAZON_ISSUED", "IMPORTED"]) true)
        Example.conn "now").d.arn = some c.CertificateArn ∧
      ∀ e ∈ [Example.issued, Example.imported], Spec.ts e ≤ Spec.ts c) ∧
    (dataSourceAwsAcmCertificateRead (Example.query (some ["AMAZON_ISSUED", "IMPORTED"]) true)
      Example.conn "now").d.arn = some "arn:imported" :=
  ⟨C2_most_recent (Example.query (some ["AMAZON_ISSUED", "IMPORTED"]) true) Example.conn "now"
    [Example.issued, Example.imported] rfl rfl rfl (by decide) (by decide), rfl⟩

/-- C3, as stated, fails: on the thirteen certificates of the example the
sort is not stable. The details `arn:3` and `arn:6` have the same, latest,
timestamp and `arn:3` comes first in lister order, yet the sort puts `arn:6`
first and the read function returns it. -/
theorem C3_sort_not_stable :
    ¬ (∀ sorted, SortData byCreationDateDescending.Interface Example.thirteen = some sorted →
        Spec.Stable Example.thirteen sorted) ∧
    ((Example.thirteen.filter (fun c => decide (∀ e ∈ Example.thirteen, Spec.ts e ≤ Spec.ts c))).map
        (fun c => c.CertificateArn)).head? = some "arn:3" ∧
    (dataSourceAwsAcmCertificateRead (Example.query (some ["AMAZON_ISSUED"]) true)
      Example.thirteenConn "now").d.arn = some "arn:6" := by
  refine ⟨fun h => ?_, by decide, by rfl⟩
  have e : SortData byCreationDateDescending.Interface Example.thirteen =
      some ([6, 11, 3, 9, 2, 8, 0, 7, 5, 4, 10, 1, 12].filterMap (fun i => Example.thirteen[i]?)) :=
    rfl
  have := congrArg (List.map (fun c => c.CertificateArn)) (h _ e 1685577600000000000)
  exact absurd this (by decide)

/-- C3, for at most six details: when at most six details are retained, each
with a timestamp, the sort returns and is stable: for every instant, the
details with that recency timestamp keep their relative order. The detail it puts first has the
latest timestamp and is the earliest, in the original order, of the details
with that timestamp. -/
theorem C3_stable_up_to_six (l : List CertificateDetail)
    (hts : ∀ c ∈ l, Spec.hasTimestamp c) (h6 : l.length ≤ 6) :
    ∃ sorted, SortData byCreationDateDescending.Interface l = some sorted ∧
      Spec.Stable l sorted ∧
      ∀ first, sorted[0]? = some first →
        (∀ e ∈ l, Spec.ts e ≤ Spec.ts first) ∧
        (l.filter (fun c => decide (Spec.ts c = Spec.ts first))).head? = some first := by
  obtain ⟨sorted, e, hp, hst⟩ := SortData_stable_small hts h6
  refine ⟨sorted, e, hst, fun first hf => ?_⟩
  have hne : l ≠ [] := by
    intro h
    subst h
    have := hp.length_eq
    cases sorted with
    | nil => simp at hf
    | cons a s => simp at this
  obtain ⟨sorted', first', e', hf', _, hmax⟩ := SortData_head hts hne
  rw [e] at e'
  have hs : sorted = sorted' := Option.some.inj e'
  subst hs
  rw [hf] at hf'
  have hfe : first = first' := Option.some.inj hf'
  subst hfe
  refine ⟨hmax, ?_⟩
  rw [← hst (Spec.ts first)]
  cases sorted with
  | nil => simp at hf
  | cons a s =>
    simp only [List.getElem?_cons_zero, Option.some.injEq] at hf
    subst hf
    simp [List.filter_cons]

theorem C3_stable_up_to_six_witness :
    ∃ sorted, SortData byCreationDateDescending.Interface (Example.thirteen.take 6)
        = some sorted ∧
      Spec.Stable (Example.thirteen.take 6) sorted ∧
      ∀ first, sorted[0]? = some first →
        (∀ e ∈ Example.thirteen.take 6, Spec.ts e ≤ Spec.ts first) ∧
        ((Example.thirteen.take 6).filter
          (fun c => decide (Spec.ts c = Spec.ts first))).head? = some first :=
  C3_stable_up_to_six (Example.thirteen.take 6) (by decide) (by decide)

/-- C4: when `types` is non-empty, the listing and every describe call succeed
and exactly one described candidate has a type listed in `types`, the read
function returns nil and sets `arn` to that detail's identifier, for either
value of `most_recent`. -/
theorem C4_single_match (d : ResourceData) (conn : ACM) (now : String)
    (types : List String) (details : List CertificateDetail) (c : CertificateDetail)
    (htypes : d.types = some types) (hne : types ≠ [])
    (hlist : (conn.listCertificates (Spec.statusFilter d)).err = none)
    (hdesc : Spec.describeAll conn 0
      (Spec.candidates d.domain (conn.listCertificates (Spec.statusFilter d)).pages) = .ok details)
    (hone : details.filter (fun x => decide (x.Type_ ∈ types)) = [c]) :
    (dataSourceAwsAcmCertificateRead d conn now).ret = .nil ∧
      (dataSourceAwsAcmCertificateRead d conn now).d.arn = some c.CertificateArn := by
  have ht : Spec.typesOf d = some types := by
    unfold Spec.typesOf
    cases types with
    | nil => exact absurd rfl hne
    | cons t rest => simp [htypes]
  have hr : Spec.retained d conn = .ok [c] := by
    unfold Spec.retained Spec.listing
    simp [ht, hdesc, hone]
  rw [read_retained_ok d conn now [c] hlist hr]
  simp [Spec.finish, SortData_singleton, ResourceData.SetArn]

theorem C4_single_match_witness :
    (dataSourceAwsAcmCertificateRead (Example.query (some ["AMAZON_ISSUED"]) false)
        Example.conn "now").ret = .nil ∧
      (dataSourceAwsAcmCertificateRead (Example.query (some ["AMAZON_ISSUED"]) false)
        Example.conn "now").d.arn = some "arn:issued" :=
  C4_single_match (Example.query (some ["AMAZON_ISSUED"]) false) Example.conn "now"
    ["AMAZON_ISSUED"] [Example.issued, Example.imported] Example.issued rfl (by decide) rfl
    rfl rfl

/-- C5: with `most_recent` false, a successful listing and describe phase that
retains two or more details ends in `AmbiguousMatch`; and `AmbiguousMatch` is
returned only when more than one detail was retained and `most_recent` is false. -/
theorem C5_ambiguous_match (d : ResourceData) (conn : ACM) (now : String) :
    (d.most_recent = false → (Spec.listing d conn).err = none →
      ∀ ds, Spec.retained d conn = .ok ds → 2 ≤ ds.length →
        (dataSourceAwsAcmCertificateRead d conn now).ret = AmbiguousMatch d.domain) ∧
    ((dataSourceAwsAcmCertificateRead d conn now).ret = AmbiguousMatch d.domain →
      ∃ ds, (Spec.listing d conn).err = none ∧ Spec.retained d conn = .ok ds ∧
        1 < ds.length ∧ d.most_recent = false) := by
  constructor
  · intro hm hl ds hr hlen
    rw [read_retained_ok d conn now ds hl hr, finish_ret_multiple]
    exact ⟨by omega, hm⟩
  · intro h
    cases hl : (Spec.listing d conn).err with
    | some e =>
      rw [read_listing_error d conn now e hl] at h
      simp [Wrapped, AmbiguousMatch] at h
    | none =>
      cases hr : Spec.retained d conn with
      | error e =>
        rw [(read_retained_error d conn now e hl hr).2] at h
        simp [Wrapped, AmbiguousMatch] at h
      | ok ds =>
        rw [read_retained_ok d conn now ds hl hr, finish_ret_multiple] at h
        exact ⟨ds, rfl, rfl, h.1, h.2⟩

theorem C5_ambiguous_match_witness :
    (dataSourceAwsAcmCertificateRead (Example.query (some ["AMAZON_ISSUED", "IMPORTED"]) false)
      Example.conn "now").ret = AmbiguousMatch "example.com" :=
  (C5_ambiguous_match (Example.query (some ["AMAZON_ISSUED", "IMPORTED"]) false)
    Example.conn "now").1 rfl rfl [Example.issued, Example.imported] rfl (by decide)

/-- C6: when the listing and the describe calls succeed, the read function
fails with `NotFound` exactly when no detail is retained; in particular it does
so whenever no summary matches the domain. -/
theorem C6_not_found_iff (d : ResourceData) (conn : ACM) (now : String)
    (hlist : (Spec.listing d conn).err = none) :
    (∀ ds, Spec.retained d conn = .ok ds →
      ((dataSourceAwsAcmCertificateRead d conn now).ret = NotFound d.domain ↔ ds = [])) ∧
    (Spec.candidates d.domain (Spec.listing d conn).pages = [] →
      (dataSourceAwsAcmCertificateRead d conn now).ret = NotFound d.domain) := by
  constructor
  · intro ds hr
    rw [read_retained_ok d conn now ds hlist hr, finish_ret_notFound]
  · intro hc
    have hr : Spec.retained d conn = .ok [] := by
      unfold Spec.retained
      cases Spec.typesOf d with
      | none => rfl
      | some types => simp [hc, Spec.describeAll]
    rw [read_retained_ok d conn now [] hlist hr, finish_ret_notFound]

theorem C6_not_found_iff_witness :
    (dataSourceAwsAcmCertificateRead
        ⟨"missing.net", none, some ["AMAZON_ISSUED"], true, "", none⟩ Example.conn "now").ret
      = NotFound "missing.net" :=
  (C6_not_found_iff ⟨"missing.net", none, some ["AMAZON_ISSUED"], true, "", none⟩
    Example.conn "now" rfl).2 rfl

/-- C7: the candidate list built by the page callback is the list of
identifiers of the summaries, over all pages in lister order, whose domain name
equals the queried domain exactly; and every identifier passed to the describer
is the identifier of such a summary. -/
theorem C7_candidates (d : ResourceData) (conn : ACM) (now : String) :
    (ListCertificatesPages (Spec.listing d conn) (pageCallback d.domain)
        (Spec.listing d conn).pages []).1
      = (((Spec.listing d conn).pages.flatMap (fun page => page.CertificateSummaryList)).filter
          (fun s => decide (s.DomainName = d.domain))).map (fun s => s.CertificateArn) ∧
    ∀ arn, Call.DescribeCertificate arn ∈ (dataSourceAwsAcmCertificateRead d conn now).calls →
      ∃ s, s ∈ Spec.summaries (Spec.listing d conn).pages ∧ s.DomainName = d.domain ∧
        s.CertificateArn = arn := by
  constructor
  · rw [ListCertificatesPages_pageCallback]
    simp [Spec.candidates, Spec.summaries]
  · intro arn h
    obtain ⟨n, hn⟩ := read_calls d conn now
    rw [hn] at h
    simp only [List.mem_cons, List.mem_map, reduceCtorEq, false_or] at h
    obtain ⟨a, ha, hEq⟩ := h
    have ha' := List.mem_of_mem_take ha
    simp only [Call.DescribeCertificate.injEq] at hEq
    subst hEq
    simp only [Spec.candidates, List.mem_map, List.mem_filter, decide_eq_true_eq] at ha'
    obtain ⟨s, ⟨hs, hdom⟩, harn⟩ := ha'
    exact ⟨s, hs, hdom, harn⟩

/-- C8: an error of the lister is returned wrapped without any describe call
being issued; an error of the describe call for the candidate of index `k` is
returned wrapped, after exactly `k + 1` describe calls, the resource data
untouched. -/
theorem C8_errors_abort (d : ResourceData) (conn : ACM) (now : String) :
    (∀ err, (Spec.listing d conn).err = some err →
      dataSourceAwsAcmCertificateRead d conn now =
        ⟨d, [Call.ListCertificatesPages (Spec.statusFilter d)], Wrapped err⟩) ∧
    (∀ types k err, (Spec.listing d conn).err = none → Spec.typesOf d = some types →
      k < (Spec.candidates d.domain (Spec.listing d conn).pages).length →
      (∀ j, j < k → ∀ arn, (Spec.candidates d.domain (Spec.listing d conn).pages)[j]? = some arn →
        ∃ c, conn.describeCertificate j arn = .ok c) →
      (∀ arn, (Spec.candidates d.domain (Spec.listing d conn).pages)[k]? = some arn →
        conn.describeCertificate k arn = .error err) →
      dataSourceAwsAcmCertificateRead d conn now =
        ⟨d, Call.ListCertificatesPages (Spec.statusFilter d) ::
            ((Spec.candidates d.domain (Spec.listing d conn).pages).take (k + 1)).map
              Call.DescribeCertificate,
          Wrapped err⟩) := by
  constructor
  · intro err h
    exact read_listing_error d conn now err h
  · intro types k err hl ht hk hok hfail
    rw [read_unfold, hl]
    simp only [ht]
    rw [describeLoop_error conn types _ 0 [] _ k err hk
      (fun j hj a ha => by simpa using hok j hj a ha)
      (fun a ha => by simpa using hfail a ha)]
    simp

theorem C8_errors_abort_witness :
    dataSourceAwsAcmCertificateRead (Example.query (some ["AMAZON_ISSUED"]) true)
        Example.failingLister "now"
      = ⟨Example.query (some ["AMAZON_ISSUED"]) true, [Call.ListCertificatesPages ["ISSUED"]],
          Wrapped ⟨"ThrottlingException"⟩⟩ ∧
    dataSourceAwsAcmCertificateRead (Example.query (some ["AMAZON_ISSUED"]) true)
        Example.failingDescriber "now"
      = ⟨Example.query (some ["AMAZON_ISSUED"]) true,
          [Call.ListCertificatesPages ["ISSUED"], Call.DescribeCertificate "arn:issued",
            Call.DescribeCertificate "arn:imported"],
          Wrapped ⟨"ThrottlingException"⟩⟩ :=
  ⟨(C8_errors_abort (Example.query (some ["AMAZON_ISSUED"]) true) Example.failingLister "now").1
      ⟨"ThrottlingException"⟩ rfl,
    (C8_errors_abort (Example.query (some ["AMAZON_ISSUED"]) true) Example.failingDescriber
      "now").2 ["AMAZON_ISSUED"] 1 ⟨"ThrottlingException"⟩ rfl rfl (by decide)
      (fun j hj arn ha => by
        have hj0 : j = 0 := by omega
        subst hj0
        have : arn = "arn:issued" := by
          have h : (some "arn:issued" : Option String) = some arn := ha
          exact (Option.some.inj h).symm
        subst this
        exact ⟨Example.issued, rfl⟩)
      (fun arn _ => rfl)⟩

/-- C9, counterexample: with two retained details, the second without any
timestamp, and `most_recent` true, the read function does not succeed (it
panics in the sort) and yet the id has been set: the resource data differs from
the one received, while `arn` is still unset. -/
theorem C9_id_set_on_panic :
    (dataSourceAwsAcmCertificateRead (Example.query (some ["AMAZON_ISSUED"]) true)
        Example.halfTimedConn "now").ret = .panicked ∧
    (dataSourceAwsAcmCertificateRead (Example.query (some ["AMAZON_ISSUED"]) true)
        Example.halfTimedConn "now").ret ≠ .nil ∧
    (Example.query (some ["AMAZON_ISSUED"]) true).id = "" ∧
    (dataSourceAwsAcmCertificateRead (Example.query (some ["AMAZON_ISSUED"]) true)
        Example.halfTimedConn "now").d.id = "now" ∧
    (dataSourceAwsAcmCertificateRead (Example.query (some ["AMAZON_ISSUED"]) true)
        Example.halfTimedConn "now").d ≠ Example.query (some ["AMAZON_ISSUED"]) true ∧
    (dataSourceAwsAcmCertificateRead (Example.query (some ["AMAZON_ISSUED"]) true)
        Example.halfTimedConn "now").d.arn = none :=
  ⟨rfl, by decide, rfl, rfl, by decide, rfl⟩

/-- C9, amended: every call that returns an error (a listing error, a describe
error, `NotFound`, `AmbiguousMatch`) leaves the resource data as it was; a call
that returns nil has set the id and `arn`; `arn` differs from its initial value
only after a call that returned nil; a call that panics has set the id and
nothing else, and it had two or more retained details, one of them without
timestamp, and `most_recent` true; and when every described detail has a
timestamp, the resource data changes only on a call that returned nil. -/
theorem C9_all_or_nothing (d : ResourceData) (conn : ACM) (now : String) :
    (∀ e, (dataSourceAwsAcmCertificateRead d conn now).ret = .error e →
      (dataSourceAwsAcmCertificateRead d conn now).d = d) ∧
    ((dataSourceAwsAcmCertificateRead d conn now).ret = .nil →
      ∃ arn, (dataSourceAwsAcmCertificateRead d conn now).d = (d.SetId now).SetArn arn) ∧
    ((dataSourceAwsAcmCertificateRead d conn now).d.arn ≠ d.arn →
      (dataSourceAwsAcmCertificateRead d conn now).ret = .nil) ∧
    ((dataSourceAwsAcmCertificateRead d conn now).ret = .panicked →
      (dataSourceAwsAcmCertificateRead d conn now).d = d.SetId now ∧
      d.most_recent = true ∧
      ∃ ds, Spec.retained d conn = .ok ds ∧ 2 ≤ ds.length ∧ ∃ c ∈ ds, ¬ Spec.hasTimestamp c) ∧
    ((∀ k arn c, conn.describeCertificate k arn = .ok c → Spec.hasTimestamp c) →
      (dataSourceAwsAcmCertificateRead d conn now).d ≠ d →
      (dataSourceAwsAcmCertificateRead d conn now).ret = .nil) := by
  cases hl : (Spec.listing d conn).err with
  | some err =>
    rw [read_listing_error d conn now err hl]
    simp [Wrapped]
  | none =>
    cases hr : Spec.retained d conn with
    | error err =>
      obtain ⟨h1, h2⟩ := read_retained_error d conn now err hl hr
      rw [h1, h2]
      simp [Wrapped]
    | ok ds =>
      rw [read_retained_ok d conn now ds hl hr]
      refine ⟨fun e he => finish_ret_error d now _ ds e he, finish_ret_nil d now _ ds,
        finish_arn d now _ ds, fun hp => ?_, fun hts hne => ?_⟩
      · obtain ⟨h1, h2, h3, h4⟩ := finish_panicked d now _ ds hp
        exact ⟨h1, h3, ds, rfl, h2, h4⟩
      · have hT : AllTs ds := fun c hc => by
          obtain ⟨k, arn, hk⟩ := retained_mem d conn ds hr c hc
          exact hts k arn c hk
        have hp := finish_not_panicked d now (Spec.calls d conn) ds hT
        cases hret : (Spec.finish d now (Spec.calls d conn) ds).ret with
        | nil => rfl
        | error e => exact absurd (finish_ret_error d now _ ds e hret) hne
        | panicked => exact absurd hret hp

theorem C9_all_or_nothing_witness :
    (dataSourceAwsAcmCertificateRead (Example.query (some ["AMAZON_ISSUED", "IMPORTED"]) false)
        Example.conn "now").d = Example.query (some ["AMAZON_ISSUED", "IMPORTED"]) false ∧
    (∃ arn, (dataSourceAwsAcmCertificateRead (Example.query (some ["AMAZON_ISSUED"]) false)
        Example.conn "now").d
      = ((Example.query (some ["AMAZON_ISSUED"]) false).SetId "now").SetArn arn) ∧
    (dataSourceAwsAcmCertificateRead (Example.query (some ["AMAZON_ISSUED"]) true)
        Example.halfTimedConn "now").d
      = (Example.query (some ["AMAZON_ISSUED"]) true).SetId "now" :=
  ⟨(C9_all_or_nothing (Example.query (some ["AMAZON_ISSUED", "IMPORTED"]) false)
      Example.conn "now").1 (.Errorf ambiguousFormat "example.com") rfl,
    (C9_all_or_nothing (Example.query (some ["AMAZON_ISSUED"]) false)
      Example.conn "now").2.1 rfl,
    ((C9_all_or_nothing (Example.query (some ["AMAZON_ISSUED"]) true)
      Example.halfTimedConn "now").2.2.2.1 rfl).1⟩

/-- C10: the status filter of the listing request, the first request issued, is
`statuses`, element for element, when `statuses` is provided and non-empty, and
the single status `ISSUED` when it is absent or empty. -/
theorem C10_status_filter (d : ResourceData) (conn : ACM) (now : String) :
    (∀ l, d.statuses = some l → l ≠ [] →
      (dataSourceAwsAcmCertificateRead d conn now).calls.head? =
        some (Call.ListCertificatesPages l)) ∧
    (d.statuses = none ∨ d.statuses = some [] →
      (dataSourceAwsAcmCertificateRead d conn now).calls.head? =
        some (Call.ListCertificatesPages ["ISSUED"])) := by
  obtain ⟨n, hn⟩ := read_calls d conn now
  rw [hn]
  constructor
  · intro l hl hne
    cases l with
    | nil => exact absurd rfl hne
    | cons s rest => simp [Spec.statusFilter, hl]
  · rintro (h | h) <;> simp [Spec.statusFilter, h]

theorem C10_status_filter_witness :
    (dataSourceAwsAcmCertificateRead
        ⟨"example.com", some ["PENDING_VALIDATION", "ISSUED"], none, false, "", none⟩
        Example.conn "now").calls.head?
      = some (Call.ListCertificatesPages ["PENDING_VALIDATION", "ISSUED"]) ∧
    (dataSourceAwsAcmCertificateRead ⟨"example.com", some [], none, false, "", none⟩
        Example.conn "now").calls.head? = some (Call.ListCertificatesPages ["ISSUED"]) :=
  ⟨(C10_status_filter ⟨"example.com", some ["PENDING_VALIDATION", "ISSUED"], none, false, "", none⟩
      Example.conn "now").1 _ rfl (by decide),
    (C10_status_filter ⟨"example.com", some [], none, false, "", none⟩
      Example.conn "now").2 (Or.inr rfl)⟩

/-- C11: on a slice whose details all have a timestamp, `Less(i, j)` returns
whether the recency timestamp of `b[j]` is strictly before that of `b[i]`, the
recency timestamp being `createdAt` if present and `importedAt` otherwise; in
particular `importedAt` plays no part when `createdAt` is present. -/
theorem C11_less_iff (b : byCreationDateDescending) (hts : ∀ c ∈ b, Spec.hasTimestamp c)
    (i j : Nat) (hi : i < b.length) (hj : j < b.length) :
    ∃ ti tj, Spec.recency b[i] = some ti ∧ Spec.recency b[j] = some tj ∧
      byCreationDateDescending.Less b i j = some (tj.Before ti) ∧
      (byCreationDateDescending.Less b i j = some true ↔ tj.nanos < ti.nanos) ∧
      (∀ t, b[i].CreatedAt = some t → ti = t) ∧ (∀ t, b[j].CreatedAt = some t → tj = t) := by
  obtain ⟨ti, hti⟩ := timestamp_isSome (hts b[i] (List.getElem_mem hi))
  obtain ⟨tj, htj⟩ := timestamp_isSome (hts b[j] (List.getElem_mem hj))
  rw [timestamp_eq_recency] at hti htj
  have hL := Less_eq_ts hts hi hj
  rw [ts_eq_of_recency hti, ts_eq_of_recency htj] at hL
  refine ⟨ti, tj, hti, htj, ?_, ?_, ?_, ?_⟩
  · rw [hL]; rfl
  · rw [hL]; simp
  · intro t ht
    simp only [Spec.recency, ht, Option.some.injEq] at hti
    exact hti.symm
  · intro t ht
    simp only [Spec.recency, ht, Option.some.injEq] at htj
    exact htj.symm

theorem C11_less_iff_witness :
    (∃ ti tj, Spec.recency [Example.reimported, Example.imported][0] = some ti ∧
      Spec.recency [Example.reimported, Example.imported][1] = some tj ∧
      byCreationDateDescending.Less [Example.reimported, Example.imported] 0 1
        = some (tj.Before ti) ∧
      (byCreationDateDescending.Less [Example.reimported, Example.imported] 0 1 = some true ↔
        tj.nanos < ti.nanos) ∧
      (∀ t, [Example.reimported, Example.imported][0].CreatedAt = some t → ti = t) ∧
      (∀ t, [Example.reimported, Example.imported][1].CreatedAt = some t → tj = t)) ∧
    byCreationDateDescending.Less [Example.reimported, Example.imported] 1 0 = some true :=
  ⟨C11_less_iff [Example.reimported, Example.imported] (by decide) 0 1 (by decide) (by decide),
    rfl⟩

/-- C12: when `types` is non-empty and the listing and every describe call
succeed, the list `certDetails` the loop builds is the sublist, in order, of
the described details whose type is one of `types`; a described detail is
appended at most once whatever the entries of `types`, so the list is no longer
than the candidate list; and it is the list the rest of the read function
works on. -/
theorem C12_retained_sublist (d : ResourceData) (conn : ACM) (now : String)
    (types : List String) (details : List CertificateDetail)
    (htypes : d.types = some types) (hne : types ≠ [])
    (hlist : (Spec.listing d conn).err = none)
    (hdesc : Spec.describeAll conn 0
      (Spec.candidates d.domain (Spec.listing d conn).pages) = .ok details) :
    ∃ kept, (describeLoop conn (expandStringList types) 0
        (Spec.candidates d.domain (Spec.listing d conn).pages) []
        [Call.ListCertificatesPages (Spec.statusFilter d)]).1 = .ok kept ∧
      kept = details.filter (fun c => decide (c.Type_ ∈ types)) ∧
      kept.Sublist details ∧ (∀ c, kept.count c ≤ details.count c) ∧
      kept.length ≤ (Spec.candidates d.domain (Spec.listing d conn).pages).length ∧
      (∀ c acc, (matchTypes c types acc).length ≤ acc.length + 1) ∧
      dataSourceAwsAcmCertificateRead d conn now = Spec.finish d now (Spec.calls d conn) kept := by
  have hsub : (details.filter (fun c => decide (c.Type_ ∈ types))).Sublist details :=
    List.filter_sublist details
  refine ⟨details.filter (fun c => decide (c.Type_ ∈ types)), ?_, rfl, hsub,
    fun c => hsub.count_le c, ?_, ?_, ?_⟩
  · rw [describeLoop_ok conn (expandStringList types) _ 0 [] _ details hdesc]
    simp [expandStringList]
  · rw [← describeAll_length conn _ 0 details hdesc]
    exact hsub.length_le
  · intro c acc
    rw [matchTypes_eq]
    split <;> simp
  · apply read_retained_ok d conn now _ hlist
    unfold Spec.retained
    rw [typesOf_of_nonempty htypes hne]
    simp only [hdesc]

theorem C12_retained_sublist_witness :
    ∃ kept, (describeLoop Example.conn (expandStringList ["IMPORTED", "IMPORTED", "IMPORTED"]) 0
        (Spec.candidates "example.com"
          (Spec.listing (Example.query (some ["IMPORTED", "IMPORTED", "IMPORTED"]) true)
            Example.conn).pages) []
        [Call.ListCertificatesPages
          (Spec.statusFilter (Example.query (some ["IMPORTED", "IMPORTED", "IMPORTED"]) true))]).1
          = .ok kept ∧
      kept = [Example.issued, Example.imported].filter
        (fun c => decide (c.Type_ ∈ ["IMPORTED", "IMPORTED", "IMPORTED"])) ∧
      kept.Sublist [Example.issued, Example.imported] ∧
      (∀ c, kept.count c ≤ [Example.issued, Example.imported].count c) ∧
      kept.length ≤ (Spec.candidates "example.com"
        (Spec.listing (Example.query (some ["IMPORTED", "IMPORTED", "IMPORTED"]) true)
          Example.conn).pages).length ∧
      (∀ c acc, (matchTypes c ["IMPORTED", "IMPORTED", "IMPORTED"] acc).length ≤ acc.length + 1) ∧
      dataSourceAwsAcmCertificateRead (Example.query (some ["IMPORTED", "IMPORTED", "IMPORTED"]) true)
          Example.conn "now"
        = Spec.finish (Example.query (some ["IMPORTED", "IMPORTED", "IMPORTED"]) true) "now"
            (Spec.calls (Example.query (some ["IMPORTED", "IMPORTED", "IMPORTED"]) true)
              Example.conn) kept :=
  C12_retained_sublist (Example.query (some ["IMPORTED", "IMPORTED", "IMPORTED"]) true)
    Example.conn "now" ["IMPORTED", "IMPORTED", "IMPORTED"] [Example.issued, Example.imported]
    rfl (by decide) rfl rfl

/-- C13: the identifiers passed to the describer are none at all when `types`
is absent or empty, and, when `types` is non-empty and the listing and every
describe call succeed, exactly the candidate identifiers, one call each, in
lister order. -/
theorem C13_describe_calls (d : ResourceData) (conn : ACM) (now : String) :
    (d.types = none ∨ d.types = some [] →
      Spec.describedArns (dataSourceAwsAcmCertificateRead d conn now).calls = []) ∧
    (∀ types details, d.types = some types → types ≠ [] →
      (Spec.listing d conn).err = none →
      Spec.describeAll conn 0
        (Spec.candidates d.domain (Spec.listing d conn).pages) = .ok details →
      Spec.describedArns (dataSourceAwsAcmCertificateRead d conn now).calls =
        Spec.candidates d.domain (Spec.listing d conn).pages) := by
  constructor
  · intro htypes
    have ht := typesOf_of_empty htypes
    cases hl : (Spec.listing d conn).err with
    | some err =>
      rw [read_listing_error d conn now err hl]
      rfl
    | none =>
      have hr : Spec.retained d conn = .ok [] := by
        unfold Spec.retained
        rw [ht]
      rw [read_retained_ok d conn now [] hl hr, finish_calls]
      unfold Spec.calls
      rw [ht]
      rfl
  · intro types details htypes hne hl hdesc
    have ht := typesOf_of_nonempty htypes hne
    have hr : Spec.retained d conn =
        .ok (details.filter (fun c => decide (c.Type_ ∈ types))) := by
      unfold Spec.retained
      rw [ht]
      simp only [hdesc]
    rw [read_retained_ok d conn now _ hl hr, finish_calls]
    unfold Spec.calls
    rw [ht]
    simp only [Spec.describedArns, List.filterMap_cons]
    exact describedArns_map _

theorem C13_describe_calls_witness :
    Spec.describedArns (dataSourceAwsAcmCertificateRead (Example.query none true)
        Example.conn "now").calls = [] ∧
    Spec.describedArns (dataSourceAwsAcmCertificateRead
        (Example.query (some ["AMAZON_ISSUED"]) true) Example.conn "now").calls
      = Spec.candidates "example.com"
          (Spec.listing (Example.query (some ["AMAZON_ISSUED"]) true) Example.conn).pages :=
  ⟨(C13_describe_calls (Example.query none true) Example.conn "now").1 (Or.inl rfl),
    (C13_describe_calls (Example.query (some ["AMAZON_ISSUED"]) true) Example.conn "now").2
      ["AMAZON_ISSUED"] [Example.issued, Example.imported] rfl (by decide) rfl rfl⟩

/-- C14: a detail with one of its timestamps present has a recency timestamp,
`CreatedAt` when present and `ImportedAt` otherwise, so `timestamp` does not
panic on it; hence `sort.Sort` returns on every slice of such details and the
read function does not panic on a retained list of such details; on a detail
with neither timestamp, `timestamp` panics. -/
theorem C14_timestamp_safe :
    (∀ c, Spec.hasTimestamp c →
      ∃ t, timestamp c = some t ∧
        (c.CreatedAt = some t ∨ (c.CreatedAt = none ∧ c.ImportedAt = some t))) ∧
    (∀ l : List CertificateDetail, (∀ c ∈ l, Spec.hasTimestamp c) →
      ∃ sorted, SortData byCreationDateDescending.Interface l = some sorted) ∧
    (∀ d conn now ds, (Spec.listing d conn).err = none → Spec.retained d conn = .ok ds →
      (∀ c ∈ ds, Spec.hasTimestamp c) →
      (dataSourceAwsAcmCertificateRead d conn now).ret ≠ .panicked) ∧
    (∀ c, c.CreatedAt = none → c.ImportedAt = none → timestamp c = none) := by
  refine ⟨fun c hc => ?_, fun l hl => ?_, fun d conn now ds hlist hr hts => ?_,
    fun c h1 h2 => ?_⟩
  · unfold timestamp
    cases h1 : c.CreatedAt with
    | some t => exact ⟨t, by simp, Or.inl rfl⟩
    | none =>
      cases h2 : c.ImportedAt with
      | some t => exact ⟨t, by simp, Or.inr ⟨rfl, rfl⟩⟩
      | none =>
        unfold Spec.hasTimestamp at hc
        simp [h1, h2] at hc
  · obtain ⟨sorted, e, _, _⟩ := SortData_spec hl
    exact ⟨sorted, e⟩
  · rw [read_retained_ok d conn now ds hlist hr]
    exact finish_not_panicked d now _ ds hts
  · unfold timestamp
    simp [h1, h2]

theorem C14_timestamp_safe_witness :
    (∃ t, timestamp Example.reimported = some t ∧
      (Example.reimported.CreatedAt = some t ∨
        (Example.reimported.CreatedAt = none ∧ Example.reimported.ImportedAt = some t))) ∧
    (∃ sorted, SortData byCreationDateDescending.Interface Example.thirteen = some sorted) ∧
    (dataSourceAwsAcmCertificateRead (Example.query (some ["AMAZON_ISSUED", "IMPORTED"]) true)
      Example.conn "now").ret ≠ .panicked ∧
    timestamp Example.untimed = none :=
  ⟨C14_timestamp_safe.1 Example.reimported (by decide),
    C14_timestamp_safe.2.1 Example.thirteen (by decide),
    C14_timestamp_safe.2.2.1 (Example.query (some ["AMAZON_ISSUED", "IMPORTED"]) true)
      Example.conn "now" [Example.issued, Example.imported] rfl rfl (by decide),
    C14_timestamp_safe.2.2.2 Example.untimed rfl rfl⟩

/-- C15: on a slice whose details all have a timestamp, `Less(i, j)` is the
strict comparison of the instants of the recency timestamps (`createdAt` if
present, else `importedAt`) of `b[j]` and `b[i]`; it is irreflexive, asymmetric
and transitive; two entries are incomparable exactly when their recency
timestamps are the same instant, and incomparability is transitive; and
`sort.Sort` returns a permutation of the slice in which the instant of the
recency timestamp never increases. -/
theorem C15_strict_weak_order (b : byCreationDateDescending)
    (hts : ∀ c ∈ b, Spec.hasTimestamp c) :
    (∀ i j (hi : i < b.length) (hj : j < b.length),
      ∃ ti tj, Spec.recency b[i] = some ti ∧ Spec.recency b[j] = some tj ∧
        byCreationDateDescending.Less b i j = some (decide (tj.nanos < ti.nanos))) ∧
    (∀ i, i < b.length → byCreationDateDescending.Less b i i = some false) ∧
    (∀ i j, i < b.length → j < b.length →
      ¬ (byCreationDateDescending.Less b i j = some true ∧
        byCreationDateDescending.Less b j i = some true)) ∧
    (∀ i j k, i < b.length → j < b.length → k < b.length →
      byCreationDateDescending.Less b i j = some true →
      byCreationDateDescending.Less b j k = some true →
      byCreationDateDescending.Less b i k = some true) ∧
    (∀ i j (hi : i < b.length) (hj : j < b.length),
      (byCreationDateDescending.Less b i j = some false ∧
        byCreationDateDescending.Less b j i = some false) ↔
      ∃ ti tj, Spec.recency b[i] = some ti ∧ Spec.recency b[j] = some tj ∧
        ti.nanos = tj.nanos) ∧
    (∀ i j k, i < b.length → j < b.length → k < b.length →
      (byCreationDateDescending.Less b i j = some false ∧
        byCreationDateDescending.Less b j i = some false) →
      (byCreationDateDescending.Less b j k = some false ∧
        byCreationDateDescending.Less b k j = some false) →
      (byCreationDateDescending.Less b i k = some false ∧
        byCreationDateDescending.Less b k i = some false)) ∧
    ∃ sorted, SortData byCreationDateDescending.Interface b = some sorted ∧ sorted.Perm b ∧
      sorted.Pairwise (fun x y =>
        ∃ tx ty, Spec.recency x = some tx ∧ Spec.recency y = some ty ∧ ty.nanos ≤ tx.nanos) := by
  have hT : AllTs b := hts
  refine ⟨fun i j hi hj => ?_, fun i hi => ?_, fun i j hi hj => ?_,
    fun i j k hi hj hk h1 h2 => ?_, fun i j hi hj => ?_, fun i j k hi hj hk h1 h2 => ?_, ?_⟩
  · obtain ⟨ti, hti, ei⟩ := recency_isSome (hts b[i] (List.getElem_mem hi))
    obtain ⟨tj, htj, ej⟩ := recency_isSome (hts b[j] (List.getElem_mem hj))
    refine ⟨ti, tj, hti, htj, ?_⟩
    rw [Less_eq_ts hT hi hj, ei, ej]
  · rw [Less_eq_ts hT hi hi]
    simp
  · rw [Less_eq_ts hT hi hj, Less_eq_ts hT hj hi]
    simp only [Option.some.injEq, decide_eq_true_eq]
    omega
  · rw [Less_eq_ts hT hi hj] at h1
    rw [Less_eq_ts hT hj hk] at h2
    rw [Less_eq_ts hT hi hk]
    simp only [Option.some.injEq, decide_eq_true_eq] at h1 h2 ⊢
    omega
  · obtain ⟨ti, hti, ei⟩ := recency_isSome (hts b[i] (List.getElem_mem hi))
    obtain ⟨tj, htj, ej⟩ := recency_isSome (hts b[j] (List.getElem_mem hj))
    rw [Less_eq_ts hT hi hj, Less_eq_ts hT hj hi, ei, ej]
    simp only [Option.some.injEq, decide_eq_false_iff_not]
    constructor
    · intro h
      exact ⟨ti, tj, hti, htj, by omega⟩
    · rintro ⟨ti', tj', hti', htj', he⟩
      rw [hti] at hti'
      rw [htj] at htj'
      cases hti'
      cases htj'
      omega
  · rw [Less_eq_ts hT hi hj, Less_eq_ts hT hj hi] at h1
    rw [Less_eq_ts hT hj hk, Less_eq_ts hT hk hj] at h2
    rw [Less_eq_ts hT hi hk, Less_eq_ts hT hk hi]
    simp only [Option.some.injEq, decide_eq_false_iff_not] at h1 h2 ⊢
    omega
  · obtain ⟨sorted, e, hp, hs⟩ := SortData_spec hT
    rw [← hp.length_eq] at hs
    refine ⟨sorted, e, hp, ?_⟩
    refine (sorted_pairwise hs).imp_of_mem ?_
    intro x y hx hy hxy
    obtain ⟨tx, htx, ex⟩ := recency_isSome (hts x (hp.mem_iff.mp hx))
    obtain ⟨ty, hty, ey⟩ := recency_isSome (hts y (hp.mem_iff.mp hy))
    exact ⟨tx, ty, htx, hty, by omega⟩

theorem C15_strict_weak_order_witness :
    (∃ sorted, SortData byCreationDateDescending.Interface Example.mixed = some sorted ∧
      sorted.Perm Example.mixed ∧
      sorted.Pairwise (fun x y =>
        ∃ tx ty, Spec.recency x = some tx ∧ Spec.recency y = some ty ∧ ty.nanos ≤ tx.nanos)) ∧
    SortData byCreationDateDescending.Interface Example.mixed
      = some [Example.imported,
          ⟨"arn:april", "IMPORTED", none, some ⟨1680307200000000000, 0⟩⟩,
          Example.reimported] ∧
    byCreationDateDescending.Less Example.mixed 2 0 = some true ∧
    byCreationDateDescending.Less Example.mixed 0 2 = some false :=
  ⟨(C15_strict_weak_order Example.mixed (by decide)).2.2.2.2.2.2, rfl, rfl, rfl⟩

/-- C16: on every successful read the arn set is the `CertificateArn` of a detail
that the describer returned for the candidate of some index `k`, itself the arn
of a listed summary of the queried domain, and whose type is one of the queried
types; when the describer answers each identifier with a detail carrying that
identifier, the arn set is the arn of a listed summary of the queried domain. -/
theorem C16_arn_provenance (d : ResourceData) (conn : ACM) (now : String)
    (hok : (dataSourceAwsAcmCertificateRead d conn now).ret = .nil) :
    (∃ types c k arn s, d.types = some types ∧
      (Spec.candidates d.domain (Spec.listing d conn).pages)[k]? = some arn ∧
      s ∈ Spec.summaries (Spec.listing d conn).pages ∧ s.DomainName = d.domain ∧
      s.CertificateArn = arn ∧
      conn.describeCertificate k arn = .ok c ∧ c.Type_ ∈ types ∧
      (dataSourceAwsAcmCertificateRead d conn now).d.arn = some c.CertificateArn) ∧
    ((∀ k arn c, conn.describeCertificate k arn = .ok c → c.CertificateArn = arn) →
      ∃ s, s ∈ Spec.summaries (Spec.listing d conn).pages ∧ s.DomainName = d.domain ∧
        (dataSourceAwsAcmCertificateRead d conn now).d.arn = some s.CertificateArn) := by
  obtain ⟨hl, ds, hr⟩ := read_nil_retained d conn now hok
  have hread := read_retained_ok d conn now ds hl hr
  rw [hread] at hok
  obtain ⟨c, hc, harn⟩ := finish_nil_mem d now _ ds hok
  rw [hread]
  have key : ∃ types k arn s, d.types = some types ∧
      (Spec.candidates d.domain (Spec.listing d conn).pages)[k]? = some arn ∧
      s ∈ Spec.summaries (Spec.listing d conn).pages ∧ s.DomainName = d.domain ∧
      s.CertificateArn = arn ∧
      conn.describeCertificate k arn = .ok c ∧ c.Type_ ∈ types := by
    unfold Spec.retained at hr
    cases ht : Spec.typesOf d with
    | none =>
      simp only [ht, Except.ok.injEq] at hr
      subst hr
      simp at hc
    | some types =>
      simp only [ht] at hr
      cases ha : Spec.describeAll conn 0
          (Spec.candidates d.domain (Spec.listing d conn).pages) with
      | error e => simp [ha] at hr
      | ok details =>
        simp only [ha, Except.ok.injEq] at hr
        subst hr
        obtain ⟨hc1, hc2⟩ := List.mem_filter.mp hc
        obtain ⟨k, arn, hk, hd⟩ := describeAll_index conn _ 0 details ha c hc1
        have hmem : arn ∈ Spec.candidates d.domain (Spec.listing d conn).pages :=
          List.mem_iff_getElem?.mpr ⟨k, hk⟩
        simp only [Spec.candidates, List.mem_map, List.mem_filter, decide_eq_true_eq] at hmem
        obtain ⟨s, ⟨hs, hdom⟩, hsarn⟩ := hmem
        have htypes : d.types = some types := by
          unfold Spec.typesOf at ht
          split at ht
          · simpa using congrArg some (Option.some.inj ht) ▸ ‹d.types = some _›
          · simp at ht
        exact ⟨types, k, arn, s, htypes, hk, hs, hdom, hsarn, by simpa using hd,
          of_decide_eq_true hc2⟩
  obtain ⟨types, k, arn, s, h1, h2, h3, h4, h5, h6, h7⟩ := key
  refine ⟨⟨types, c, k, arn, s, h1, h2, h3, h4, h5, h6, h7, harn⟩, ?_⟩
  intro hsame
  refine ⟨s, h3, h4, ?_⟩
  rw [harn, hsame k arn c h6, h5]

theorem C16_arn_provenance_witness :
    (dataSourceAwsAcmCertificateRead (Example.query (some ["IMPORTED"]) false) Example.conn
        "2023-06-01").ret = .nil ∧
    (dataSourceAwsAcmCertificateRead (Example.query (some ["IMPORTED"]) false) Example.conn
        "2023-06-01").d.arn = some "arn:imported" ∧
    ∃ s, s ∈ Spec.summaries
        (Spec.listing (Example.query (some ["IMPORTED"]) false) Example.conn).pages ∧
      s.DomainName = (Example.query (some ["IMPORTED"]) false).domain ∧
      (dataSourceAwsAcmCertificateRead (Example.query (some ["IMPORTED"]) false) Example.conn
        "2023-06-01").d.arn = some s.CertificateArn :=
  ⟨by rfl, by rfl,
    (C16_arn_provenance (Example.query (some ["IMPORTED"]) false) Example.conn "2023-06-01"
      (by rfl)).2 (by
        intro k arn c h
        simp only [Example.conn] at h
        split at h
        · cases h; simp [Example.issued, *]
        · split at h
          · cases h; simp [Example.imported, *]
          · cases h)⟩

/-- C17: a single retained detail is returned whether or not it has a
timestamp, because `sort.Sort` makes no call of `Less` on a slice of one
element, even for an interface whose `Less` always panics; the read function
cannot panic unless two or more details are retained and `most_recent` is
true, and with two retained details, one without a timestamp, and
`most_recent` true it does panic. -/
theorem C17_single_detail (d : ResourceData) (conn : ACM) (now : String)
    (hlist : (Spec.listing d conn).err = none) :
    (∀ c, Spec.retained d conn = .ok [c] →
      (dataSourceAwsAcmCertificateRead d conn now).ret = .nil ∧
      (dataSourceAwsAcmCertificateRead d conn now).d.arn = some c.CertificateArn) ∧
    (∀ c : CertificateDetail,
      SortData ⟨byCreationDateDescending.Len, fun _ _ _ => none, byCreationDateDescending.Swap⟩ [c]
        = some [c]) ∧
    (∀ ds, Spec.retained d conn = .ok ds → ds.length < 2 ∨ d.most_recent = false →
      (dataSourceAwsAcmCertificateRead d conn now).ret ≠ .panicked) ∧
    (∃ q srv ds, q.most_recent = true ∧ (Spec.listing q srv).err = none ∧
      Spec.retained q srv = .ok ds ∧ ds.length = 2 ∧
      (dataSourceAwsAcmCertificateRead q srv now).ret = .panicked) := by
  refine ⟨fun c hr => ?_, fun c => SortData_short _ _ (by simp [byCreationDateDescending.Len]),
    fun ds hr h => ?_,
    ⟨Example.query (some ["AMAZON_ISSUED"]) true, Example.halfTimedConn,
      [Example.issued, Example.untimed], rfl, rfl, rfl, rfl, rfl⟩⟩
  · rw [read_retained_ok d conn now [c] hlist hr]
    simp [Spec.finish, SortData_singleton, ResourceData.SetArn]
  · rw [read_retained_ok d conn now ds hlist hr]
    unfold Spec.finish
    split
    · simp [NotFound]
    · split
      · simp [AmbiguousMatch]
      · rename_i h0 h1
        have hlen : ds.length = 1 := by
          rcases h with h | h
          · omega
          · by_contra hne
            exact h1 ⟨by omega, h⟩
        obtain ⟨c, hc⟩ := List.length_eq_one.mp hlen
        subst hc
        simp [SortData_singleton]

theorem C17_single_detail_witness :
    (dataSourceAwsAcmCertificateRead (Example.query (some ["AMAZON_ISSUED"]) true)
        Example.untimedConn "now").ret = .nil ∧
      (dataSourceAwsAcmCertificateRead (Example.query (some ["AMAZON_ISSUED"]) true)
        Example.untimedConn "now").d.arn = some "arn:untimed" :=
  (C17_single_detail (Example.query (some ["AMAZON_ISSUED"]) true) Example.untimedConn "now"
    rfl).1 Example.untimed rfl

end AcmCertificate
